import Mathlib

/-!
# ssu_ext2: a read-only ext2 image reader

A shallow embedding of `src/ext2disk/ssu_ext2.c` and the properties of it that
the specification states.

Conventions of the embedding.

* A byte is a natural number; a C string is the list of its bytes before the
  terminating NUL (so the byte 0 does not occur in a C string).
* The image file is a size and a byte at every offset below the size;
  `pread` returns the bytes it could read.
* `uint32_t` arithmetic is written with an explicit `% 2 ^ 32`, `off_t`
  arithmetic with an explicit `% 2 ^ 64`.
* A sibling chain (`first_child`, then `next_sibling` links) is the list of
  the children in chain order.
* Code that can leave the normal path returns `Except Fault`.
-/

namespace SsuExt2

/-! ## Basic types -/

/-- The ways an execution leaves the normal path. -/
inductive Fault where
  /-- The program called `exit(EXIT_FAILURE)`. -/
  | exit_failure
  /-- The C code did something the language leaves undefined: used memory it
  never initialised, wrote past an allocated array, divided by zero, or
  shifted out of range. -/
  | undefined
  /-- The iteration budget of the model ran out; the C code is still running. -/
  | out_of_fuel
  deriving DecidableEq, Repr

deriving instance DecidableEq for Except

/-- `EXT2_FT_DIR`: the directory-entry file type of a directory. -/
def EXT2_FT_DIR : Nat := 2

/-- `EXT2_NAME_LEN`: the longest directory-entry name. -/
def EXT2_NAME_LEN : Nat := 255

/-- `PATH_MAX_LEN`: the longest path accepted. -/
def PATH_MAX_LEN : Nat := 4096

/-- `SUPERBLOCK_OFFSET`: the byte offset of the superblock. -/
def SUPERBLOCK_OFFSET : Nat := 1024

/-- The bytes of an ASCII string literal. -/
def ascii (s : String) : List Nat := s.data.map Char.toNat

/-- The C library's `strcmp` on two C strings, as the sign of the comparison:
bytes are compared as unsigned values, and a proper prefix is smaller. -/
def strcmp : List Nat → List Nat → Int
  | [], [] => 0
  | [], _ :: _ => -1
  | _ :: _, [] => 1
  | a :: as, b :: bs => if a < b then -1 else if b < a then 1 else strcmp as bs

/-- `struct Node`: a tree node. The `first_child` pointer and the chain of
`next_sibling` pointers hanging off it are the list `children`. -/
inductive Node where
  | mk (name : List Nat) (inode_no : Nat) (file_type : Nat) (children : List Node)

namespace Node

/-- The field `name`. -/
def name : Node → List Nat
  | mk n _ _ _ => n

/-- The field `inode_no`. -/
def inode_no : Node → Nat
  | mk _ i _ _ => i

/-- The field `file_type`. -/
def file_type : Node → Nat
  | mk _ _ t _ => t

/-- The chain that starts at `first_child`. -/
def children : Node → List Node
  | mk _ _ _ cs => cs

end Node

/-- `create_node`: a fresh node without children. -/
def create_node (name : List Nat) (ino : Nat) (type : Nat) : Node :=
  Node.mk name ino type []

/-! ## Sorted insertion -/

/-- The loop of `insert_child_sorted` over the chain `*cur`: it stops at the
place where `child` is linked in. -/
def insert_child_sorted_chain : List Node → Node → List Node
  | [], child => [child]
  | cur_node :: rest, child =>
    if child.file_type = EXT2_FT_DIR ∧ cur_node.file_type ≠ EXT2_FT_DIR then
      child :: cur_node :: rest
    else if child.file_type ≠ EXT2_FT_DIR ∧ cur_node.file_type = EXT2_FT_DIR then
      cur_node :: insert_child_sorted_chain rest child
    else if strcmp cur_node.name child.name < 0 then
      cur_node :: insert_child_sorted_chain rest child
    else
      child :: cur_node :: rest

/-- `insert_child_sorted(parent, child)`. -/
def insert_child_sorted (parent child : Node) : Node :=
  Node.mk parent.name parent.inode_no parent.file_type
    (insert_child_sorted_chain parent.children child)

/-- The order between an earlier sibling `a` and a later sibling `b`: a
directory never follows a non-directory, and two siblings of the same class
have byte-wise ascending names. -/
def ChildOrder (a b : Node) : Prop :=
  (b.file_type = EXT2_FT_DIR → a.file_type = EXT2_FT_DIR) ∧
  ((a.file_type = EXT2_FT_DIR ↔ b.file_type = EXT2_FT_DIR) → strcmp a.name b.name ≤ 0)

/-- The sort-order invariant of one child list. -/
def ChildrenSorted (l : List Node) : Prop := l.Pairwise ChildOrder

mutual
/-- The sort-order invariant at a node and at every node below it. -/
def Node.AllSorted : Node → Prop
  | .mk _ _ _ cs => ChildrenSorted cs ∧ Node.AllSortedList cs
/-- The sort-order invariant in every subtree of a chain. -/
def Node.AllSortedList : List Node → Prop
  | [] => True
  | c :: cs => Node.AllSorted c ∧ Node.AllSortedList cs
end


/-! ## The image and its metadata -/

/-- The image file: its length and its content. -/
structure Image where
  size : Nat
  byte : Nat → Nat

/-- The result of `pread(img_fd, buf, count, off)`: the bytes transferred, whose
number is the return value when that is positive. `off` is the bit pattern of
the `off_t` argument; a negative one (`2 ^ 63` and above) fails, and so does a
read at or past the end of the file. -/
def pread (img : Image) (count : Nat) (off : Nat) : List Nat :=
  if 2 ^ 63 ≤ off then []
  else (List.range (min count (img.size - off))).map (fun i => img.byte (off + i) % 256)

/-- `(off_t)a * b` for two 32-bit operands, as a 64-bit pattern. -/
def off_mul (a b : Nat) : Nat := (a * b) % 2 ^ 64

/-- Addition of two `off_t` values, as a 64-bit pattern. -/
def off_add (a b : Nat) : Nat := (a + b) % 2 ^ 64

/-- The unsigned 16-bit little-endian number at byte `k` of a buffer. -/
def le16 (buf : List Nat) (k : Nat) : Nat :=
  buf.getD k 0 + 256 * buf.getD (k + 1) 0

/-- The unsigned 32-bit little-endian number at byte `k` of a buffer. -/
def le32 (buf : List Nat) (k : Nat) : Nat :=
  buf.getD k 0 + 256 * buf.getD (k + 1) 0 + 65536 * buf.getD (k + 2) 0
    + 16777216 * buf.getD (k + 3) 0

/-- `struct ext2_super_block`, the fields the program or the specification
names, each at its offset in the 92-byte structure. -/
structure ext2_super_block where
  s_inodes_count : Nat
  s_blocks_count : Nat
  s_first_data_block : Nat
  s_log_block_size : Nat
  s_blocks_per_group : Nat
  s_inodes_per_group : Nat
  s_magic : Nat
  s_inode_size : Nat
  deriving DecidableEq, Repr

/-- `struct ext2_group_desc` (32 bytes), the fields before the counters. -/
structure ext2_group_desc where
  bg_block_bitmap : Nat
  bg_inode_bitmap : Nat
  bg_inode_table : Nat
  deriving DecidableEq, Repr

/-- `struct ext2_inode` (100 bytes), the fields the program reads. -/
structure ext2_inode where
  i_mode : Nat
  i_size : Nat
  i_block : List Nat
  deriving DecidableEq, Repr

/-- The entry `i_block[i]`. -/
def ext2_inode.blk (ino : ext2_inode) (i : Nat) : Nat := ino.i_block.getD i 0

/-- The globals `img_fd`, `block_size`, `inode_size` and `inodes_per_group`. -/
structure Globals where
  img : Image
  block_size : Nat
  inode_size : Nat
  inodes_per_group : Nat

/-- The superblock structure laid over the 92 bytes read. -/
def decode_super_block (buf : List Nat) : ext2_super_block where
  s_inodes_count := le32 buf 0
  s_blocks_count := le32 buf 4
  s_first_data_block := le32 buf 20
  s_log_block_size := le32 buf 24
  s_blocks_per_group := le32 buf 32
  s_inodes_per_group := le32 buf 40
  s_magic := le16 buf 56
  s_inode_size := le16 buf 88

/-- `read_superblock`: the structure read and the three globals it sets. The
shift `1024 << s_log_block_size` is an `int` shift, defined up to a count of
20. -/
def read_superblock (img : Image) : Except Fault (ext2_super_block × Globals) :=
  let buf := pread img 92 SUPERBLOCK_OFFSET
  if buf.length ≠ 92 then .error .exit_failure
  else
    let sb := decode_super_block buf
    if 20 < sb.s_log_block_size then .error .undefined
    else .ok (sb, { img := img
                    block_size := 1024 * 2 ^ sb.s_log_block_size
                    inode_size := sb.s_inode_size
                    inodes_per_group := sb.s_inodes_per_group })

/-- The byte offset `read_group_desc` reads descriptor `group` at. -/
def group_desc_offset (group block_size : Nat) : Nat :=
  let sb_block := SUPERBLOCK_OFFSET / block_size
  let gd_table_blk := (sb_block + 1) % 2 ^ 32
  off_add (off_mul gd_table_blk block_size) (off_mul group 32)

/-- `read_group_desc`. -/
def read_group_desc (img : Image) (group : Nat) (block_size : Nat) :
    Except Fault ext2_group_desc :=
  if block_size = 0 then .error .undefined
  else
    let buf := pread img 32 (group_desc_offset group block_size)
    if buf.length ≠ 32 then .error .exit_failure
    else .ok { bg_block_bitmap := le32 buf 0
               bg_inode_bitmap := le32 buf 4
               bg_inode_table := le32 buf 8 }

/-- The inode structure laid over the 100 bytes read. -/
def decode_inode (buf : List Nat) : ext2_inode where
  i_mode := le16 buf 0
  i_size := le32 buf 4
  i_block := (List.range 15).map (fun i => le32 buf (40 + 4 * i))

/-- The byte offset `read_inode` reads inode `ino` at, given the start block
of the inode table of its group. -/
def inode_offset (g : Globals) (bg_inode_table ino : Nat) : Nat :=
  let index := ((ino + 2 ^ 32 - 1) % 2 ^ 32) % g.inodes_per_group
  let tbl_off := off_mul bg_inode_table g.block_size
  off_add tbl_off (off_mul index g.inode_size)

/-- `read_inode`. -/
def read_inode (g : Globals) (ino : Nat) : Except Fault ext2_inode :=
  if g.inodes_per_group = 0 then .error .undefined
  else
    let group := ((ino + 2 ^ 32 - 1) % 2 ^ 32) / g.inodes_per_group
    match read_group_desc g.img group g.block_size with
    | .error e => .error e
    | .ok gd =>
      let buf := pread g.img 100 (inode_offset g gd.bg_inode_table ino)
      if buf.length ≠ 100 then .error .exit_failure
      else .ok (decode_inode buf)

/-! ## The block resolver -/

/-- The capacity `cap` that `collect_data_blocks` computes: the sum is formed
in `unsigned int` and stored in an `int`. -/
def collect_cap (block_size : Nat) : Int :=
  let p : Nat := (block_size % 2 ^ 32) / 4
  let u : Nat := (12 + p + p * p + p * p * p) % 2 ^ 32
  if u < 2 ^ 31 then (u : Int) else (u : Int) - 2 ^ 32

/-- The store `blocks[cnt++] = v` into the array of `cap` entries, `blocks`
standing for the entries written so far (their number is `cnt`). -/
def store_block (cap : Int) (blocks : List Nat) (v : Nat) : Except Fault (List Nat) :=
  if (blocks.length : Int) < cap then .ok (blocks ++ [v]) else .error .undefined

/-- The loop `for (i ...) if (ptrs[i]) blocks[cnt++] = ptrs[i];` over the
entries of one pointer array. -/
def collect_leaves (cap : Int) : List Nat → List Nat → Except Fault (List Nat)
  | [], blocks => .ok blocks
  | v :: rest, blocks =>
    if v ≠ 0 then
      match store_block cap blocks v with
      | .error e => .error e
      | .ok blocks => collect_leaves cap rest blocks
    else collect_leaves cap rest blocks

/-- A block read as `block_size / 4` pointers: `malloc(block_size)`, a `pread`
whose result is not looked at, and the array then indexed below
`ptrs_per_block`. Entries the read did not fill were never initialised. -/
def read_ptr_block (img : Image) (block_size : Nat) (b : Nat) : Except Fault (List Nat) :=
  let ptrs_per_block := block_size / 4
  let buf := pread img block_size (off_mul b block_size)
  if buf.length < 4 * ptrs_per_block then .error .undefined
  else .ok ((List.range ptrs_per_block).map (fun i => le32 buf (4 * i)))

/-- The loop over the entries of a double-indirect block. -/
def collect_double (img : Image) (block_size : Nat) (cap : Int) :
    List Nat → List Nat → Except Fault (List Nat)
  | [], blocks => .ok blocks
  | b :: rest, blocks =>
    if b = 0 then collect_double img block_size cap rest blocks
    else
      match read_ptr_block img block_size b with
      | .error e => .error e
      | .ok ptrs =>
        match collect_leaves cap ptrs blocks with
        | .error e => .error e
        | .ok blocks => collect_double img block_size cap rest blocks

/-- The loop over the entries of a triple-indirect block. -/
def collect_triple (img : Image) (block_size : Nat) (cap : Int) :
    List Nat → List Nat → Except Fault (List Nat)
  | [], blocks => .ok blocks
  | b :: rest, blocks =>
    if b = 0 then collect_triple img block_size cap rest blocks
    else
      match read_ptr_block img block_size b with
      | .error e => .error e
      | .ok ind =>
        match collect_double img block_size cap ind blocks with
        | .error e => .error e
        | .ok blocks => collect_triple img block_size cap rest blocks

/-- Step 2 of `collect_data_blocks`: the single-indirect block `b`, if any. -/
def collect_single_step (img : Image) (block_size : Nat) (cap : Int) (b : Nat)
    (blocks : List Nat) : Except Fault (List Nat) :=
  if b ≠ 0 then
    match read_ptr_block img block_size b with
    | .error e => .error e
    | .ok ptrs => collect_leaves cap ptrs blocks
  else .ok blocks

/-- Step 3 of `collect_data_blocks`: the double-indirect block `b`, if any. -/
def collect_double_step (img : Image) (block_size : Nat) (cap : Int) (b : Nat)
    (blocks : List Nat) : Except Fault (List Nat) :=
  if b ≠ 0 then
    match read_ptr_block img block_size b with
    | .error e => .error e
    | .ok ind => collect_double img block_size cap ind blocks
  else .ok blocks

/-- Step 4 of `collect_data_blocks`: the triple-indirect block `b`, if any. -/
def collect_triple_step (img : Image) (block_size : Nat) (cap : Int) (b : Nat)
    (blocks : List Nat) : Except Fault (List Nat) :=
  if b ≠ 0 then
    match read_ptr_block img block_size b with
    | .error e => .error e
    | .ok dbl => collect_triple img block_size cap dbl blocks
  else .ok blocks

/-- `collect_data_blocks`: the array `*out_blocks` up to the returned count,
which is the length of the list. -/
def collect_data_blocks (img : Image) (ino : ext2_inode) (block_size : Nat) :
    Except Fault (List Nat) :=
  let cap := collect_cap block_size
  match collect_leaves cap ((List.range 12).map ino.blk) [] with
  | .error e => .error e
  | .ok blocks =>
    match collect_single_step img block_size cap (ino.blk 12) blocks with
    | .error e => .error e
    | .ok blocks =>
      match collect_double_step img block_size cap (ino.blk 13) blocks with
      | .error e => .error e
      | .ok blocks => collect_triple_step img block_size cap (ino.blk 14) blocks

/-! ### The block sequence in the words of the specification -/

/-- The non-zero entries of an array of block numbers, in order. -/
def nonzero_entries (ptrs : List Nat) : List Nat := ptrs.filter (· ≠ 0)

/-- The results of `f` on the blocks of a list, in order, one after another. -/
def spec_each (f : Nat → Except Fault (List Nat)) : List Nat → Except Fault (List Nat)
  | [] => .ok []
  | b :: rest =>
    match f b with
    | .error e => .error e
    | .ok x =>
      match spec_each f rest with
      | .error e => .error e
      | .ok y => .ok (x ++ y)

/-- Step 2 of the block resolver in the specification: block `b` read as an
array of `block_size / 4` block numbers, its non-zero entries in order. -/
def spec_single (img : Image) (block_size : Nat) (b : Nat) : Except Fault (List Nat) :=
  match read_ptr_block img block_size b with
  | .error e => .error e
  | .ok ptrs => .ok (nonzero_entries ptrs)

/-- Step 3: block `b` read as an array of block numbers; each non-zero entry
read as a block of leaf block numbers, its non-zero entries appended. -/
def spec_double (img : Image) (block_size : Nat) (b : Nat) : Except Fault (List Nat) :=
  match read_ptr_block img block_size b with
  | .error e => .error e
  | .ok ind => spec_each (spec_single img block_size) (nonzero_entries ind)

/-- Step 4: the same with one more level of indirection. -/
def spec_triple (img : Image) (block_size : Nat) (b : Nat) : Except Fault (List Nat) :=
  match read_ptr_block img block_size b with
  | .error e => .error e
  | .ok dbl => spec_each (spec_double img block_size) (nonzero_entries dbl)

/-- A level of the walk that is there only when its slot of `i_block` is not
zero. -/
def spec_level (f : Nat → Except Fault (List Nat)) (b : Nat) : Except Fault (List Nat) :=
  if b ≠ 0 then f b else .ok []

/-- The block sequence of an inode as the specification describes it: the
non-zero direct entries, then the three indirect levels. -/
def spec_block_sequence (img : Image) (ino : ext2_inode) (block_size : Nat) :
    Except Fault (List Nat) :=
  match spec_level (spec_single img block_size) (ino.blk 12) with
  | .error e => .error e
  | .ok single =>
    match spec_level (spec_double img block_size) (ino.blk 13) with
    | .error e => .error e
    | .ok double =>
      match spec_level (spec_triple img block_size) (ino.blk 14) with
      | .error e => .error e
      | .ok triple =>
        .ok (nonzero_entries ((List.range 12).map ino.blk) ++ single ++ double ++ triple)

/-! ## The namespace tree -/

/-- The C string a zero-filled buffer holds after `bytes` were copied to its
start: the bytes before the first NUL. -/
def cstr (bytes : List Nat) : List Nat := bytes.takeWhile (· ≠ 0)

/-- The names `build_tree`, `print_tree` and the counting loops leave out. -/
def is_skipped_name (name : List Nat) : Bool :=
  strcmp name (ascii ".") = 0 || strcmp name (ascii "..") = 0
    || strcmp name (ascii "lost+found") = 0

/-- The `while (cur < block_size)` loop of `build_tree` over one directory
block that starts at byte `blk_off`. `recurse` is `build_tree` itself, called on
a child that is a directory. The header read leaves `e` uninitialised when it
is short; the name is read into a zero-filled buffer. The child is linked into
its parent before it is filled in; as the link looks at its name and type only,
the model fills it in first. -/
def scan_dir_block (g : Globals) (recurse : Node → Except Fault Node) (blk_off : Nat) :
    Nat → Nat → Node → Except Fault Node
  | 0, _, _ => .error .out_of_fuel
  | fuel + 1, cur, parent =>
    if cur < g.block_size then
      let e := pread g.img 8 (off_add blk_off cur)
      if e.length ≠ 8 then .error .undefined
      else
        let inode := le32 e 0
        let rec_len := le16 e 4
        let name_len := e.getD 6 0
        let file_type := e.getD 7 0
        if inode = 0 then .ok parent
        else
          let name := cstr (pread g.img name_len (off_add (off_add blk_off cur) 8))
          if is_skipped_name name then
            scan_dir_block g recurse blk_off fuel (cur + rec_len) parent
          else
            let child := create_node name inode file_type
            match (if file_type = EXT2_FT_DIR then recurse child else .ok child) with
            | .error err => .error err
            | .ok child =>
              scan_dir_block g recurse blk_off fuel (cur + rec_len)
                (insert_child_sorted parent child)
    else .ok parent

/-- The `for (bi ...)` loop of `build_tree` over the data blocks. -/
def scan_dir_blocks (g : Globals) (recurse : Node → Except Fault Node) (fuel : Nat) :
    List Nat → Node → Except Fault Node
  | [], parent => .ok parent
  | b :: rest, parent =>
    match scan_dir_block g recurse (off_mul b g.block_size) fuel 0 parent with
    | .error err => .error err
    | .ok parent => scan_dir_blocks g recurse fuel rest parent

/-- `build_tree(parent)`: the parent with its subtree filled in. `fuel` bounds
the nesting of the calls and the iterations of each block scan. -/
def build_tree (g : Globals) : Nat → Node → Except Fault Node
  | 0, _ => .error .out_of_fuel
  | fuel + 1, parent =>
    match read_inode g parent.inode_no with
    | .error err => .error err
    | .ok ino =>
      match collect_data_blocks g.img ino g.block_size with
      | .error err => .error err
      | .ok blocks => scan_dir_blocks g (build_tree g fuel) fuel blocks parent

/-- The root node `main` creates: `create_node("/", 2, 2)`. -/
def root_node : Node := create_node (ascii "/") 2 2

/-! ## Paths -/

/-- One call of `strtok` on the rest of the buffer: the next token and what is
left behind it, or nothing when only delimiters remain. -/
def strtok (delims : List Nat) (s : List Nat) : Option (List Nat × List Nat) :=
  let s1 := s.dropWhile (fun c => decide (c ∈ delims))
  if s1 = [] then none
  else some (s1.takeWhile (fun c => !decide (c ∈ delims)),
             (s1.dropWhile (fun c => !decide (c ∈ delims))).drop 1)

/-- The tokens that repeated calls of `strtok` return. -/
def strtok_loop (delims : List Nat) : Nat → List Nat → List (List Nat)
  | 0, _ => []
  | fuel + 1, s =>
    match strtok delims s with
    | none => []
    | some (tok, rest) => tok :: strtok_loop delims fuel rest

/-- All tokens of a buffer; a buffer of `n` bytes holds fewer than `n + 1`. -/
def strtok_all (delims : List Nat) (s : List Nat) : List (List Nat) :=
  strtok_loop delims (s.length + 1) s

/-- One call of `strsep(&p, "/")`: the token and the new value of `p`, which is
`NULL` when no delimiter was left. -/
def strsep (delim : Nat) (s : List Nat) : List Nat × Option (List Nat) :=
  (s.takeWhile (· ≠ delim),
   if delim ∈ s then some ((s.dropWhile (· ≠ delim)).drop 1) else none)

/-- What a command wrote: the bytes sent to standard output and those sent to
standard error. -/
structure Output where
  stdout : List Nat
  stderr : List Nat
  deriving DecidableEq, Repr

/-- The digits `printf` writes for an unsigned decimal conversion. -/
def dec (n : Nat) : List Nat := (Nat.toDigits 10 n).map Char.toNat

/-- The digits `printf` writes for `%d`. -/
def dec_int (n : Int) : List Nat :=
  if n < 0 then 45 :: dec n.natAbs else dec n.natAbs

/-- The `while ((tok = strsep(&p, "/")) != NULL)` loop of `validate_path`: the
verdict and the message written to standard error. -/
def validate_path_loop : Nat → Option (List Nat) → Except Fault (Bool × List Nat)
  | _, none => .ok (true, [])
  | 0, some _ => .error .out_of_fuel
  | fuel + 1, some p =>
    let r := strsep 47 p
    if EXT2_NAME_LEN < r.1.length then
      .ok (false, ascii "Error: component '" ++ r.1 ++ ascii "' length " ++ dec r.1.length
            ++ ascii " exceeds maximum " ++ dec EXT2_NAME_LEN ++ ascii " bytes\n")
    else validate_path_loop fuel r.2

/-- `validate_path`: the verdict and the message written to standard error. -/
def validate_path (path : List Nat) : Except Fault (Bool × List Nat) :=
  if PATH_MAX_LEN < path.length then
    .ok (false, ascii "Error: path length " ++ dec path.length ++ ascii " exceeds maximum "
          ++ dec PATH_MAX_LEN ++ ascii " bytes\n")
  else
    let buf := path.take PATH_MAX_LEN
    validate_path_loop (buf.length + 1) (some buf)

/-- The inner loop of `find_node`: the first node of the chain whose name is
`tok`. -/
def find_child : List Node → List Nat → Option Node
  | [], _ => none
  | child :: rest, tok =>
    if strcmp child.name tok = 0 then some child else find_child rest tok

/-- The outer loop `while (tok && cur)` of `find_node`. -/
def find_node_loop : List (List Nat) → Option Node → Option Node
  | [], cur => cur
  | _ :: _, none => none
  | tok :: toks, some cur => find_node_loop toks (find_child cur.children tok)

/-- `find_node(current, path)`, with the global `root`. -/
def find_node (root current : Node) (path : List Nat) : Option Node :=
  if strcmp path (ascii "/") = 0 ∨ strcmp path (ascii ".") = 0 then some root
  else
    let cur := if path.head? = some 47 then root else current
    find_node_loop (strtok_all [47] path) (some cur)

/-! ### Paths in the words of the specification -/

/-- The `/`-separated components of a path, empty ones included. -/
def path_components (p : List Nat) : List (List Nat) := p.splitOn 47

/-- The non-empty `/`-separated components of a path. -/
def path_steps (p : List Nat) : List (List Nat) :=
  (path_components p).filter (fun c => decide (c ≠ []))

/-- The node reached from `n` by moving, for each component in turn, to the
first child whose name is that component; nothing when a step has no such
child. -/
def spec_walk : Node → List (List Nat) → Option Node
  | n, [] => some n
  | n, c :: cs =>
    match n.children.find? (fun ch => decide (ch.name = c)) with
    | none => none
    | some ch => spec_walk ch cs

/-! ## The `tree` command -/

/-- `format_perm`: the ten characters written to `buf`. `S_IFDIR` is `0x4000`. -/
def format_perm (mode : Nat) : List Nat :=
  (if mode &&& 0x4000 ≠ 0 then 100 else 45) ::
    (List.range 9).map (fun i =>
      if mode &&& (1 <<< (8 - i)) ≠ 0 then (ascii "rwx").getD (i % 3) 0 else 45)

/-- The branch glyph `└` in UTF-8. -/
def glyph_last : List Nat := [0xE2, 0x94, 0x94]

/-- The branch glyph `├` in UTF-8. -/
def glyph_mid : List Nat := [0xE2, 0x94, 0x9C]

/-- The continuation `│ ` in UTF-8, with its space. -/
def glyph_bar : List Nat := [0xE2, 0x94, 0x82, 0x20]

/-- The bracketed attributes of a line, with the space that follows them:
`[perm size] `, `[size] `, `[perm] ` or nothing. Any of the flags makes the
program read the inode. -/
def attrs (g : Globals) (show_size show_perm : Bool) (inode_no : Nat) :
    Except Fault (List Nat) :=
  if show_perm && show_size then
    match read_inode g inode_no with
    | .error e => .error e
    | .ok ino => .ok (ascii "[" ++ format_perm ino.i_mode ++ ascii " " ++ dec ino.i_size
                       ++ ascii "] ")
  else if show_size then
    match read_inode g inode_no with
    | .error e => .error e
    | .ok ino => .ok (ascii "[" ++ dec ino.i_size ++ ascii "] ")
  else if show_perm then
    match read_inode g inode_no with
    | .error e => .error e
    | .ok ino => .ok (ascii "[" ++ format_perm ino.i_mode ++ ascii "] ")
  else .ok []

/-- The prefix `np` that `print_tree` builds with `snprintf` into 256 bytes. -/
def indent_below (pre : List Nat) (is_last : Bool) : List Nat :=
  (pre ++ (if is_last then [0x20] else glyph_bar)).take 255

mutual
/-- `print_tree(n, prefix, recursive, show_size, show_perm)`: the bytes
written to standard output. -/
def print_tree (g : Globals) (recursive show_size show_perm : Bool) :
    Node → List Nat → Except Fault (List Nat)
  | .mk _ _ _ cs, pre => print_tree_chain g recursive show_size show_perm cs pre
/-- The loop of `print_tree` from the child `c` on. -/
def print_tree_chain (g : Globals) (recursive show_size show_perm : Bool) :
    List Node → List Nat → Except Fault (List Nat)
  | [], _ => .ok []
  | c :: rest, pre =>
    if is_skipped_name c.name then
      print_tree_chain g recursive show_size show_perm rest pre
    else
      let is_last := rest.isEmpty
      let branch := if is_last then glyph_last else glyph_mid
      match attrs g show_size show_perm c.inode_no with
      | .error e => .error e
      | .ok a =>
        let line := pre ++ branch ++ ascii " " ++ a ++ c.name ++ ascii "\n"
        match (if recursive && decide (c.file_type = 2) then
                 print_tree g recursive show_size show_perm c (indent_below pre is_last)
               else .ok []) with
        | .error e => .error e
        | .ok below =>
          match print_tree_chain g recursive show_size show_perm rest pre with
          | .error e => .error e
          | .ok after => .ok (line ++ below ++ after)
end

mutual
/-- The lines `print_tree` writes, one for each `printf` of a child with the
newline that follows it, in the order they are written. -/
def print_tree_lines (g : Globals) (recursive show_size show_perm : Bool) :
    Node → List Nat → Except Fault (List (List Nat))
  | .mk _ _ _ cs, pre => print_tree_lines_chain g recursive show_size show_perm cs pre
/-- The lines the loop of `print_tree` writes from the child `c` on. -/
def print_tree_lines_chain (g : Globals) (recursive show_size show_perm : Bool) :
    List Node → List Nat → Except Fault (List (List Nat))
  | [], _ => .ok []
  | c :: rest, pre =>
    if is_skipped_name c.name then
      print_tree_lines_chain g recursive show_size show_perm rest pre
    else
      let is_last := rest.isEmpty
      let branch := if is_last then glyph_last else glyph_mid
      match attrs g show_size show_perm c.inode_no with
      | .error e => .error e
      | .ok a =>
        let line := pre ++ branch ++ ascii " " ++ a ++ c.name ++ ascii "\n"
        match (if recursive && decide (c.file_type = 2) then
                 print_tree_lines g recursive show_size show_perm c (indent_below pre is_last)
               else .ok []) with
        | .error e => .error e
        | .ok below =>
          match print_tree_lines_chain g recursive show_size show_perm rest pre with
          | .error e => .error e
          | .ok after => .ok (line :: (below ++ after))
end

mutual
/-- `count_tree(n, dirs, files)`: the two counters after the call, given them
before it. The `int` counters stand for their mathematical values. -/
def count_tree : Node → Nat × Nat → Nat × Nat
  | .mk _ _ _ cs, acc => count_tree_chain cs acc
/-- The loop of `count_tree` from the child `c` on. -/
def count_tree_chain : List Node → Nat × Nat → Nat × Nat
  | [], acc => acc
  | c :: rest, acc =>
    if is_skipped_name c.name then count_tree_chain rest acc
    else if c.file_type = 2 then count_tree_chain rest (count_tree c (acc.1 + 1, acc.2))
    else count_tree_chain rest (acc.1, acc.2 + 1)
end

/-- The counting loop of `command_tree` over the children of the target. -/
def summary_loop (recursive : Bool) : List Node → Nat × Nat → Nat × Nat
  | [], acc => acc
  | c :: rest, acc =>
    if is_skipped_name c.name then summary_loop recursive rest acc
    else if c.file_type = 2 then
      summary_loop recursive rest
        (if recursive then count_tree c (acc.1 + 1, acc.2) else (acc.1 + 1, acc.2))
    else summary_loop recursive rest (acc.1, acc.2 + 1)

/-- The counts `dirs` and `files` that `command_tree` prints: the loop from
zero, then one more directory for the target itself. -/
def summary_counts (tgt : Node) (recursive : Bool) : Nat × Nat :=
  let r := summary_loop recursive tgt.children (0, 0)
  (r.1 + 1, r.2)

/-- The summary `printf("\n%d directories, %d files\n\n", dirs, files)`. -/
def summary_text (dirs files : Nat) : List Nat :=
  ascii "\n" ++ dec dirs ++ ascii " directories, " ++ dec files ++ ascii " files\n\n"

/-- `command_help_tree`: the text written to standard output. -/
def command_help_tree : List Nat :=
  ascii "Usage :\n" ++
  ascii "  > tree <PATH> [OPTION]... : display the directory structure if <PATH> is a directory\n" ++
  ascii "    -r : display the directory structure recursively if <PATH> is a directory\n" ++
  ascii "    -s : display the directory structure if <PATH> is a directory, including the size of each file\n" ++
  ascii "    -p : display the directory structure if <PATH> is a directory, including the permissions of each directory and file\n"

/-- `command_help_print`: the text written to standard output. -/
def command_help_print : List Nat :=
  ascii "Usage :\n" ++
  ascii "  > print <PATH> [OPTION]... : print the contents on the standard output if <PATH> is a file\n" ++
  ascii "    -n <line_number> : print only the first <line_number> lines of its contents on the standard output if <PATH> is file\n"

/-- `command_help_exit`: the text written to standard output. -/
def command_help_exit : List Nat :=
  ascii "Usage :\n" ++ ascii "  > exit : exit program\n"

/-- `command_help_help`: the text written to standard output. -/
def command_help_help : List Nat :=
  ascii "Usage :\n" ++ ascii "  > help [COMMAND] : show commands for program\n"

/-- `command_help_all`: the text written to standard output. -/
def command_help_all : List Nat :=
  command_help_tree ++ (command_help_print.drop 8) ++ (command_help_help.drop 8)
    ++ (command_help_exit.drop 8)

/-- The name in the header line: `.` for the path `/`, else the path. -/
def header_name (path : List Nat) : List Nat :=
  if strcmp path (ascii "/") = 0 then ascii "." else path

/-- `command_tree(path, recursive, show_size, show_perm)`. -/
def command_tree (g : Globals) (root : Node) (path : List Nat)
    (recursive show_size show_perm : Bool) : Except Fault Output :=
  match find_node root root path with
  | none => .ok ⟨command_help_tree, []⟩
  | some tgt =>
    if tgt.file_type ≠ 2 then
      .ok ⟨[], ascii "Error: '" ++ path ++ ascii "' is not directory\n"⟩
    else
      match read_inode g tgt.inode_no with
      | .error e => .error e
      | .ok ino =>
        let header :=
          (if show_perm && show_size then
            ascii "[" ++ format_perm ino.i_mode ++ ascii " " ++ dec ino.i_size ++ ascii "] "
          else if show_perm then ascii "[" ++ format_perm ino.i_mode ++ ascii "] "
          else if show_size then ascii "[" ++ dec ino.i_size ++ ascii "] "
          else []) ++ header_name path ++ ascii "\n"
        match print_tree g recursive show_size show_perm tgt [] with
        | .error e => .error e
        | .ok listing =>
          let c := summary_counts tgt recursive
          .ok ⟨header ++ listing ++ summary_text c.1 c.2, []⟩

/-! ### The counts of `tree` in the words of the specification -/

mutual
/-- Every node below a node, in the order of a recursive listing. -/
def Node.descendants : Node → List Node
  | .mk _ _ _ cs => Node.descendantsList cs
/-- Every node of a chain and below it. -/
def Node.descendantsList : List Node → List Node
  | [] => []
  | c :: cs => c :: (Node.descendants c ++ Node.descendantsList cs)
end

/-- The number of directories among some nodes. -/
def count_dirs (l : List Node) : Nat := l.countP (fun n => decide (n.file_type = 2))

/-- The number of nodes that are not directories among some nodes: what the
`tree` command calls files. -/
def count_files (l : List Node) : Nat := l.countP (fun n => decide (n.file_type ≠ 2))

/-- The number of regular files (file type 1) among some nodes. -/
def count_regular (l : List Node) : Nat := l.countP (fun n => decide (n.file_type = 1))

/-- The shape `build_tree` gives a tree: no node below the top bears one of
the names that are left out, and a node that is not a directory has no
children. -/
def Node.Tidy (t : Node) : Prop :=
  ∀ n ∈ t.descendants, is_skipped_name n.name = false ∧ (n.file_type ≠ 2 → n.children = [])

/-! ## The `print` command -/

/-- `memchr(s, c, len)`: the index of the first byte equal to `c`. -/
def memchr (c : Nat) : List Nat → Option Nat
  | [] => none
  | x :: xs => if x = c then some 0 else (memchr c xs).map (· + 1)

/-- The inner `for` loop of the look-ahead of `command_print` over the bytes
of one block: the counter afterwards and whether `has_more` was set. -/
def has_more_block (max_lines : Nat) : List Nat → Nat → Nat × Bool
  | [], counted => (counted, false)
  | c :: rest, counted =>
    if c = 10 then
      if max_lines < counted + 1 then (counted + 1, true)
      else has_more_block max_lines rest (counted + 1)
    else has_more_block max_lines rest counted

/-- The look-ahead loop of `command_print` over the blocks: `has_more`. -/
def has_more_loop (g : Globals) (max_lines : Nat) : List Nat → Nat → Bool
  | [], _ => false
  | b :: rest, counted =>
    let buf := pread g.img g.block_size (off_mul b g.block_size)
    if buf = [] then false
    else
      let r := has_more_block max_lines buf counted
      if r.2 then true else has_more_loop g max_lines rest r.1

/-- The variables of the output loop of `command_print`: the pending bytes of
`line_buf`, the counter `printed`, and what was written so far. -/
structure PrintState where
  line_buf : List Nat
  printed : Nat
  out : List Nat
  deriving DecidableEq, Repr

/-- The inner `while (pos < got && ...)` loop of `command_print` over the bytes
of `tmp` from `pos` on. Every round moves `pos` forward, so a budget of as many
rounds as there are bytes is never used up. -/
def print_block (max_lines : Nat) : Nat → List Nat → PrintState → Except Fault PrintState
  | 0, rest, st =>
    if rest ≠ [] ∧ (max_lines = 0 ∨ st.printed < max_lines) then .error .out_of_fuel
    else .ok st
  | fuel + 1, rest, st =>
    if rest ≠ [] ∧ (max_lines = 0 ∨ st.printed < max_lines) then
      match memchr 10 rest with
      | some k =>
        print_block max_lines fuel (rest.drop (k + 1))
          { line_buf := [], printed := st.printed + 1
            out := st.out ++ (st.line_buf ++ rest.take (k + 1)) }
      | none =>
        print_block max_lines fuel []
          { line_buf := st.line_buf ++ rest, printed := st.printed, out := st.out }
    else .ok st

/-- The outer `for (bi ...)` output loop of `command_print`. -/
def print_blocks (g : Globals) (max_lines : Nat) :
    List Nat → PrintState → Except Fault PrintState
  | [], st => .ok st
  | b :: rest, st =>
    if max_lines = 0 ∨ st.printed < max_lines then
      let tmp := pread g.img g.block_size (off_mul b g.block_size)
      if tmp = [] then .ok st
      else
        match print_block max_lines tmp.length tmp st with
        | .error e => .error e
        | .ok st => print_blocks g max_lines rest st
    else .ok st

/-- `command_print(path, max_lines)`: the bytes written to standard output.
The caller has checked that the path resolves. The `int` counters stand for
their mathematical values. -/
def command_print (g : Globals) (root : Node) (path : List Nat) (max_lines : Int) :
    Except Fault (List Nat) :=
  match find_node root root path with
  | none => .error .undefined
  | some tgt =>
    match read_inode g tgt.inode_no with
    | .error e => .error e
    | .ok ino =>
      match collect_data_blocks g.img ino g.block_size with
      | .error e => .error e
      | .ok blocks =>
        if max_lines < 0 then .ok []
        else
          let n := max_lines.toNat
          let has_more := decide (0 < n) && has_more_loop g n blocks 0
          match print_blocks g n blocks { line_buf := [], printed := 0, out := [] } with
          | .error e => .error e
          | .ok st =>
            .ok (st.out ++ (if 0 < n ∧ st.printed = n ∧ has_more = true then [10] else []))

/-! ## The command loop -/

/-- The C library's `isspace` in the C locale. -/
def isspace (c : Nat) : Bool := c = 32 || (9 ≤ c && c ≤ 13)

/-- The value of the leading decimal digits of a string. -/
def atoi_digits : List Nat → Nat → Nat
  | [], acc => acc
  | c :: cs, acc => if 48 ≤ c ∧ c ≤ 57 then atoi_digits cs (acc * 10 + (c - 48)) else acc

/-- A value reduced to an `int`. -/
def to_int32 (x : Int) : Int := (x + 2 ^ 31) % 2 ^ 32 - 2 ^ 31

/-- The C library's `atoi`, that is `(int) strtol(s, NULL, 10)`: white space,
a sign, digits; `strtol` stops at the limits of `long`. -/
def atoi (s : List Nat) : Int :=
  let s1 := s.dropWhile isspace
  let neg := s1.head? = some 45
  let s2 := if s1.head? = some 45 ∨ s1.head? = some 43 then s1.drop 1 else s1
  let v : Int := atoi_digits s2 0
  to_int32 (if neg then max (-v) (-(2 ^ 63)) else min v (2 ^ 63 - 1))

/-- The flags of `tree` seen so far: `r`, `s`, `p`. -/
structure TreeFlags where
  r : Bool
  s : Bool
  p : Bool
  deriving DecidableEq, Repr

/-- The loop over the letters of one option token of `tree`; nothing when
`invalid` was set. -/
def parse_tree_letters : List Nat → TreeFlags → Option TreeFlags
  | [], f => some f
  | c :: cs, f =>
    if c = 114 then
      if f.r then none else parse_tree_letters cs { f with r := true }
    else if c = 115 then
      if f.s then none else parse_tree_letters cs { f with s := true }
    else if c = 112 then
      if f.p then none else parse_tree_letters cs { f with p := true }
    else none

/-- The loop over the tokens of a `tree` command; nothing when `invalid` was
set, else the flags and the path. -/
def parse_tree_tokens : List (List Nat) → TreeFlags → Option (List Nat) →
    Option (TreeFlags × Option (List Nat))
  | [], f, path => some (f, path)
  | tok :: toks, f, path =>
    if tok.head? = some 45 then
      match parse_tree_letters (tok.drop 1) f with
      | none => none
      | some f => parse_tree_tokens toks f path
    else
      match path with
      | none => parse_tree_tokens toks f (some tok)
      | some _ => none

/-- The `tree` branch of the command loop, given the tokens after `tree`. -/
def run_tree (g : Globals) (root : Node) (toks : List (List Nat)) : Except Fault Output :=
  match parse_tree_tokens toks ⟨false, false, false⟩ none with
  | none => .ok ⟨command_help_tree, []⟩
  | some (f, path) =>
    let path := path.getD (ascii ".")
    match validate_path path with
    | .error e => .error e
    | .ok (false, msg) => .ok ⟨[], msg⟩
    | .ok (true, _) => command_tree g root path f.r f.s f.p

/-- How the token loop of `print` ended. -/
inductive PrintArgs where
  /-- The flag `invalid` was set; the text is what went to standard error. -/
  | invalid (msg : List Nat)
  | missing_arg
  | zero_n
  /-- The loop ran to the end: `has_n`, `n` and the path. -/
  | done (has_n : Bool) (n : Int) (path : Option (List Nat))
  deriving DecidableEq, Repr

/-- The loop over the tokens of a `print` command. -/
def parse_print_tokens : List (List Nat) → Bool → Int → Option (List Nat) → PrintArgs
  | [], has_n, n, path => .done has_n n path
  | tok :: toks, has_n, n, path =>
    if strcmp tok (ascii "-n") = 0 then
      match toks with
      | [] => .missing_arg
      | num :: toks =>
        let raw_n := atoi num
        if raw_n < 0 then
          .invalid (ascii "print: invalid number of lines: " ++ dec_int raw_n ++ ascii "\n")
        else if raw_n = 0 then .zero_n
        else parse_print_tokens toks true raw_n path
    else
      match path with
      | none => parse_print_tokens toks has_n n (some tok)
      | some _ => .invalid []

/-- The `print` branch of the command loop, given the tokens after `print`. -/
def run_print (g : Globals) (root : Node) (toks : List (List Nat)) : Except Fault Output :=
  match parse_print_tokens toks false 0 none with
  | .invalid msg => .ok ⟨command_help_print, msg⟩
  | .missing_arg => .ok ⟨[], ascii "print: option requires an argument -- 'n'\n\n"⟩
  | .zero_n => .ok ⟨[], []⟩
  | .done _ _ none => .ok ⟨command_help_print, []⟩
  | .done has_n n (some path) =>
    match validate_path path with
    | .error e => .error e
    | .ok (false, msg) => .ok ⟨[], msg⟩
    | .ok (true, _) =>
      match find_node root root path with
      | none => .ok ⟨command_help_print, []⟩
      | some tgt =>
        if tgt.file_type ≠ 1 then
          .ok ⟨[], ascii "Error: '" ++ path ++ ascii "' is not file\n\n"⟩
        else
          match command_print g root path (if has_n then n else 0) with
          | .error e => .error e
          | .ok out => .ok ⟨out, []⟩

/-- `command_help(cmd)`. -/
def command_help (cmd : Option (List Nat)) : Output :=
  match cmd with
  | none => ⟨command_help_all, []⟩
  | some c =>
    if strcmp c (ascii "tree") = 0 then ⟨command_help_tree, []⟩
    else if strcmp c (ascii "print") = 0 then ⟨command_help_print, []⟩
    else if strcmp c (ascii "help") = 0 then ⟨command_help_help, []⟩
    else if strcmp c (ascii "exit") = 0 then ⟨command_help_exit, []⟩
    else ⟨command_help_all, ascii "invalid command -- '" ++ c ++ ascii "'\n"⟩

/-- One round of the command loop after `fgets` returned `line`: what the
round wrote, or nothing when the loop was left through `exit`. The prompt is
written before the line is read and is not part of this. -/
def run_line (g : Globals) (root : Node) (line : List Nat) : Except Fault (Option Output) :=
  match strtok_all [32, 9, 10] line with
  | [] => .ok (some ⟨[], []⟩)
  | cmd :: toks =>
    if strcmp cmd (ascii "tree") = 0 then
      match run_tree g root toks with
      | .error e => .error e
      | .ok o => .ok (some o)
    else if strcmp cmd (ascii "print") = 0 then
      match run_print g root toks with
      | .error e => .error e
      | .ok o => .ok (some o)
    else if strcmp cmd (ascii "help") = 0 then .ok (some (command_help toks.head?))
    else if strcmp cmd (ascii "exit") = 0 then .ok none
    else .ok (some ⟨command_help_all, []⟩)

/-- `fgets(line, size, stdin)` on the bytes of standard input still to be
read: the bytes stored in `line`, which end behind the first newline and are
at most `size - 1`, and the bytes left for later reads; nothing at the end of
the input. -/
def fgets (size : Nat) (input : List Nat) : Option (List Nat × List Nat) :=
  if input = [] then none
  else
    let k := match memchr 10 (input.take (size - 1)) with
             | some i => i + 1
             | none => min (size - 1) input.length
    some (input.take k, input.drop k)

/-- The prompt of the command loop. -/
def prompt : List Nat := ascii "20211519> "

/-- The command loop of `main`: the prompt, `fgets` into `char line[256]`, and
one round on the C string read, until the input ends or `exit` is given. The
result is what the rounds wrote, one after another. -/
def repl (g : Globals) (root : Node) : Nat → List Nat → Except Fault (List Output)
  | 0, _ => .error .out_of_fuel
  | fuel + 1, input =>
    match fgets 256 input with
    | none => .ok [⟨prompt, []⟩]
    | some (line, rest) =>
      match run_line g root (cstr line) with
      | .error e => .error e
      | .ok none => .ok [⟨prompt, []⟩]
      | .ok (some o) =>
        match repl g root fuel rest with
        | .error e => .error e
        | .ok os => .ok (⟨prompt ++ o.stdout, o.stderr⟩ :: os)

/-! ### The arguments of `tree` in the words of the specification -/

/-- A token that begins with `-`. -/
def is_flag_token (tok : List Nat) : Bool := decide (tok.head? = some 45)

/-- The letters after the dash of all the flag tokens, in order. -/
def flag_letters (toks : List (List Nat)) : List Nat :=
  ((toks.filter is_flag_token).map (fun t => t.drop 1)).flatten

/-- The tokens that do not begin with `-`. -/
def path_tokens (toks : List (List Nat)) : List (List Nat) :=
  toks.filter (fun t => !is_flag_token t)

/-- The token lists the specification lets `tree` accept: only the letters
`r`, `s`, `p` in flag tokens, none of them twice, and at most one path. -/
def tree_args_ok (toks : List (List Nat)) : Prop :=
  (∀ c ∈ flag_letters toks, c = 114 ∨ c = 115 ∨ c = 112) ∧
  (flag_letters toks).Nodup ∧ (path_tokens toks).length ≤ 1

/-- The flag that a letter stands for is set. -/
def flag_set (f : TreeFlags) (c : Nat) : Prop :=
  (c = 114 ∧ f.r = true) ∨ (c = 115 ∧ f.s = true) ∨ (c = 112 ∧ f.p = true)

/-- The flags after the letters `cs` were added. -/
def with_letters (f : TreeFlags) (cs : List Nat) : TreeFlags :=
  ⟨f.r || decide (114 ∈ cs), f.s || decide (115 ∈ cs), f.p || decide (112 ∈ cs)⟩

/-! ### The listing of `tree` in the words of the specification -/

mutual
/-- The reference rendering of what lies below a node: the lines of its
children under the given prefix. -/
def reference_listing (g : Globals) (recursive show_size show_perm : Bool) :
    Node → List Nat → Except Fault (List Nat)
  | .mk _ _ _ cs, pre => reference_children g recursive show_size show_perm cs pre
/-- The reference rendering of a chain of children: each line is the prefix,
the branch (`└` for the last child, `├` otherwise), a space, the bracketed
attributes if any, and the name; below a directory, with `-r` only, come the
lines of its own children, under the prefix lengthened by one space behind a
last child and by `│ ` behind any other. -/
def reference_children (g : Globals) (recursive show_size show_perm : Bool) :
    List Node → List Nat → Except Fault (List Nat)
  | [], _ => .ok []
  | c :: rest, pre =>
    match attrs g show_size show_perm c.inode_no with
    | .error e => .error e
    | .ok a =>
      let line := pre ++ (if rest.isEmpty then glyph_last else glyph_mid) ++ [0x20] ++ a
                    ++ c.name ++ [10]
      match (if recursive && decide (c.file_type = 2) then
               reference_listing g recursive show_size show_perm c
                 (pre ++ (if rest.isEmpty then [0x20] else glyph_bar))
             else .ok []) with
      | .error e => .error e
      | .ok below =>
        match reference_children g recursive show_size show_perm rest pre with
        | .error e => .error e
        | .ok after => .ok (line ++ below ++ after)
end

mutual
/-- The number of levels of nodes below a node. -/
def Node.height : Node → Nat
  | .mk _ _ _ cs => Node.heightList cs
/-- The number of levels of nodes in a chain and below it. -/
def Node.heightList : List Node → Nat
  | [] => 0
  | c :: cs => max (Node.height c + 1) (Node.heightList cs)
end

/-! ### The entries of a directory in the words of the specification -/

/-- A directory entry as it lies on the disk; `name` holds the `name_len`
bytes behind the header. -/
structure DirEntry where
  inode : Nat
  rec_len : Nat
  name_len : Nat
  file_type : Nat
  name : List Nat
deriving DecidableEq

/-- The directory entry at a byte offset of the image, if its header of eight
bytes can be read. -/
def read_dir_entry (g : Globals) (off : Nat) : Option DirEntry :=
  let e := pread g.img 8 off
  if e.length ≠ 8 then none
  else some { inode := le32 e 0, rec_len := le16 e 4, name_len := e.getD 6 0,
              file_type := e.getD 7 0, name := pread g.img (e.getD 6 0) (off_add off 8) }

/-- The records of the directory block at byte `blk_off` from position `cur`
on, each found `rec_len` bytes behind the one before, whatever their inode
field holds; `bound` limits their number. -/
def disk_records (g : Globals) (blk_off : Nat) : Nat → Nat → List DirEntry
  | 0, _ => []
  | bound + 1, cur =>
    if cur < g.block_size then
      match read_dir_entry g (off_add blk_off cur) with
      | none => []
      | some e => e :: disk_records g blk_off bound (cur + e.rec_len)
    else []

/-- A live entry: its inode field is not 0. -/
def DirEntry.live (e : DirEntry) : Bool := decide (e.inode ≠ 0)

/-- An entry that is not left out for its name. -/
def DirEntry.kept (e : DirEntry) : Bool := !is_skipped_name (cstr e.name)

/-- What a node takes over from an entry: the name up to a NUL byte, the inode
number and the file type. -/
def DirEntry.key (e : DirEntry) : List Nat × Nat × Nat := (cstr e.name, e.inode, e.file_type)

/-- The name, inode number and file type of a node. -/
def Node.key (n : Node) : List Nat × Nat × Nat := (n.name, n.inode_no, n.file_type)

/-- All live entries of the given data blocks. -/
def live_entries (g : Globals) (bound : Nat) (blocks : List Nat) : List DirEntry :=
  blocks.flatMap (fun b => (disk_records g (off_mul b g.block_size) bound 0).filter DirEntry.live)

/-- The entries of the given data blocks that stand before the first record
with inode 0 of their block. -/
def leading_entries (g : Globals) (bound : Nat) (blocks : List Nat) : List DirEntry :=
  blocks.flatMap
    (fun b => (disk_records g (off_mul b g.block_size) bound 0).takeWhile DirEntry.live)

/-- The children of a directory node are, each exactly once and with its name,
inode number and file type, the given entries that are not left out for their
name. -/
def children_match (n : Node) (entries : List DirEntry) : Prop :=
  (n.children.map Node.key).Perm ((entries.filter DirEntry.kept).map DirEntry.key)

/-- A directory node lists the leading entries of the data blocks of its
inode. -/
def Node.Complete (g : Globals) (bound : Nat) (n : Node) : Prop :=
  ∃ ino blocks, read_inode g n.inode_no = .ok ino ∧
    collect_data_blocks g.img ino g.block_size = .ok blocks ∧
    children_match n (leading_entries g bound blocks)

/-! ### The course of one block scan -/

/-- A number as two little-endian bytes. -/
def u16 (n : Nat) : List Nat := [n % 256, n / 256 % 256]

/-- A number as four little-endian bytes. -/
def u32 (n : Nat) : List Nat := [n % 256, n / 256 % 256, n / 65536 % 256, n / 16777216 % 256]

/-- The content `base` with the bytes `bs` laid over it from offset `off` on. -/
def put (off : Nat) (bs : List Nat) (base : Nat → Nat) : Nat → Nat :=
  fun i => if off ≤ i ∧ i < off + bs.length then bs.getD (i - off) 0 else base i

/-- An on-disk directory entry: inode, `rec_len`, `name_len`, file type, name. -/
def dirent (inode rec_len file_type : Nat) (name : List Nat) : List Nat :=
  u32 inode ++ u16 rec_len ++ [name.length % 256, file_type] ++ name

/-- The start of an on-disk inode: the mode, the size, and the first entry of
`i_block` at offset 40. -/
def inode_bytes (mode size block0 : Nat) : List Nat :=
  u16 mode ++ u16 0 ++ u32 size ++ List.replicate 32 0 ++ u32 block0

/-- The content of the fixture image. -/
def fixture_bytes : Nat → Nat :=
  -- superblock: 128 inodes, 1024 blocks, first data block 1, block size
  -- 1024 << 0, 8192 blocks and 128 inodes per group, the magic number, and
  -- inodes of 128 bytes
  put 1024 (u32 128 ++ u32 1024) <|
  put 1044 (u32 1 ++ u32 0) <|
  put 1056 (u32 8192) <|
  put 1064 (u32 128) <|
  put 1080 (u16 0xEF53) <|
  put 1112 (u16 128) <|
  -- group descriptor 0 in block 2: bitmaps in blocks 3 and 4, inode table
  -- from block 5 on
  put 2048 (u32 3 ++ u32 4 ++ u32 5) <|
  -- inode 2, the root directory: block 21
  put (5120 + 1 * 128) (inode_bytes 0x41ED 1024 21) <|
  -- inode 12, the directory d: block 22
  put (5120 + 11 * 128) (inode_bytes 0x41ED 1024 22) <|
  -- inode 13, the file a.txt of 12 bytes: block 23
  put (5120 + 12 * 128) (inode_bytes 0x81A4 12 23) <|
  -- block 21, the entries of the root directory
  put 21504 (dirent 2 12 2 (ascii ".") ++ [0, 0, 0]
    ++ dirent 2 12 2 (ascii "..") ++ [0, 0]
    ++ dirent 11 20 2 (ascii "lost+found") ++ [0, 0]
    ++ dirent 13 16 1 (ascii "a.txt") ++ [0, 0, 0]
    ++ dirent 12 964 2 (ascii "d")) <|
  -- block 22, the entries of d
  put 22528 (dirent 12 12 2 (ascii ".") ++ [0, 0, 0] ++ dirent 2 1012 2 (ascii "..")) <|
  -- block 23, the content of a.txt
  put 23552 (ascii "hello\nworld\n") <|
  fun _ => 0

/-- The fixture image. -/
def fixture : Image := { size := 1048576, byte := fixture_bytes }

/-- The globals `read_superblock` sets on the fixture. -/
def fixture_globals : Globals :=
  { img := fixture, block_size := 1024, inode_size := 128, inodes_per_group := 128 }

/-- The tree of the fixture. -/
def fixture_tree : Node :=
  .mk (ascii "/") 2 2 [.mk (ascii "d") 12 2 [], .mk (ascii "a.txt") 13 1 []]

/-! ## An image with 8192-byte blocks

Four blocks: the superblock in block 0, the group descriptors in block 1, the
inode table in block 2, and block 3 filled with the block number 3. Every slot
of `i_block` of the root directory is 3. -/

/-- The content of the image with 8192-byte blocks. -/
def wide_bytes : Nat → Nat :=
  fun off =>
    if 24576 ≤ off then (if off % 4 = 0 then 3 else 0)
    else
      (put 1024 (u32 64 ++ u32 4) <|
       put 1048 (u32 3) <|
       put 1056 (u32 65536) <|
       put 1064 (u32 64) <|
       put 1080 (u16 0xEF53) <|
       put 1112 (u16 128) <|
       put 8192 (u32 0 ++ u32 0 ++ u32 2) <|
       put (16384 + 128) (u16 0x41ED ++ u16 0 ++ u32 8192 ++ List.replicate 32 0
         ++ (List.replicate 15 (u32 3)).flatten) <|
       fun _ => 0) off

/-- The image with 8192-byte blocks. -/
def wide_image : Image := { size := 32768, byte := wide_bytes }

/-- The globals `read_superblock` sets on the image with 8192-byte blocks. -/
def wide_globals : Globals :=
  { img := wide_image, block_size := 8192, inode_size := 128, inodes_per_group := 64 }

/-- The inode of the root directory of the image with 8192-byte blocks. -/
def wide_inode : ext2_inode :=
  { i_mode := 0x41ED, i_size := 8192, i_block := List.replicate 15 3 }

/-! ## The `print` command in the words of the specification -/

/-- The bytes the `print` loops see: the data blocks as `pread` returns them,
one after another, up to the first read that returns nothing. The size in the
inode plays no part. -/
def block_bytes (g : Globals) : List Nat → List Nat
  | [] => []
  | b :: rest =>
    let buf := pread g.img g.block_size (off_mul b g.block_size)
    if buf = [] then [] else buf ++ block_bytes g rest

/-- The output loop of `command_print` run byte by byte: a byte goes to the
pending line, and a newline writes the pending line out, as long as the cap
allows. -/
def feed (max_lines : Nat) : List Nat → PrintState → PrintState
  | [], st => st
  | c :: cs, st =>
    if max_lines = 0 ∨ st.printed < max_lines then
      if c = 10 then
        feed max_lines cs
          { line_buf := [], printed := st.printed + 1, out := st.out ++ (st.line_buf ++ [c]) }
      else
        feed max_lines cs
          { line_buf := st.line_buf ++ [c], printed := st.printed, out := st.out }
    else st

/-- The first `k` newline-terminated lines of a byte sequence, or all of its
newline-terminated lines when it has fewer than `k`. -/
def first_lines : Nat → List Nat → List Nat
  | _, [] => []
  | k, c :: cs =>
    if k = 0 ∨ 10 ∉ c :: cs then []
    else c :: first_lines (if c = 10 then k - 1 else k) cs

/-- The fixture with the size of `a.txt` set to 6: the content is `hello\n`,
and the bytes `world\n` are still in the block behind it. -/
def fixture_stale : Image :=
  { size := 1048576
    byte := put (5120 + 12 * 128) (inode_bytes 0x81A4 6 23) <| fixture_bytes }

/-- The globals `read_superblock` sets on `fixture_stale`. -/
def fixture_stale_globals : Globals :=
  { img := fixture_stale, block_size := 1024, inode_size := 128, inodes_per_group := 128 }

/-- The fixture with a symbolic link `link` (file type 7, inode 14) added to
the root directory. -/
def fixture_link : Image :=
  { size := 1048576
    byte := put 21564 (dirent 12 12 2 (ascii "d") ++ [0, 0, 0]
        ++ dirent 14 952 7 (ascii "link")) <|
      put (5120 + 13 * 128) (inode_bytes 0xA1FF 5 0) <| fixture_bytes }

/-- The globals `read_superblock` sets on `fixture_link`. -/
def fixture_link_globals : Globals :=
  { img := fixture_link, block_size := 1024, inode_size := 128, inodes_per_group := 128 }

/-- The tree of `fixture_link`. -/
def fixture_link_tree : Node :=
  .mk (ascii "/") 2 2
    [.mk (ascii "d") 12 2 [], .mk (ascii "a.txt") 13 1 [], .mk (ascii "link") 14 7 []]

/-! ## Start-up -/

/-- The start of `main` once the image is open: `read_superblock`, the first
group descriptor, the root node and `build_tree`. The result is the globals
and the tree the command loop then works on. -/
def startup (img : Image) (fuel : Nat) : Except Fault (Globals × Node) :=
  match read_superblock img with
  | .error e => .error e
  | .ok (_, g) =>
    match read_group_desc img 0 g.block_size with
    | .error e => .error e
    | .ok _ =>
      match build_tree g fuel root_node with
      | .error e => .error e
      | .ok root => .ok (g, root)

/-- The fixture with the magic number of the superblock set to zero. -/
def fixture_nomagic : Image :=
  { size := 1048576, byte := put 1080 (u16 0) <| fixture_bytes }

/-- The fixture with a second block, block 24, of the root directory: the
record of a deleted file `c.txt`, whose inode field is 0, and behind it the
entry of the regular file `b.txt` with inode 14. -/
def fixture_gap : Image :=
  { size := 1048576,
    byte := put (5120 + 1 * 128 + 44) (u32 24) <|
            put 24576 (dirent 0 16 1 (ascii "c.txt") ++ [0, 0, 0]
              ++ dirent 14 1008 1 (ascii "b.txt")) <|
            fixture_bytes }

/-- The globals `read_superblock` sets on the fixture with the deleted file. -/
def fixture_gap_globals : Globals :=
  { img := fixture_gap, block_size := 1024, inode_size := 128, inodes_per_group := 128 }

/-- The fixture with the text `hello\nworld\n` laid across the border between
the 1024-byte blocks 24 and 25, four bytes before it and eight behind. -/
def fixture_text : Image :=
  { size := 1048576, byte := put 25596 (ascii "hello\nworld\n") <| fixture_bytes }

/-- The image with the text, read in blocks of 1024 bytes. -/
def text_globals_1k : Globals :=
  { img := fixture_text, block_size := 1024, inode_size := 128, inodes_per_group := 128 }

/-- The image with the text, read in blocks of 2048 bytes. -/
def text_globals_2k : Globals :=
  { img := fixture_text, block_size := 2048, inode_size := 128, inodes_per_group := 128 }

/-- An image with the two bytes of the magic number, at offset 1024 + 56,
overwritten by the 16-bit value `v`. -/
def with_magic (img : Image) (v : Nat) : Image :=
  { size := img.size, byte := put 1080 (u16 v) img.byte }

/-- The fixture cut to its first `n` bytes. -/
def fixture_first (n : Nat) : Image := { size := n, byte := fixture_bytes }

/-! # Properties -/

/-! ### Facts about `strcmp` -/

theorem strcmp_range (a b : List Nat) : strcmp a b = -1 ∨ strcmp a b = 0 ∨ strcmp a b = 1 := by
  induction a generalizing b with
  | nil => cases b <;> simp [strcmp]
  | cons x xs ih =>
    cases b with
    | nil => simp [strcmp]
    | cons y ys =>
      simp only [strcmp]
      split
      · simp
      · split
        · simp
        · exact ih ys

theorem strcmp_eq_zero_iff (a b : List Nat) : strcmp a b = 0 ↔ a = b := by
  induction a generalizing b with
  | nil => cases b <;> simp [strcmp]
  | cons x xs ih =>
    cases b with
    | nil => simp [strcmp]
    | cons y ys =>
      simp only [strcmp]
      split
      · simp; omega
      · split
        · simp; omega
        · rw [ih ys]
          have : x = y := by omega
          simp [this]

theorem strcmp_self (a : List Nat) : strcmp a a = 0 := (strcmp_eq_zero_iff a a).2 rfl

theorem strcmp_flip (a b : List Nat) : strcmp b a = - strcmp a b := by
  induction a generalizing b with
  | nil => cases b <;> simp [strcmp]
  | cons x xs ih =>
    cases b with
    | nil => simp [strcmp]
    | cons y ys =>
      simp only [strcmp]
      by_cases h1 : x < y
      · have h2 : ¬ y < x := by omega
        simp [h1, h2]
      · by_cases h2 : y < x
        · simp [h1, h2]
        · simp [h1, h2, ih ys]

theorem strcmp_le_trans (a b c : List Nat) (h1 : strcmp a b ≤ 0) (h2 : strcmp b c ≤ 0) :
    strcmp a c ≤ 0 := by
  induction a generalizing b c with
  | nil => cases c <;> simp [strcmp]
  | cons x xs ih =>
    cases b with
    | nil => simp [strcmp] at h1
    | cons y ys =>
      cases c with
      | nil => simp [strcmp] at h2
      | cons z zs =>
        simp only [strcmp] at h1 h2 ⊢
        by_cases hxy : x < y
        · by_cases hyz : y < z
          · have : x < z := by omega
            simp [this]
          · by_cases hzy : z < y
            · simp [hyz, hzy] at h2
            · have : x < z := by omega
              simp [this]
        · by_cases hyx : y < x
          · simp [hxy, hyx] at h1
          · simp only [hxy, hyx, if_false] at h1
            by_cases hyz : y < z
            · have : x < z := by omega
              simp [this]
            · by_cases hzy : z < y
              · simp [hyz, hzy] at h2
              · simp only [hyz, hzy, if_false] at h2
                have e1 : ¬ x < z := by omega
                have e2 : ¬ z < x := by omega
                simp only [e1, e2, if_false]
                exact ih ys zs h1 h2

theorem strcmp_le_of_not_lt (a b : List Nat) (h : ¬ strcmp a b < 0) : strcmp b a ≤ 0 := by
  rw [strcmp_flip a b]; omega


/-! ### Sorted insertion and the tree that `build_tree` produces -/

theorem mem_insert_child_sorted_chain (l : List Node) (c x : Node) :
    x ∈ insert_child_sorted_chain l c ↔ x = c ∨ x ∈ l := by
  induction l with
  | nil => simp [insert_child_sorted_chain]
  | cons y rest ih =>
    simp only [insert_child_sorted_chain]
    split
    · simp
    · split
      · simp only [List.mem_cons, ih]; tauto
      · split
        · simp only [List.mem_cons, ih]; tauto
        · simp

theorem insert_child_sorted_chain_split (l : List Node) (c : Node) :
    ∃ before after, l = before ++ after ∧
      insert_child_sorted_chain l c = before ++ c :: after := by
  induction l with
  | nil => exact ⟨[], [], rfl, rfl⟩
  | cons y rest ih =>
    obtain ⟨b, a, h1, h2⟩ := ih
    simp only [insert_child_sorted_chain]
    split
    · exact ⟨[], y :: rest, rfl, rfl⟩
    · split
      · exact ⟨y :: b, a, by rw [h1]; rfl, by rw [h2]; rfl⟩
      · split
        · exact ⟨y :: b, a, by rw [h1]; rfl, by rw [h2]; rfl⟩
        · exact ⟨[], y :: rest, rfl, rfl⟩

theorem insert_child_sorted_chain_sorted (l : List Node) (c : Node)
    (h : ChildrenSorted l) : ChildrenSorted (insert_child_sorted_chain l c) := by
  unfold ChildrenSorted at h ⊢
  induction l with
  | nil => simp [insert_child_sorted_chain]
  | cons x rest ih =>
    rw [List.pairwise_cons] at h
    obtain ⟨hx, hrest⟩ := h
    simp only [insert_child_sorted_chain]
    split
    · -- the child is a directory, the node at `cur` is not
      rename_i hc
      refine List.Pairwise.cons ?_ (List.Pairwise.cons hx hrest)
      intro y hy
      rcases List.mem_cons.1 hy with rfl | hy
      · exact ⟨fun _ => hc.1, fun hiff => absurd (hiff.1 hc.1) hc.2⟩
      · have hyx := hx y hy
        have hyn : y.file_type ≠ EXT2_FT_DIR := fun hyd => hc.2 (hyx.1 hyd)
        exact ⟨fun hyd => absurd hyd hyn, fun hiff => absurd (hiff.1 hc.1) hyn⟩
    · split
      · -- the child is not a directory, the node at `cur` is
        rename_i _ hc
        refine List.Pairwise.cons ?_ (ih hrest)
        intro y hy
        rcases (mem_insert_child_sorted_chain rest c y).1 hy with rfl | hy
        · exact ⟨fun _ => hc.2, fun hiff => absurd (hiff.1 hc.2) hc.1⟩
        · exact hx y hy
      · rename_i h1 h2
        have hcls : x.file_type = EXT2_FT_DIR ↔ c.file_type = EXT2_FT_DIR := by
          constructor
          · intro hxd; by_contra hcd; exact h2 ⟨hcd, hxd⟩
          · intro hcd; by_contra hxd; exact h1 ⟨hcd, hxd⟩
        split
        · -- same class, the name at `cur` is smaller
          rename_i hlt
          refine List.Pairwise.cons ?_ (ih hrest)
          intro y hy
          rcases (mem_insert_child_sorted_chain rest c y).1 hy with rfl | hy
          · exact ⟨hcls.2, fun _ => le_of_lt hlt⟩
          · exact hx y hy
        · -- same class, the name at `cur` is not smaller
          rename_i hge
          have hcx : strcmp c.name x.name ≤ 0 := strcmp_le_of_not_lt _ _ hge
          refine List.Pairwise.cons ?_ (List.Pairwise.cons hx hrest)
          intro y hy
          rcases List.mem_cons.1 hy with rfl | hy
          · exact ⟨hcls.1, fun _ => hcx⟩
          · have hyx := hx y hy
            refine ⟨fun hyd => hcls.1 (hyx.1 hyd), fun hiff => ?_⟩
            exact strcmp_le_trans _ _ _ hcx (hyx.2 (hcls.trans hiff))

theorem allSortedList_iff (l : List Node) :
    Node.AllSortedList l ↔ ∀ x ∈ l, Node.AllSorted x := by
  induction l with
  | nil => simp [Node.AllSortedList]
  | cons y rest ih => simp [Node.AllSortedList, ih]

theorem allSorted_iff (n : Node) :
    n.AllSorted ↔ ChildrenSorted n.children ∧ ∀ x ∈ n.children, Node.AllSorted x := by
  cases n with
  | mk a b c cs => simp [Node.AllSorted, Node.children, allSortedList_iff]

theorem insert_child_sorted_allSorted (parent child : Node) (hp : parent.AllSorted)
    (hc : child.AllSorted) : (insert_child_sorted parent child).AllSorted := by
  rw [allSorted_iff] at hp ⊢
  refine ⟨insert_child_sorted_chain_sorted _ _ hp.1, ?_⟩
  intro x hx
  rcases (mem_insert_child_sorted_chain _ _ _).1 hx with rfl | hx
  · exact hc
  · exact hp.2 x hx

theorem create_node_allSorted (name : List Nat) (ino type : Nat) :
    (create_node name ino type).AllSorted := by
  simp [create_node, Node.AllSorted, Node.AllSortedList, ChildrenSorted]

/-- The scan of a directory block keeps an invariant `P` of the node being
filled, when every finished child has the property `Q` that insertion asks
for: a fresh node that is not a directory has it, and so has what the
recursive call returns for a fresh directory. -/
theorem scan_dir_block_preserves (P Q : Node → Prop) (g : Globals)
    (recurse : Node → Except Fault Node) (blk_off : Nat)
    (hfresh : ∀ name ino type, ¬ is_skipped_name name = true → type ≠ EXT2_FT_DIR →
      Q (create_node name ino type))
    (hrec : ∀ name ino t, ¬ is_skipped_name name = true →
      recurse (create_node name ino EXT2_FT_DIR) = .ok t → Q t ∧ t.name = name)
    (hins : ∀ parent child, P parent → Q child → ¬ is_skipped_name child.name = true →
      P (insert_child_sorted parent child))
    (fuel cur : Nat) (parent t : Node) (hp : P parent)
    (h : scan_dir_block g recurse blk_off fuel cur parent = .ok t) : P t := by
  induction fuel generalizing cur parent with
  | zero => simp [scan_dir_block] at h
  | succ fuel ih =>
    simp only [scan_dir_block] at h
    split at h
    · split at h
      · simp at h
      · split at h
        · cases h; exact hp
        · split at h
          · exact ih _ _ hp h
          · rename_i hskip
            split at h
            · simp at h
            · rename_i child hchild
              refine ih _ _ (hins _ _ hp ?_ ?_) h
              · split at hchild
                · rename_i hdir
                  rw [hdir] at hchild
                  exact (hrec _ _ _ hskip hchild).1
                · rename_i hdir
                  cases hchild; exact hfresh _ _ _ hskip hdir
              · split at hchild
                · rename_i hdir
                  rw [hdir] at hchild
                  rw [(hrec _ _ _ hskip hchild).2]; exact hskip
                · cases hchild; exact hskip
    · cases h; exact hp

theorem scan_dir_blocks_preserves (P Q : Node → Prop) (g : Globals)
    (recurse : Node → Except Fault Node)
    (hfresh : ∀ name ino type, ¬ is_skipped_name name = true → type ≠ EXT2_FT_DIR →
      Q (create_node name ino type))
    (hrec : ∀ name ino t, ¬ is_skipped_name name = true →
      recurse (create_node name ino EXT2_FT_DIR) = .ok t → Q t ∧ t.name = name)
    (hins : ∀ parent child, P parent → Q child → ¬ is_skipped_name child.name = true →
      P (insert_child_sorted parent child))
    (fuel : Nat) (blocks : List Nat) (parent t : Node) (hp : P parent)
    (h : scan_dir_blocks g recurse fuel blocks parent = .ok t) : P t := by
  induction blocks generalizing parent with
  | nil => simp [scan_dir_blocks] at h; cases h; exact hp
  | cons b rest ih =>
    simp only [scan_dir_blocks] at h
    split at h
    · simp at h
    · rename_i p1 hp1
      exact ih _ (scan_dir_block_preserves P Q g recurse _ hfresh hrec hins _ _ _ _ hp hp1) h

theorem insert_child_sorted_name (parent child : Node) :
    (insert_child_sorted parent child).name = parent.name := rfl

theorem insert_child_sorted_children (parent child : Node) :
    (insert_child_sorted parent child).children
      = insert_child_sorted_chain parent.children child := rfl

theorem scan_dir_block_name (g : Globals) (recurse : Node → Except Fault Node)
    (blk_off fuel cur : Nat) (parent t : Node)
    (h : scan_dir_block g recurse blk_off fuel cur parent = .ok t) : t.name = parent.name := by
  induction fuel generalizing cur parent with
  | zero => simp [scan_dir_block] at h
  | succ fuel ih =>
    simp only [scan_dir_block] at h
    split at h
    · split at h
      · simp at h
      · split at h
        · cases h; rfl
        · split at h
          · exact ih _ _ h
          · split at h
            · simp at h
            · rw [ih _ _ h, insert_child_sorted_name]
    · cases h; rfl

theorem scan_dir_blocks_name (g : Globals) (recurse : Node → Except Fault Node)
    (fuel : Nat) (blocks : List Nat) (parent t : Node)
    (h : scan_dir_blocks g recurse fuel blocks parent = .ok t) : t.name = parent.name := by
  induction blocks generalizing parent with
  | nil => simp [scan_dir_blocks] at h; cases h; rfl
  | cons b rest ih =>
    simp only [scan_dir_blocks] at h
    split at h
    · simp at h
    · rename_i p1 hp1
      rw [ih _ h, scan_dir_block_name _ _ _ _ _ _ _ hp1]

theorem build_tree_name (g : Globals) (fuel : Nat) (parent t : Node)
    (h : build_tree g fuel parent = .ok t) : t.name = parent.name := by
  cases fuel with
  | zero => simp [build_tree] at h
  | succ fuel =>
    simp only [build_tree] at h
    split at h
    · simp at h
    · split at h
      · simp at h
      · exact scan_dir_blocks_name _ _ _ _ _ _ h

/-- An invariant `P` of the node being filled that insertion of finished
children keeps holds of everything `build_tree` returns: a fresh directory
has `P`, a fresh node of another type has `Q`, and `P` gives `Q`. -/
theorem build_tree_preserves (P Q : Node → Prop) (g : Globals)
    (hstart : ∀ name ino, ¬ is_skipped_name name = true →
      P (create_node name ino EXT2_FT_DIR))
    (hfresh : ∀ name ino type, ¬ is_skipped_name name = true → type ≠ EXT2_FT_DIR →
      Q (create_node name ino type))
    (hPQ : ∀ n, P n → Q n)
    (hins : ∀ parent child, P parent → Q child → ¬ is_skipped_name child.name = true →
      P (insert_child_sorted parent child))
    (fuel : Nat) (parent t : Node) (hp : P parent)
    (h : build_tree g fuel parent = .ok t) : P t := by
  induction fuel generalizing parent t with
  | zero => simp [build_tree] at h
  | succ fuel ih =>
    simp only [build_tree] at h
    split at h
    · simp at h
    · split at h
      · simp at h
      · refine scan_dir_blocks_preserves P Q g _ hfresh ?_ hins _ _ _ _ hp h
        intro name ino t' hskip ht'
        exact ⟨hPQ _ (ih _ _ (hstart _ _ hskip) ht'), build_tree_name _ _ _ _ ht'⟩

theorem fixture_tree_built : build_tree fixture_globals 8 root_node = .ok fixture_tree := by rfl

theorem fixture_tree_children_sorted : ChildrenSorted fixture_tree.children := by
  simp only [fixture_tree, Node.children, ChildrenSorted, List.pairwise_cons]
  refine ⟨?_, ?_, List.Pairwise.nil⟩
  · intro y hy
    simp only [List.mem_singleton] at hy
    subst hy
    refine ⟨fun h => rfl, fun h => ?_⟩
    simp [Node.file_type, EXT2_FT_DIR] at h
  · intro y hy; simp at hy

/-- C1. If the child list of a node has all directories before all
non-directories and, within each class, names in byte-wise ascending order,
then after `insert_child_sorted(parent, child)` the list still has that order,
it is the earlier list with the new child put in at one place (so the child
occurs once more than before and the earlier children keep their relative
order); and every node of a tree that `build_tree` returns has its children in
that order. -/
theorem insert_child_sorted_keeps_order :
    (∀ parent child : Node, ChildrenSorted parent.children →
      ChildrenSorted (insert_child_sorted parent child).children ∧
      ∃ before after, parent.children = before ++ after ∧
        (insert_child_sorted parent child).children = before ++ child :: after) ∧
    (∀ (g : Globals) (fuel : Nat) (parent t : Node), parent.AllSorted →
      build_tree g fuel parent = .ok t → t.AllSorted) := by
  refine ⟨fun parent child h => ⟨insert_child_sorted_chain_sorted _ _ h,
    insert_child_sorted_chain_split _ _⟩, ?_⟩
  intro g fuel parent t hp h
  exact build_tree_preserves Node.AllSorted Node.AllSorted g
    (fun n i _ => create_node_allSorted n i _)
    (fun n i ty _ _ => create_node_allSorted n i ty) (fun _ hn => hn)
    (fun p c hp hc _ => insert_child_sorted_allSorted p c hp hc) fuel parent t hp h

/-- C1 on the fixture: a directory `b` is put into the sorted root of the
fixture tree, and the tree built from the fixture image is sorted throughout. -/
theorem insert_child_sorted_keeps_order_witness :
    ChildrenSorted
      (insert_child_sorted fixture_tree (create_node (ascii "b") 14 2)).children ∧
    fixture_tree.AllSorted :=
  ⟨(insert_child_sorted_keeps_order.1 fixture_tree (create_node (ascii "b") 14 2)
      fixture_tree_children_sorted).1,
   insert_child_sorted_keeps_order.2 fixture_globals 8 root_node fixture_tree
      (create_node_allSorted _ _ _) fixture_tree_built⟩

/-! ### The block resolver -/

theorem collect_leaves_ok (cap : Int) (vs blocks : List Nat)
    (h : ((blocks ++ nonzero_entries vs).length : Int) ≤ cap) :
    collect_leaves cap vs blocks = .ok (blocks ++ nonzero_entries vs) := by
  induction vs generalizing blocks with
  | nil => simp [collect_leaves, nonzero_entries]
  | cons v rest ih =>
    by_cases hv : v = 0
    · subst hv
      simp only [collect_leaves, nonzero_entries, ne_eq, not_true_eq_false, if_false,
        decide_False, List.filter_cons_of_neg, Bool.false_eq_true, not_false_eq_true]
      simp only [nonzero_entries, ne_eq, decide_True, List.filter_cons_of_neg,
        not_true_eq_false, decide_False, Bool.false_eq_true, not_false_eq_true] at h
      exact ih blocks h
    · have hf : nonzero_entries (v :: rest) = v :: nonzero_entries rest := by
        simp [nonzero_entries, hv]
      rw [hf] at h ⊢
      have hlen : (blocks.length : Int) < cap := by
        simp only [List.length_append, List.length_cons] at h
        push_cast at h
        omega
      simp only [collect_leaves, ne_eq, hv, not_false_eq_true, if_true, store_block, hlen]
      have := ih (blocks ++ [v]) (by simpa using h)
      simpa using this

theorem collect_leaves_inv (cap : Int) (vs blocks r : List Nat)
    (h : collect_leaves cap vs blocks = .ok r) :
    r = blocks ++ nonzero_entries vs ∧ (r = blocks ∨ (r.length : Int) ≤ cap) := by
  induction vs generalizing blocks with
  | nil =>
    simp only [collect_leaves, Except.ok.injEq] at h
    subst h
    simp [nonzero_entries]
  | cons v rest ih =>
    by_cases hv : v = 0
    · subst hv
      simp only [collect_leaves, ne_eq, not_true_eq_false, if_false] at h
      have := ih blocks h
      simpa [nonzero_entries] using this
    · have hf : nonzero_entries (v :: rest) = v :: nonzero_entries rest := by
        simp [nonzero_entries, hv]
      simp only [collect_leaves, ne_eq, hv, not_false_eq_true, if_true, store_block] at h
      split at h
      · simp at h
      · rename_i b1 hb1
        split at hb1
        · rename_i hlt
          cases hb1
          obtain ⟨h1, h2⟩ := ih _ h
          refine ⟨by rw [h1, hf]; simp, Or.inr ?_⟩
          rcases h2 with h2 | h2
          · rw [h2]; simp only [List.length_append, List.length_singleton]; push_cast; omega
          · exact h2
        · simp at hb1

theorem nonzero_entries_cons_zero (rest : List Nat) :
    nonzero_entries (0 :: rest) = nonzero_entries rest := by
  simp [nonzero_entries]

theorem nonzero_entries_cons_pos (b : Nat) (rest : List Nat) (hb : b ≠ 0) :
    nonzero_entries (b :: rest) = b :: nonzero_entries rest := by
  simp [nonzero_entries, hb]

theorem collect_double_ok (img : Image) (bs : Nat) (cap : Int) (ind blocks x : List Nat)
    (hx : spec_each (spec_single img bs) (nonzero_entries ind) = .ok x)
    (h : ((blocks ++ x).length : Int) ≤ cap) :
    collect_double img bs cap ind blocks = .ok (blocks ++ x) := by
  induction ind generalizing blocks x with
  | nil =>
    simp only [nonzero_entries, List.filter_nil, spec_each, Except.ok.injEq] at hx
    subst hx
    simp [collect_double]
  | cons b rest ih =>
    by_cases hb : b = 0
    · subst hb
      rw [nonzero_entries_cons_zero] at hx
      simp only [collect_double, if_true]
      exact ih blocks x hx h
    · rw [nonzero_entries_cons_pos b rest hb] at hx
      simp only [spec_each, spec_single] at hx
      simp only [collect_double, hb, if_false]
      cases hr : read_ptr_block img bs b with
      | error e => rw [hr] at hx; simp at hx
      | ok ptrs =>
        rw [hr] at hx
        simp only at hx
        cases hs : spec_each (spec_single img bs) (nonzero_entries rest) with
        | error e => rw [hs] at hx; simp at hx
        | ok y =>
          rw [hs] at hx
          simp only [Except.ok.injEq] at hx
          subst hx
          have hl : ((blocks ++ nonzero_entries ptrs).length : Int) ≤ cap := by
            simp only [List.length_append] at h ⊢
            push_cast at h ⊢
            omega
          simp only [collect_leaves_ok cap ptrs blocks hl]
          have := ih (blocks ++ nonzero_entries ptrs) y hs (by simpa [List.append_assoc] using h)
          simpa [List.append_assoc] using this

theorem collect_double_inv (img : Image) (bs : Nat) (cap : Int) (ind blocks r : List Nat)
    (h : collect_double img bs cap ind blocks = .ok r) :
    ∃ x, spec_each (spec_single img bs) (nonzero_entries ind) = .ok x ∧ r = blocks ++ x ∧
      (r = blocks ∨ (r.length : Int) ≤ cap) := by
  induction ind generalizing blocks with
  | nil =>
    simp only [collect_double, Except.ok.injEq] at h
    subst h
    exact ⟨[], by simp [nonzero_entries, spec_each], by simp, Or.inl rfl⟩
  | cons b rest ih =>
    by_cases hb : b = 0
    · subst hb
      simp only [collect_double, if_true] at h
      rw [nonzero_entries_cons_zero]
      exact ih blocks h
    · rw [nonzero_entries_cons_pos b rest hb]
      simp only [collect_double, hb, if_false] at h
      simp only [spec_each, spec_single]
      cases hr : read_ptr_block img bs b with
      | error e => rw [hr] at h; simp at h
      | ok ptrs =>
        rw [hr] at h
        simp only at h
        cases hl : collect_leaves cap ptrs blocks with
        | error e => rw [hl] at h; simp at h
        | ok b1 =>
          rw [hl] at h
          simp only at h
          obtain ⟨e1, e2⟩ := collect_leaves_inv cap ptrs blocks b1 hl
          obtain ⟨y, hy, hr1, hr2⟩ := ih b1 h
          refine ⟨nonzero_entries ptrs ++ y, by simp [hy], by rw [hr1, e1]; simp, ?_⟩
          rcases hr2 with hr2 | hr2
          · rcases e2 with e2 | e2
            · left; rw [hr2, e2]
            · right; rw [hr2]; exact e2
          · right; exact hr2

theorem collect_triple_ok (img : Image) (bs : Nat) (cap : Int) (dbl blocks x : List Nat)
    (hx : spec_each (spec_double img bs) (nonzero_entries dbl) = .ok x)
    (h : ((blocks ++ x).length : Int) ≤ cap) :
    collect_triple img bs cap dbl blocks = .ok (blocks ++ x) := by
  induction dbl generalizing blocks x with
  | nil =>
    simp only [nonzero_entries, List.filter_nil, spec_each, Except.ok.injEq] at hx
    subst hx
    simp [collect_triple]
  | cons b rest ih =>
    by_cases hb : b = 0
    · subst hb
      rw [nonzero_entries_cons_zero] at hx
      simp only [collect_triple, if_true]
      exact ih blocks x hx h
    · rw [nonzero_entries_cons_pos b rest hb] at hx
      simp only [spec_each, spec_double] at hx
      simp only [collect_triple, hb, if_false]
      cases hr : read_ptr_block img bs b with
      | error e => rw [hr] at hx; simp at hx
      | ok ind =>
        rw [hr] at hx
        simp only at hx
        cases hd : spec_each (spec_single img bs) (nonzero_entries ind) with
        | error e => rw [hd] at hx; simp at hx
        | ok x1 =>
          rw [hd] at hx
          simp only at hx
          cases hs : spec_each (spec_double img bs) (nonzero_entries rest) with
          | error e => rw [hs] at hx; simp at hx
          | ok y =>
            rw [hs] at hx
            simp only [Except.ok.injEq] at hx
            subst hx
            have hl : ((blocks ++ x1).length : Int) ≤ cap := by
              simp only [List.length_append] at h ⊢
              push_cast at h ⊢
              omega
            simp only [collect_double_ok img bs cap ind blocks x1 hd hl]
            have := ih (blocks ++ x1) y hs (by simpa [List.append_assoc] using h)
            simpa [List.append_assoc] using this

theorem collect_triple_inv (img : Image) (bs : Nat) (cap : Int) (dbl blocks r : List Nat)
    (h : collect_triple img bs cap dbl blocks = .ok r) :
    ∃ x, spec_each (spec_double img bs) (nonzero_entries dbl) = .ok x ∧ r = blocks ++ x ∧
      (r = blocks ∨ (r.length : Int) ≤ cap) := by
  induction dbl generalizing blocks with
  | nil =>
    simp only [collect_triple, Except.ok.injEq] at h
    subst h
    exact ⟨[], by simp [nonzero_entries, spec_each], by simp, Or.inl rfl⟩
  | cons b rest ih =>
    by_cases hb : b = 0
    · subst hb
      simp only [collect_triple, if_true] at h
      rw [nonzero_entries_cons_zero]
      exact ih blocks h
    · rw [nonzero_entries_cons_pos b rest hb]
      simp only [collect_triple, hb, if_false] at h
      simp only [spec_each, spec_double]
      cases hr : read_ptr_block img bs b with
      | error e => rw [hr] at h; simp at h
      | ok ind =>
        rw [hr] at h
        simp only at h
        cases hl : collect_double img bs cap ind blocks with
        | error e => rw [hl] at h; simp at h
        | ok b1 =>
          rw [hl] at h
          simp only at h
          obtain ⟨x1, hx1, e1, e2⟩ := collect_double_inv img bs cap ind blocks b1 hl
          obtain ⟨y, hy, hr1, hr2⟩ := ih b1 h
          refine ⟨x1 ++ y, by simp [hx1, hy], by rw [hr1, e1]; simp, ?_⟩
          rcases hr2 with hr2 | hr2
          · rcases e2 with e2 | e2
            · left; rw [hr2, e2]
            · right; rw [hr2]; exact e2
          · right; exact hr2

theorem collect_single_step_ok (img : Image) (bs : Nat) (cap : Int) (b : Nat)
    (blocks x : List Nat) (hx : spec_level (spec_single img bs) b = .ok x)
    (h : ((blocks ++ x).length : Int) ≤ cap) :
    collect_single_step img bs cap b blocks = .ok (blocks ++ x) := by
  unfold spec_level at hx
  unfold collect_single_step
  by_cases hb : b = 0
  · simp only [hb, ne_eq, not_true_eq_false, if_false, Except.ok.injEq] at hx ⊢
    subst hx; simp
  · simp only [ne_eq, hb, not_false_eq_true, if_true, spec_single] at hx ⊢
    cases hr : read_ptr_block img bs b with
    | error e => rw [hr] at hx; simp at hx
    | ok ptrs =>
      rw [hr] at hx
      simp only [Except.ok.injEq] at hx
      subst hx
      exact collect_leaves_ok cap ptrs blocks h

theorem collect_single_step_inv (img : Image) (bs : Nat) (cap : Int) (b : Nat)
    (blocks r : List Nat) (h : collect_single_step img bs cap b blocks = .ok r) :
    ∃ x, spec_level (spec_single img bs) b = .ok x ∧ r = blocks ++ x ∧
      (r = blocks ∨ (r.length : Int) ≤ cap) := by
  unfold collect_single_step at h
  unfold spec_level
  by_cases hb : b = 0
  · simp only [hb, ne_eq, not_true_eq_false, if_false, Except.ok.injEq] at h ⊢
    subst h
    exact ⟨[], rfl, by simp, Or.inl rfl⟩
  · simp only [ne_eq, hb, not_false_eq_true, if_true, spec_single] at h ⊢
    cases hr : read_ptr_block img bs b with
    | error e => rw [hr] at h; simp at h
    | ok ptrs =>
      rw [hr] at h
      simp only at h
      obtain ⟨e1, e2⟩ := collect_leaves_inv cap ptrs blocks r h
      exact ⟨nonzero_entries ptrs, rfl, e1, e2⟩

theorem collect_double_step_ok (img : Image) (bs : Nat) (cap : Int) (b : Nat)
    (blocks x : List Nat) (hx : spec_level (spec_double img bs) b = .ok x)
    (h : ((blocks ++ x).length : Int) ≤ cap) :
    collect_double_step img bs cap b blocks = .ok (blocks ++ x) := by
  unfold spec_level at hx
  unfold collect_double_step
  by_cases hb : b = 0
  · simp only [hb, ne_eq, not_true_eq_false, if_false, Except.ok.injEq] at hx ⊢
    subst hx; simp
  · simp only [ne_eq, hb, not_false_eq_true, if_true, spec_double] at hx ⊢
    cases hr : read_ptr_block img bs b with
    | error e => rw [hr] at hx; simp at hx
    | ok ind =>
      rw [hr] at hx
      exact collect_double_ok img bs cap ind blocks x hx h

theorem collect_double_step_inv (img : Image) (bs : Nat) (cap : Int) (b : Nat)
    (blocks r : List Nat) (h : collect_double_step img bs cap b blocks = .ok r) :
    ∃ x, spec_level (spec_double img bs) b = .ok x ∧ r = blocks ++ x ∧
      (r = blocks ∨ (r.length : Int) ≤ cap) := by
  unfold collect_double_step at h
  unfold spec_level
  by_cases hb : b = 0
  · simp only [hb, ne_eq, not_true_eq_false, if_false, Except.ok.injEq] at h ⊢
    subst h
    exact ⟨[], rfl, by simp, Or.inl rfl⟩
  · simp only [ne_eq, hb, not_false_eq_true, if_true, spec_double] at h ⊢
    cases hr : read_ptr_block img bs b with
    | error e => rw [hr] at h; simp at h
    | ok ind =>
      rw [hr] at h
      exact collect_double_inv img bs cap ind blocks r h

theorem collect_triple_step_ok (img : Image) (bs : Nat) (cap : Int) (b : Nat)
    (blocks x : List Nat) (hx : spec_level (spec_triple img bs) b = .ok x)
    (h : ((blocks ++ x).length : Int) ≤ cap) :
    collect_triple_step img bs cap b blocks = .ok (blocks ++ x) := by
  unfold spec_level at hx
  unfold collect_triple_step
  by_cases hb : b = 0
  · simp only [hb, ne_eq, not_true_eq_false, if_false, Except.ok.injEq] at hx ⊢
    subst hx; simp
  · simp only [ne_eq, hb, not_false_eq_true, if_true, spec_triple] at hx ⊢
    cases hr : read_ptr_block img bs b with
    | error e => rw [hr] at hx; simp at hx
    | ok dbl =>
      rw [hr] at hx
      exact collect_triple_ok img bs cap dbl blocks x hx h

theorem collect_triple_step_inv (img : Image) (bs : Nat) (cap : Int) (b : Nat)
    (blocks r : List Nat) (h : collect_triple_step img bs cap b blocks = .ok r) :
    ∃ x, spec_level (spec_triple img bs) b = .ok x ∧ r = blocks ++ x ∧
      (r = blocks ∨ (r.length : Int) ≤ cap) := by
  unfold collect_triple_step at h
  unfold spec_level
  by_cases hb : b = 0
  · simp only [hb, ne_eq, not_true_eq_false, if_false, Except.ok.injEq] at h ⊢
    subst h
    exact ⟨[], rfl, by simp, Or.inl rfl⟩
  · simp only [ne_eq, hb, not_false_eq_true, if_true, spec_triple] at h ⊢
    cases hr : read_ptr_block img bs b with
    | error e => rw [hr] at h; simp at h
    | ok dbl =>
      rw [hr] at h
      exact collect_triple_inv img bs cap dbl blocks r h

/-- When the sequence of the specification exists and fits the array, the
code returns it. -/
theorem collect_data_blocks_of_spec (img : Image) (ino : ext2_inode) (bs : Nat)
    (r : List Nat) (hr : spec_block_sequence img ino bs = .ok r)
    (hcap : (r.length : Int) ≤ collect_cap bs) :
    collect_data_blocks img ino bs = .ok r := by
  unfold spec_block_sequence at hr
  cases h1 : spec_level (spec_single img bs) (ino.blk 12) with
  | error e => rw [h1] at hr; simp at hr
  | ok x1 =>
    rw [h1] at hr
    simp only at hr
    cases h2 : spec_level (spec_double img bs) (ino.blk 13) with
    | error e => rw [h2] at hr; simp at hr
    | ok x2 =>
      rw [h2] at hr
      simp only at hr
      cases h3 : spec_level (spec_triple img bs) (ino.blk 14) with
      | error e => rw [h3] at hr; simp at hr
      | ok x3 =>
        rw [h3] at hr
        simp only [Except.ok.injEq] at hr
        subst hr
        simp only [List.length_append] at hcap
        push_cast at hcap
        have hx1 := Int.ofNat_nonneg x1.length
        have hx2 := Int.ofNat_nonneg x2.length
        have hx3 := Int.ofNat_nonneg x3.length
        unfold collect_data_blocks
        have e0 := collect_leaves_ok (collect_cap bs) ((List.range 12).map ino.blk) []
          (by simp only [List.nil_append]; omega)
        simp only [List.nil_append] at e0
        simp only [e0]
        have e1 := collect_single_step_ok img bs (collect_cap bs) (ino.blk 12)
          (nonzero_entries ((List.range 12).map ino.blk)) x1 h1
          (by simp only [List.length_append]; push_cast; omega)
        simp only [e1]
        have e2 := collect_double_step_ok img bs (collect_cap bs) (ino.blk 13)
          (nonzero_entries ((List.range 12).map ino.blk) ++ x1) x2 h2
          (by simp only [List.length_append]; push_cast; omega)
        simp only [e2]
        exact collect_triple_step_ok img bs (collect_cap bs) (ino.blk 14)
          (nonzero_entries ((List.range 12).map ino.blk) ++ x1 ++ x2) x3 h3
          (by simp only [List.length_append]; push_cast; omega)

/-- Whatever the code returns is the sequence of the specification, and it
fits the array. -/
theorem collect_data_blocks_inv (img : Image) (ino : ext2_inode) (bs : Nat)
    (r : List Nat) (h : collect_data_blocks img ino bs = .ok r) :
    spec_block_sequence img ino bs = .ok r ∧ (r = [] ∨ (r.length : Int) ≤ collect_cap bs) := by
  unfold collect_data_blocks at h
  simp only at h
  cases h0 : collect_leaves (collect_cap bs) ((List.range 12).map ino.blk) [] with
  | error e => rw [h0] at h; simp at h
  | ok b0 =>
    rw [h0] at h
    simp only at h
    obtain ⟨e0, f0⟩ := collect_leaves_inv _ _ _ _ h0
    cases h1 : collect_single_step img bs (collect_cap bs) (ino.blk 12) b0 with
    | error e => rw [h1] at h; simp at h
    | ok b1 =>
      rw [h1] at h
      simp only at h
      obtain ⟨x1, s1, e1, f1⟩ := collect_single_step_inv _ _ _ _ _ _ h1
      cases h2 : collect_double_step img bs (collect_cap bs) (ino.blk 13) b1 with
      | error e => rw [h2] at h; simp at h
      | ok b2 =>
        rw [h2] at h
        simp only at h
        obtain ⟨x2, s2, e2, f2⟩ := collect_double_step_inv _ _ _ _ _ _ h2
        obtain ⟨x3, s3, e3, f3⟩ := collect_triple_step_inv _ _ _ _ _ _ h
        refine ⟨?_, ?_⟩
        · unfold spec_block_sequence
          simp only [s1, s2, s3]
          rw [e3, e2, e1, e0]
          simp
        · rcases f3 with f3 | f3
          · rcases f2 with f2 | f2
            · rcases f1 with f1 | f1
              · rcases f0 with f0 | f0
                · left; rw [f3, f2, f1, f0]
                · right; rw [f3, f2, f1]; exact f0
              · right; rw [f3, f2]; exact f1
            · right; rw [f3]; exact f2
          · right; exact f3

/-! ### Reads from the image -/

theorem pread_length (img : Image) (count off : Nat) (h : off < 2 ^ 63) :
    (pread img count off).length = min count (img.size - off) := by
  have hn : ¬ 2 ^ 63 ≤ off := by omega
  unfold pread
  rw [if_neg hn]
  simp

theorem pread_getD (img : Image) (count off i : Nat) (h : off < 2 ^ 63)
    (hi : i < min count (img.size - off)) :
    (pread img count off).getD i 0 = img.byte (off + i) % 256 := by
  have hn : ¬ 2 ^ 63 ≤ off := by omega
  unfold pread
  rw [if_neg hn, List.getD_eq_getElem _ _ (by simpa using hi)]
  simp

theorem wide_ptr_block : read_ptr_block wide_image 8192 3 = .ok (List.replicate 2048 3) := by
  have hoff : off_mul 3 8192 = 24576 := by decide
  have hlen : (pread wide_image 8192 24576).length = 8192 := by
    rw [pread_length _ _ _ (by norm_num)]; rfl
  have hget : ∀ j, j < 8192 → (pread wide_image 8192 24576).getD j 0
      = (if (24576 + j) % 4 = 0 then 3 else 0) := by
    intro j hj
    rw [pread_getD _ _ _ _ (by norm_num) (by simpa [wide_image] using hj)]
    have h1 : 24576 ≤ 24576 + j := by omega
    simp only [wide_image, wide_bytes, h1, if_true]
    split <;> rfl
  unfold read_ptr_block
  simp only [hoff, hlen]
  norm_num
  rw [List.eq_replicate_iff]
  refine ⟨by simp, ?_⟩
  intro b hb
  simp only [List.mem_map, List.mem_range] at hb
  obtain ⟨i, hi, rfl⟩ := hb
  unfold le32
  rw [hget _ (by omega), hget _ (by omega), hget _ (by omega), hget _ (by omega)]
  have e0 : (24576 + 4 * i) % 4 = 0 := by omega
  have e1 : (24576 + (4 * i + 1)) % 4 ≠ 0 := by omega
  have e2 : (24576 + (4 * i + 2)) % 4 ≠ 0 := by omega
  have e3 : (24576 + (4 * i + 3)) % 4 ≠ 0 := by omega
  simp [e0, e1, e2, e3]

theorem nonzero_entries_replicate (n b : Nat) (hb : b ≠ 0) :
    nonzero_entries (List.replicate n b) = List.replicate n b := by
  unfold nonzero_entries
  rw [List.filter_eq_self]
  intro a ha
  rw [List.eq_of_mem_replicate ha]
  simpa using hb

theorem spec_each_replicate (f : Nat → Except Fault (List Nat)) (b : Nat) (x : List Nat)
    (hf : f b = .ok x) (n : Nat) :
    spec_each f (List.replicate n b) = .ok (List.replicate n x).flatten := by
  induction n with
  | zero => simp [spec_each]
  | succ n ih => simp [List.replicate_succ, spec_each, hf, ih]

theorem length_flatten_replicate (n : Nat) (x : List Nat) :
    (List.replicate n x).flatten.length = n * x.length := by
  induction n with
  | zero => simp
  | succ n ih => simp [List.replicate_succ, ih]; ring

theorem collect_leaves_full (cap : Int) (v : Nat) (rest blocks : List Nat) (hv : v ≠ 0)
    (h : cap ≤ (blocks.length : Int)) :
    collect_leaves cap (v :: rest) blocks = .error .undefined := by
  have hn : ¬ (blocks.length : Int) < cap := by omega
  simp [collect_leaves, hv, store_block, hn]

/-- An inode all of whose slots name one block `b`, a block that holds
nothing but its own number `n + 1` times: when the capacity is
`12 + (n + 1) + (n + 1)²`, the first three levels fill the array to its last
entry and the first leaf of the triple-indirect level is stored past its
end. -/
theorem collect_overflow_of_full (img : Image) (ino : ext2_inode) (bs b n : Nat)
    (hb : b ≠ 0) (hP : read_ptr_block img bs b = .ok (List.replicate (n + 1) b))
    (hcap : collect_cap bs = ((12 + (n + 1) + (n + 1) * (n + 1) : Nat) : Int))
    (hd : nonzero_entries ((List.range 12).map ino.blk) = List.replicate 12 b)
    (h12 : ino.blk 12 = b) (h13 : ino.blk 13 = b) (h14 : ino.blk 14 = b) :
    collect_data_blocks img ino bs = .error .undefined := by
  have hnz : nonzero_entries (List.replicate (n + 1) b) = List.replicate (n + 1) b :=
    nonzero_entries_replicate _ _ hb
  have s1 : spec_single img bs b = .ok (List.replicate (n + 1) b) := by
    unfold spec_single; rw [hP]; simp only; rw [hnz]
  have s2 : spec_double img bs b
      = .ok (List.replicate (n + 1) (List.replicate (n + 1) b)).flatten := by
    unfold spec_double; rw [hP]; simp only; rw [hnz]
    exact spec_each_replicate _ _ _ s1 _
  have l1 : spec_level (spec_single img bs) b = .ok (List.replicate (n + 1) b) := by
    unfold spec_level; rw [if_pos hb]; exact s1
  have l2 : spec_level (spec_double img bs) b
      = .ok (List.replicate (n + 1) (List.replicate (n + 1) b)).flatten := by
    unfold spec_level; rw [if_pos hb]; exact s2
  unfold collect_data_blocks
  simp only [h12, h13, h14]
  have e0 := collect_leaves_ok (collect_cap bs) ((List.range 12).map ino.blk) []
    (by rw [hd, hcap]; simp only [List.nil_append, List.length_replicate]; push_cast; nlinarith)
  rw [hd] at e0
  simp only [List.nil_append] at e0
  rw [e0]
  simp only
  have e1 := collect_single_step_ok img bs (collect_cap bs) b (List.replicate 12 b)
    (List.replicate (n + 1) b) l1
    (by rw [hcap]; simp only [List.length_append, List.length_replicate]; push_cast; nlinarith)
  rw [e1]
  simp only
  have e2 := collect_double_step_ok img bs (collect_cap bs) b
    (List.replicate 12 b ++ List.replicate (n + 1) b)
    (List.replicate (n + 1) (List.replicate (n + 1) b)).flatten l2
    (by rw [hcap]
        simp only [List.length_append, List.length_replicate, length_flatten_replicate]
        push_cast; nlinarith)
  rw [e2]
  simp only
  have hfull : collect_cap bs ≤
      (((List.replicate 12 b ++ List.replicate (n + 1) b)
        ++ (List.replicate (n + 1) (List.replicate (n + 1) b)).flatten).length : Int) := by
    rw [hcap]
    simp only [List.length_append, List.length_replicate, length_flatten_replicate]
    push_cast; nlinarith
  generalize (List.replicate 12 b ++ List.replicate (n + 1) b)
    ++ (List.replicate (n + 1) (List.replicate (n + 1) b)).flatten = filled at hfull ⊢
  unfold collect_triple_step
  rw [if_pos hb, hP]
  simp only
  rw [List.replicate_succ]
  unfold collect_triple
  rw [if_neg hb, hP]
  simp only
  rw [List.replicate_succ]
  unfold collect_double
  rw [if_neg hb, hP]
  simp only
  rw [List.replicate_succ, collect_leaves_full _ _ _ _ hb hfull]

/-- The block resolver on the root directory of the image with 8192-byte
blocks: the capacity is 12 + 2048 + 2048², and the store of the first leaf of
the triple-indirect level falls outside the array. -/
theorem wide_collect_overflows :
    collect_data_blocks wide_image wide_inode 8192 = .error .undefined :=
  collect_overflow_of_full wide_image wide_inode 8192 3 2047 (by decide) wide_ptr_block
    (by decide) (by decide) (by decide) (by decide) (by decide)

/-- The block sequence of the specification for an inode all of whose slots
name one block that holds nothing but its own number `n + 1` times. -/
theorem spec_sequence_of_full (img : Image) (ino : ext2_inode) (bs b n : Nat)
    (hb : b ≠ 0) (hP : read_ptr_block img bs b = .ok (List.replicate (n + 1) b))
    (hd : nonzero_entries ((List.range 12).map ino.blk) = List.replicate 12 b)
    (h12 : ino.blk 12 = b) (h13 : ino.blk 13 = b) (h14 : ino.blk 14 = b) :
    ∃ r, spec_block_sequence img ino bs = .ok r ∧
      r.length = 12 + (n + 1) + (n + 1) * (n + 1) + (n + 1) * ((n + 1) * (n + 1)) := by
  have hnz : nonzero_entries (List.replicate (n + 1) b) = List.replicate (n + 1) b :=
    nonzero_entries_replicate _ _ hb
  have s1 : spec_single img bs b = .ok (List.replicate (n + 1) b) := by
    unfold spec_single; rw [hP]; simp only; rw [hnz]
  have s2 : spec_double img bs b
      = .ok (List.replicate (n + 1) (List.replicate (n + 1) b)).flatten := by
    unfold spec_double; rw [hP]; simp only; rw [hnz]
    exact spec_each_replicate _ _ _ s1 _
  have s3 : spec_triple img bs b
      = .ok (List.replicate (n + 1)
          (List.replicate (n + 1) (List.replicate (n + 1) b)).flatten).flatten := by
    unfold spec_triple; rw [hP]; simp only; rw [hnz]
    exact spec_each_replicate _ _ _ s2 _
  have hseq : spec_block_sequence img ino bs
      = .ok (List.replicate 12 b ++ List.replicate (n + 1) b
          ++ (List.replicate (n + 1) (List.replicate (n + 1) b)).flatten
          ++ (List.replicate (n + 1)
                (List.replicate (n + 1) (List.replicate (n + 1) b)).flatten).flatten) := by
    unfold spec_block_sequence spec_level
    rw [h12, h13, h14, s1, s2, s3, hd]
    simp only [if_pos hb]
  refine ⟨_, hseq, ?_⟩
  simp only [List.length_append, List.length_replicate, length_flatten_replicate]

theorem wide_spec_sequence :
    ∃ r, spec_block_sequence wide_image wide_inode 8192 = .ok r ∧
      r.length = 12 + 2048 + 2048 * 2048 + 2048 * 2048 * 2048 := by
  obtain ⟨r, h1, h2⟩ := spec_sequence_of_full wide_image wide_inode 8192 3 2047 (by decide)
    wide_ptr_block (by decide) (by decide) (by decide) (by decide)
  exact ⟨r, h1, h2⟩

/-- C2, at an input where the code leaves the sequence. On the image with
8192-byte blocks the root directory's inode is read as `wide_inode`; the block
sequence of the specification exists and has 12 + 2048 + 2048² + 2048³
entries; `collect_data_blocks` allocates 12 + 2048 + 2048² entries, as the
cube is lost in 32-bit arithmetic, and stores past them. -/
theorem collect_data_blocks_overflows_at_8192 :
    read_inode wide_globals 2 = .ok wide_inode ∧
    collect_cap 8192 = 12 + 2048 + 2048 * 2048 ∧
    (∃ r, spec_block_sequence wide_image wide_inode 8192 = .ok r ∧
      r.length = 12 + 2048 + 2048 * 2048 + 2048 * 2048 * 2048) ∧
    collect_data_blocks wide_image wide_inode 8192 = .error .undefined :=
  ⟨by decide, by rfl, wide_spec_sequence, wide_collect_overflows⟩

/-! ### The `print` command -/

theorem memchr_eq_none (c : Nat) (l : List Nat) : memchr c l = none ↔ c ∉ l := by
  induction l with
  | nil => simp [memchr]
  | cons x xs ih =>
    simp only [memchr]
    split
    · rename_i h; simp [h]
    · rename_i h
      simp only [Option.map_eq_none', ih, List.mem_cons, not_or]
      constructor
      · intro h2; exact ⟨fun e => h e.symm, h2⟩
      · intro h2; exact h2.2

theorem memchr_eq_some (c : Nat) (l : List Nat) (k : Nat) (h : memchr c l = some k) :
    l = l.take k ++ c :: l.drop (k + 1) ∧ c ∉ l.take k := by
  induction l generalizing k with
  | nil => simp [memchr] at h
  | cons x xs ih =>
    simp only [memchr] at h
    split at h
    · rename_i hx
      cases h
      simp [hx]
    · rename_i hx
      simp only [Option.map_eq_some'] at h
      obtain ⟨j, hj, rfl⟩ := h
      obtain ⟨h1, h2⟩ := ih j hj
      refine ⟨?_, ?_⟩
      · simp only [List.take_succ_cons, List.drop_succ_cons, List.cons_append]
        rw [← h1]
      · simp only [List.take_succ_cons, List.mem_cons, not_or]
        exact ⟨fun e => hx e.symm, h2⟩

theorem feed_stop (max_lines : Nat) (xs : List Nat) (st : PrintState)
    (h : ¬ (max_lines = 0 ∨ st.printed < max_lines)) : feed max_lines xs st = st := by
  cases xs with
  | nil => rfl
  | cons c cs => simp [feed, h]

theorem feed_append (max_lines : Nat) (xs ys : List Nat) (st : PrintState) :
    feed max_lines (xs ++ ys) st = feed max_lines ys (feed max_lines xs st) := by
  induction xs generalizing st with
  | nil => rfl
  | cons c cs ih =>
    simp only [List.cons_append, feed]
    split
    · split
      · exact ih _
      · exact ih _
    · rename_i h
      exact (feed_stop _ _ _ h).symm

theorem feed_no_newline (max_lines : Nat) (xs : List Nat) (st : PrintState)
    (hx : 10 ∉ xs) (h : max_lines = 0 ∨ st.printed < max_lines) :
    feed max_lines xs st
      = { line_buf := st.line_buf ++ xs, printed := st.printed, out := st.out } := by
  induction xs generalizing st with
  | nil => simp [feed]
  | cons c cs ih =>
    simp only [List.mem_cons, not_or] at hx
    have hc : c ≠ 10 := fun e => hx.1 e.symm
    simp only [feed, h, if_true, hc, if_false]
    rw [ih { line_buf := st.line_buf ++ [c], printed := st.printed, out := st.out } hx.2 h]
    simp

theorem print_block_eq_feed (max_lines fuel : Nat) (rest : List Nat) (st : PrintState)
    (hf : rest.length ≤ fuel) :
    print_block max_lines fuel rest st = .ok (feed max_lines rest st) := by
  induction fuel generalizing rest st with
  | zero =>
    have : rest = [] := List.length_eq_zero.1 (Nat.le_zero.1 hf)
    subst this
    simp [print_block, feed]
  | succ fuel ih =>
    simp only [print_block]
    by_cases hg : max_lines = 0 ∨ st.printed < max_lines
    · by_cases hr : rest = []
      · subst hr; simp [feed]
      · simp only [ne_eq, hr, not_false_eq_true, hg, and_self, if_true]
        cases hm : memchr 10 rest with
        | none =>
          simp only
          have hn := (memchr_eq_none 10 rest).1 hm
          rw [ih [] _ (by simp), feed_no_newline _ _ _ hn hg]
          simp [feed]
        | some k =>
          simp only
          obtain ⟨h1, h2⟩ := memchr_eq_some 10 rest k hm
          have hlen : (rest.drop (k + 1)).length ≤ fuel := by
            have : rest.length ≠ 0 := fun e => hr (List.length_eq_zero.1 e)
            simp only [List.length_drop]
            omega
          rw [ih _ _ hlen]
          conv_rhs => rw [h1, feed_append, feed_no_newline _ _ _ h2 hg]
          have hk : rest.take (k + 1) = rest.take k ++ [10] := by
            conv_lhs => rw [h1]
            have hlk : (rest.take k).length = k := by
              rw [List.length_take]
              have : k < rest.length := by
                by_contra hcon
                have hd : rest.drop (k + 1) = [] := List.drop_eq_nil_of_le (by omega)
                have ht : rest.take k = rest := List.take_of_length_le (by omega)
                rw [ht] at h1
                have := congrArg List.length h1
                simp at this
              omega
            rw [List.take_append_eq_append_take, hlk]
            simp
          simp only [feed, hg, if_true, hk, List.append_assoc]
    · have hn : ¬ (rest ≠ [] ∧ (max_lines = 0 ∨ st.printed < max_lines)) := fun h => hg h.2
      simp only [hn, if_false]
      rw [feed_stop _ _ _ hg]

theorem print_blocks_eq_feed (g : Globals) (max_lines : Nat) (blocks : List Nat)
    (st : PrintState) :
    print_blocks g max_lines blocks st = .ok (feed max_lines (block_bytes g blocks) st) := by
  induction blocks generalizing st with
  | nil => simp [print_blocks, block_bytes, feed]
  | cons b rest ih =>
    simp only [print_blocks, block_bytes]
    by_cases hg : max_lines = 0 ∨ st.printed < max_lines
    · simp only [hg, if_true]
      by_cases hb : pread g.img g.block_size (off_mul b g.block_size) = []
      · simp [hb, feed]
      · simp only [hb, if_false]
        rw [print_block_eq_feed _ _ _ _ (le_refl _)]
        simp only
        rw [ih, feed_append]
    · simp only [hg, if_false]
      rw [feed_stop _ _ _ hg]

theorem first_lines_eq_nil (k : Nat) (bytes : List Nat) (h : k = 0 ∨ 10 ∉ bytes) :
    first_lines k bytes = [] := by
  cases bytes with
  | nil => simp [first_lines]
  | cons c cs => simp only [first_lines, h, if_true]

theorem first_lines_cons_newline (k : Nat) (cs : List Nat) (hk : k ≠ 0) :
    first_lines k (10 :: cs) = 10 :: first_lines (k - 1) cs := by
  simp [first_lines, hk]

theorem first_lines_cons_other (k c : Nat) (cs : List Nat) (hk : k ≠ 0) (hc : c ≠ 10)
    (hm : 10 ∈ cs) : first_lines k (c :: cs) = c :: first_lines k cs := by
  simp [first_lines, hk, hc, hm]

/-- What the byte-wise loop has written and counted after a run of bytes: `k`
is the number of lines the cap still allows. -/
theorem feed_result (max_lines : Nat) (bytes : List Nat) (st : PrintState) (k : Nat)
    (hk : (max_lines = 0 ∧ bytes.count 10 ≤ k) ∨
      (max_lines ≠ 0 ∧ st.printed ≤ max_lines ∧ k = max_lines - st.printed)) :
    (feed max_lines bytes st).out
        = st.out ++ (if 10 ∈ bytes ∧ 0 < k then st.line_buf ++ first_lines k bytes else []) ∧
    (feed max_lines bytes st).printed = st.printed + min k (bytes.count 10) := by
  induction bytes generalizing st k with
  | nil => simp [feed]
  | cons c cs ih =>
    by_cases hg : max_lines = 0 ∨ st.printed < max_lines
    · by_cases hc : c = 10
      · subst hc
        have hkpos : 0 < k := by
          rcases hk with ⟨_, h2⟩ | ⟨h1, h2, h3⟩
          · simp only [List.count_cons_self] at h2; omega
          · rcases hg with hg | hg
            · exact absurd hg h1
            · omega
        simp only [feed, hg, if_true]
        have hk' : (max_lines = 0 ∧ cs.count 10 ≤ k - 1) ∨
            (max_lines ≠ 0 ∧ st.printed + 1 ≤ max_lines ∧ k - 1 = max_lines - (st.printed + 1)) := by
          rcases hk with ⟨h1, h2⟩ | ⟨h1, h2, h3⟩
          · left; simp only [List.count_cons_self] at h2; exact ⟨h1, by omega⟩
          · right
            rcases hg with hg | hg
            · exact absurd hg h1
            · exact ⟨h1, by omega, by omega⟩
        obtain ⟨e1, e2⟩ :=
          ih ⟨[], st.printed + 1, st.out ++ (st.line_buf ++ [10])⟩ (k - 1) hk'
        refine ⟨?_, ?_⟩
        · rw [e1]
          simp only [List.mem_cons, true_or, hkpos, and_self, if_true, List.nil_append]
          rw [first_lines_cons_newline k cs (by omega)]
          by_cases hm : 10 ∈ cs ∧ 0 < k - 1
          · simp [hm]
          · rw [if_neg hm, first_lines_eq_nil (k - 1) cs (by
              by_cases h0 : k - 1 = 0
              · exact Or.inl h0
              · right; intro hmem; exact hm ⟨hmem, by omega⟩)]
            simp
        · rw [e2]
          simp only [List.count_cons_self]
          omega
      · simp only [feed, hg, if_true, hc, if_false]
        have hk' : (max_lines = 0 ∧ cs.count 10 ≤ k) ∨
            (max_lines ≠ 0 ∧ st.printed ≤ max_lines ∧ k = max_lines - st.printed) := by
          rcases hk with ⟨h1, h2⟩ | h
          · left
            rw [List.count_cons_of_ne (fun e => hc e.symm)] at h2
            exact ⟨h1, h2⟩
          · right; exact h
        obtain ⟨e1, e2⟩ := ih ⟨st.line_buf ++ [c], st.printed, st.out⟩ k hk'
        refine ⟨?_, ?_⟩
        · rw [e1]
          have hmem : (10 ∈ c :: cs) ↔ 10 ∈ cs := by
            simp only [List.mem_cons]
            constructor
            · rintro (h | h)
              · exact absurd h.symm hc
              · exact h
            · exact Or.inr
          simp only [hmem]
          by_cases hm : 10 ∈ cs ∧ 0 < k
          · simp only [hm, and_self, if_true]
            rw [first_lines_cons_other k c cs (by omega) hc hm.1]
            simp
          · simp only [hm, if_false]
        · rw [e2, List.count_cons_of_ne (fun e => hc e.symm)]
    · have hk0 : k = 0 := by
        rcases hk with ⟨h1, _⟩ | ⟨h1, h2, h3⟩
        · exact absurd (Or.inl h1) hg
        · have : ¬ st.printed < max_lines := fun h => hg (Or.inr h)
          omega
      rw [feed_stop _ _ _ hg]
      simp [hk0]

theorem first_lines_prefix (k : Nat) (bytes : List Nat) : first_lines k bytes <+: bytes := by
  induction bytes generalizing k with
  | nil => simp [first_lines]
  | cons c cs ih =>
    simp only [first_lines]
    split
    · exact List.nil_prefix
    · exact (List.cons_prefix_cons).2 ⟨rfl, ih _⟩

theorem first_lines_count (k : Nat) (bytes : List Nat) :
    (first_lines k bytes).count 10 = min k (bytes.count 10) := by
  induction bytes generalizing k with
  | nil => simp [first_lines]
  | cons c cs ih =>
    simp only [first_lines]
    split
    · rename_i h
      rcases h with h | h
      · simp [h]
      · rw [List.count_eq_zero_of_not_mem h]; simp
    · rename_i h
      simp only [not_or, not_not] at h
      by_cases hc : c = 10
      · subst hc
        simp only [if_true, List.count_cons_self, ih]
        omega
      · simp only [hc, if_false, List.count_cons_of_ne (fun e => hc e.symm), ih]

theorem first_lines_ends (k : Nat) (bytes : List Nat) :
    first_lines k bytes = [] ∨ (first_lines k bytes).getLast? = some 10 := by
  induction bytes generalizing k with
  | nil => simp [first_lines]
  | cons c cs ih =>
    simp only [first_lines]
    split
    · exact Or.inl rfl
    · rename_i h
      simp only [not_or, not_not] at h
      right
      rcases ih (if c = 10 then k - 1 else k) with e | e
      · rw [e]
        by_cases hc : c = 10
        · simp [hc]
        · exfalso
          simp only [hc, if_false] at e
          have hm : 10 ∈ cs := by
            rcases List.mem_cons.1 h.2 with h1 | h1
            · exact absurd h1.symm hc
            · exact h1
          have := first_lines_count k cs
          rw [e] at this
          simp only [List.count_nil] at this
          have hpos : 0 < cs.count 10 := List.count_pos_iff.2 hm
          omega
      · rw [List.getLast?_cons]
        rw [e]
        rfl

theorem has_more_block_spec (max_lines : Nat) (buf : List Nat) (counted : Nat)
    (h : counted ≤ max_lines) :
    ((has_more_block max_lines buf counted).2 = true ↔ max_lines < counted + buf.count 10) ∧
    ((has_more_block max_lines buf counted).2 = false →
      (has_more_block max_lines buf counted).1 = counted + buf.count 10) := by
  induction buf generalizing counted with
  | nil => simp [has_more_block]; omega
  | cons c cs ih =>
    by_cases hc : c = 10
    · subst hc
      simp only [has_more_block, if_true, List.count_cons_self]
      by_cases hlt : max_lines < counted + 1
      · simp only [hlt, if_true, true_iff]
        exact ⟨by omega, by simp⟩
      · simp only [hlt, if_false]
        obtain ⟨e1, e2⟩ := ih (counted + 1) (by omega)
        refine ⟨?_, ?_⟩
        · rw [e1]; omega
        · intro hf; rw [e2 hf]; omega
    · simp only [has_more_block, hc, if_false, List.count_cons_of_ne (fun e => hc e.symm)]
      exact ih counted h

theorem has_more_loop_spec (g : Globals) (max_lines : Nat) (blocks : List Nat)
    (counted : Nat) (h : counted ≤ max_lines) :
    has_more_loop g max_lines blocks counted
      = decide (max_lines < counted + (block_bytes g blocks).count 10) := by
  induction blocks generalizing counted with
  | nil => simp [has_more_loop, block_bytes]; omega
  | cons b rest ih =>
    simp only [has_more_loop, block_bytes]
    by_cases hb : pread g.img g.block_size (off_mul b g.block_size) = []
    · simp only [hb, if_true, List.count_nil]
      simp; omega
    · simp only [hb, if_false]
      obtain ⟨e1, e2⟩ := has_more_block_spec max_lines
        (pread g.img g.block_size (off_mul b g.block_size)) counted h
      by_cases hm : (has_more_block max_lines
          (pread g.img g.block_size (off_mul b g.block_size)) counted).2 = true
      · simp only [hm, if_true]
        have := e1.1 hm
        simp only [List.count_append]
        symm
        simp only [decide_eq_true_eq]
        omega
      · simp only [hm, if_false]
        have hfalse : (has_more_block max_lines
          (pread g.img g.block_size (off_mul b g.block_size)) counted).2 = false := by
          simpa using hm
        have hle : ¬ max_lines < counted + (pread g.img g.block_size
            (off_mul b g.block_size)).count 10 := fun hh => hm (e1.2 hh)
        rw [ih _ (by rw [e2 hfalse]; omega), e2 hfalse]
        simp [List.count_append, Nat.add_assoc]

/-- What `command_print` writes, in terms of the bytes of the data blocks:
with no cap all their newline-terminated lines, with a cap of `n` lines the
first `n` of them, and one more newline when there are more than `n`. -/
theorem command_print_eq (g : Globals) (root tgt : Node) (path : List Nat)
    (ino : ext2_inode) (blocks : List Nat) (n : Nat)
    (hf : find_node root root path = some tgt)
    (hi : read_inode g tgt.inode_no = .ok ino)
    (hc : collect_data_blocks g.img ino g.block_size = .ok blocks) :
    command_print g root path (n : Int) = .ok
      (first_lines (if n = 0 then (block_bytes g blocks).count 10 else n) (block_bytes g blocks)
        ++ (if 0 < n ∧ n < (block_bytes g blocks).count 10 then [10] else [])) := by
  unfold command_print
  simp only [hf, hi, hc]
  have hneg : ¬ ((n : Int) < 0) := by omega
  simp only [hneg, if_false, Int.toNat_ofNat, print_blocks_eq_feed]
  have hk : (n = 0 ∧ (block_bytes g blocks).count 10
        ≤ (if n = 0 then (block_bytes g blocks).count 10 else n)) ∨
      (n ≠ 0 ∧ (0 : Nat) ≤ n ∧ (if n = 0 then (block_bytes g blocks).count 10 else n) = n - 0) := by
    by_cases h0 : n = 0
    · left; simp [h0]
    · right; simp [h0]
  obtain ⟨e1, e2⟩ := feed_result n (block_bytes g blocks) ⟨[], 0, []⟩ _ hk
  simp only [List.nil_append, Nat.zero_add] at e1 e2
  simp only [e1, e2, has_more_loop_spec g n blocks 0 (Nat.zero_le _)]
  generalize block_bytes g blocks = B
  have hA : (if 10 ∈ B ∧ 0 < (if n = 0 then B.count 10 else n)
      then first_lines (if n = 0 then B.count 10 else n) B else [])
      = first_lines (if n = 0 then B.count 10 else n) B := by
    by_cases hm : 10 ∈ B ∧ 0 < (if n = 0 then B.count 10 else n)
    · rw [if_pos hm]
    · rw [if_neg hm, first_lines_eq_nil]
      by_cases h10 : 10 ∈ B
      · have : ¬ 0 < (if n = 0 then B.count 10 else n) := fun h => hm ⟨h10, h⟩
        exact Or.inl (by omega)
      · exact Or.inr h10
  have hX : (0 < n ∧ min (if n = 0 then B.count 10 else n) (B.count 10) = n ∧
      (decide (0 < n) && decide (n < 0 + B.count 10)) = true) ↔ (0 < n ∧ n < B.count 10) := by
    by_cases h0 : n = 0
    · simp [h0]
    · simp only [h0, if_false, Nat.zero_add, Bool.and_eq_true, decide_eq_true_eq]
      constructor
      · rintro ⟨h1, _, _, h4⟩; exact ⟨h1, h4⟩
      · rintro ⟨h1, h2⟩; exact ⟨h1, by omega, h1, h2⟩
  rw [hA]
  simp only [hX]

theorem first_lines_append_slack (k : Nat) (content slack : List Nat) (hs : 10 ∉ slack) :
    first_lines k (content ++ slack) = first_lines k content := by
  induction content generalizing k with
  | nil => simp only [List.nil_append]; rw [first_lines_eq_nil k slack (Or.inr hs)]; simp [first_lines]
  | cons c cs ih =>
    have hm : (10 ∈ c :: (cs ++ slack)) ↔ 10 ∈ c :: cs := by
      simp only [List.mem_cons, List.mem_append]
      constructor
      · rintro (h | h | h)
        · exact Or.inl h
        · exact Or.inr h
        · exact absurd h hs
      · rintro (h | h)
        · exact Or.inl h
        · exact Or.inr (Or.inl h)
    rw [List.cons_append]
    simp only [first_lines, hm, ih]

theorem first_lines_all (bytes : List Nat) :
    ∃ rest, bytes = first_lines (bytes.count 10) bytes ++ rest ∧ 10 ∉ rest := by
  induction bytes with
  | nil => exact ⟨[], by simp [first_lines], by simp⟩
  | cons c cs ih =>
    obtain ⟨rest, h1, h2⟩ := ih
    by_cases hm : 10 ∈ c :: cs
    · have hk : (c :: cs).count 10 ≠ 0 := by
        have := List.count_pos_iff.2 hm
        omega
      have hq : (if c = 10 then (c :: cs).count 10 - 1 else (c :: cs).count 10) = cs.count 10 := by
        by_cases hc : c = 10
        · subst hc; simp
        · simp [hc, List.count_cons_of_ne (fun e => hc e.symm)]
      refine ⟨rest, ?_, h2⟩
      simp only [first_lines, hk, hm, not_true_eq_false, or_self, if_false, hq, List.cons_append]
      rw [← h1]
    · refine ⟨c :: cs, ?_, hm⟩
      rw [first_lines_eq_nil _ _ (Or.inr hm)]
      rfl

theorem run_print_capped (g : Globals) (root tgt : Node) (path msg num : List Nat) (n : Nat)
    (hp : strcmp path (ascii "-n") ≠ 0) (hn : atoi num = (n : Int)) (hpos : 0 < n)
    (hv : validate_path path = .ok (true, msg))
    (hf : find_node root root path = some tgt) (ht : tgt.file_type = 1) :
    run_print g root [path, ascii "-n", num] =
      match command_print g root path n with
      | .error e => .error e
      | .ok out => .ok ⟨out, []⟩ := by
  have h1 : ¬ ((n : Int) < 0) := by omega
  have h2 : ¬ ((n : Int) = 0) := by omega
  simp [run_print, parse_print_tokens, hp, hv, hf, ht, hn, h1, h2, strcmp_self]

theorem run_print_zero (g : Globals) (root : Node) (path num : List Nat)
    (hp : strcmp path (ascii "-n") ≠ 0) (hn : atoi num = 0) :
    run_print g root [path, ascii "-n", num] = .ok ⟨[], []⟩ := by
  simp [run_print, parse_print_tokens, hp, hn, strcmp_self]

theorem pread_split (img : Image) (a b off : Nat) (h : off + a + b ≤ img.size)
    (hoff : off + a < 2 ^ 63) :
    pread img (a + b) off = pread img a off ++ pread img b (off + a) := by
  have h1 : ¬ 2 ^ 63 ≤ off := by omega
  have h2 : ¬ 2 ^ 63 ≤ off + a := by omega
  unfold pread
  rw [if_neg h1, if_neg h1, if_neg h2]
  have m1 : min (a + b) (img.size - off) = a + b := by omega
  have m2 : min a (img.size - off) = a := by omega
  have m3 : min b (img.size - (off + a)) = b := by omega
  rw [m1, m2, m3, List.range_add, List.map_append, List.map_map]
  congr 1
  apply List.map_congr_left
  intro i _
  simp [Nat.add_assoc]

theorem pread_zero (img : Image) (n off : Nat) (h : off + n ≤ img.size) (hoff : off < 2 ^ 63)
    (hz : ∀ j, off ≤ j → img.byte j = 0) : pread img n off = List.replicate n 0 := by
  have h1 : ¬ 2 ^ 63 ≤ off := by omega
  unfold pread
  rw [if_neg h1, List.eq_replicate_iff]
  have m1 : min n (img.size - off) = n := by omega
  refine ⟨by simp [m1], ?_⟩
  intro x hx
  simp only [List.mem_map, List.mem_range] at hx
  obtain ⟨i, _, rfl⟩ := hx
  rw [hz _ (by omega)]

theorem put_above (off : Nat) (bs : List Nat) (base : Nat → Nat) (bound j : Nat)
    (hlen : off + bs.length ≤ bound) (hj : bound ≤ j) : put off bs base j = base j := by
  have : ¬ (off ≤ j ∧ j < off + bs.length) := by omega
  simp [put, this]

theorem fixture_bytes_zero (j : Nat) (hj : 23564 ≤ j) : fixture_bytes j = 0 := by
  unfold fixture_bytes
  repeat (rw [put_above _ _ _ 23564 j ?_ hj]; on_goal 2 => decide)
  rw [put_above _ _ _ 23564 j (by decide) hj]

theorem block_bytes_single (g : Globals) (b : Nat) (buf : List Nat)
    (h : pread g.img g.block_size (off_mul b g.block_size) = buf) (hne : buf ≠ []) :
    block_bytes g [b] = buf := by
  simp [block_bytes, h, hne]

/-- A block of 1024 bytes that starts with `content` and is zero from byte
23564 on. -/
theorem pread_block_23 (img : Image) (content : List Nat) (hsize : img.size = 1048576)
    (hc : pread img 12 23552 = content) (hz : ∀ j, 23564 ≤ j → img.byte j = 0) :
    pread img 1024 23552 = content ++ List.replicate 1012 0 := by
  have e : (1024 : Nat) = 12 + 1012 := rfl
  rw [e, pread_split img 12 1012 23552 (by rw [hsize]; decide) (by decide),
    pread_zero img 1012 (23552 + 12) (by rw [hsize]; decide) (by decide)
      (fun j hj => hz j hj), hc]

/-- The data block of `a.txt` in the fixture: the twelve bytes of the file and
zeros after them. -/
theorem fixture_block_bytes :
    block_bytes fixture_globals [23] = ascii "hello\nworld\n" ++ List.replicate 1012 0 :=
  block_bytes_single fixture_globals 23 _
    (pread_block_23 fixture _ rfl (by decide) fixture_bytes_zero)
    (List.append_ne_nil_of_left_ne_nil (by decide) _)

theorem count_append_slack (content slack : List Nat) (hs : 10 ∉ slack) :
    (content ++ slack).count 10 = content.count 10 := by
  rw [List.count_append, List.count_eq_zero_of_not_mem hs, Nat.add_zero]

/-- `print PATH -n N` with `N > 0` on a file whose blocks hold `content` and
then bytes without a newline. -/
theorem run_print_capped_eval (g : Globals) (root tgt : Node) (path msg num : List Nat)
    (n : Nat) (ino : ext2_inode) (blocks content slack : List Nat)
    (hp : strcmp path (ascii "-n") ≠ 0) (hn : atoi num = (n : Int)) (hpos : 0 < n)
    (hv : validate_path path = .ok (true, msg))
    (hf : find_node root root path = some tgt) (ht : tgt.file_type = 1)
    (hi : read_inode g tgt.inode_no = .ok ino)
    (hc : collect_data_blocks g.img ino g.block_size = .ok blocks)
    (hB : block_bytes g blocks = content ++ slack) (hs : 10 ∉ slack) :
    run_print g root [path, ascii "-n", num] = .ok
      ⟨first_lines n content ++ (if n < content.count 10 then [10] else []), []⟩ := by
  rw [run_print_capped g root tgt path msg num n hp hn hpos hv hf ht]
  have h := command_print_eq g root tgt path ino blocks n hf hi hc
  have hn0 : n ≠ 0 := by omega
  rw [h, hB, count_append_slack _ _ hs, first_lines_append_slack _ _ _ hs]
  simp [hn0, hpos]

theorem zeros_no_newline (n : Nat) : 10 ∉ List.replicate n 0 := by
  intro h
  have := List.eq_of_mem_replicate h
  omega

theorem fixture_stale_bytes_zero (j : Nat) (hj : 23564 ≤ j) : fixture_stale.byte j = 0 := by
  unfold fixture_stale
  simp only
  rw [put_above _ _ _ 23564 j (by decide) hj]
  exact fixture_bytes_zero j hj

theorem fixture_stale_block_bytes :
    block_bytes fixture_stale_globals [23]
      = ascii "hello\nworld\n" ++ List.replicate 1012 0 :=
  block_bytes_single fixture_stale_globals 23 _
    (pread_block_23 fixture_stale _ rfl (by decide) fixture_stale_bytes_zero)
    (List.append_ne_nil_of_left_ne_nil (by decide) _)

/-- The node of `a.txt` in the fixture tree. -/
theorem fixture_find_a_txt :
    find_node fixture_tree fixture_tree (ascii "/a.txt") = some (.mk (ascii "a.txt") 13 1 []) := by
  rfl

/-- C4 as amended. For every `N ≥ 0` (the value `atoi` gives for the argument
of `-n`) and every regular file, with `M` the number of newline bytes in the
file's data blocks (whole blocks as read, bytes behind `i_size` included),
`print PATH -n N` writes the first `min(N, M)` newline-terminated lines of
those bytes, followed by one extra newline exactly when `0 < N < M`; `N = 0`
gives no output at all. -/
theorem print_n_writes_first_lines (g : Globals) (root tgt : Node)
    (path msg num : List Nat) (n : Nat) (ino : ext2_inode) (blocks : List Nat)
    (hp : strcmp path (ascii "-n") ≠ 0) (hn : atoi num = (n : Int))
    (hv : validate_path path = .ok (true, msg))
    (hf : find_node root root path = some tgt) (ht : tgt.file_type = 1)
    (hi : read_inode g tgt.inode_no = .ok ino)
    (hc : collect_data_blocks g.img ino g.block_size = .ok blocks) :
    ∃ lines, run_print g root [path, ascii "-n", num] = .ok
        ⟨lines ++ (if 0 < n ∧ n < (block_bytes g blocks).count 10 then [10] else []), []⟩ ∧
      lines = first_lines n (block_bytes g blocks) ∧
      lines <+: block_bytes g blocks ∧
      lines.count 10 = min n ((block_bytes g blocks).count 10) ∧
      (lines = [] ∨ lines.getLast? = some 10) ∧
      (n = 0 → run_print g root [path, ascii "-n", num] = .ok ⟨[], []⟩) := by
  refine ⟨first_lines n (block_bytes g blocks), ?_, rfl, first_lines_prefix _ _,
    first_lines_count _ _, first_lines_ends _ _, ?_⟩
  · by_cases h0 : n = 0
    · subst h0
      rw [run_print_zero g root path num hp (by simpa using hn),
        first_lines_eq_nil 0 _ (Or.inl rfl)]
      simp
    · rw [run_print_capped g root tgt path msg num n hp hn (by omega) hv hf ht]
      have h := command_print_eq g root tgt path ino blocks n hf hi hc
      rw [h]
      simp [h0]
  · intro h0
    subst h0
    exact run_print_zero g root path num hp (by simpa using hn)

/-- C4 on the fixture: `print /a.txt -n 1` writes `hello\n\n`. -/
theorem print_n_writes_first_lines_witness :
    run_print fixture_globals fixture_tree [ascii "/a.txt", ascii "-n", ascii "1"]
      = .ok ⟨ascii "hello\n\n", []⟩ := by
  obtain ⟨lines, h1, h2, _⟩ :=
    print_n_writes_first_lines fixture_globals fixture_tree (.mk (ascii "a.txt") 13 1 [])
      (ascii "/a.txt") [] (ascii "1") 1
      ⟨0x81A4, 12, [23, 0, 0, 0, 0, 0, 0, 0, 0, 0, 0, 0, 0, 0, 0]⟩ [23]
      (by decide) (by decide) (by decide) fixture_find_a_txt rfl (by decide) (by decide)
  have hcount : (block_bytes fixture_globals [23]).count 10 = 2 := by
    rw [fixture_block_bytes, count_append_slack _ _ (zeros_no_newline _)]
    decide
  rw [h1, h2, hcount, fixture_block_bytes, first_lines_append_slack _ _ _ (zeros_no_newline _)]
  decide

/-- C4 as stated fails on the fixture with the size of `a.txt` set to 6. The
content, the block cut to `i_size`, is `hello\n`, one line; with `N = 1` the
claim gives one newline and no extra one, and `print /a.txt -n 1` writes
`hello\n\n`: the look-ahead counts the newline behind `i_size`. -/
theorem print_n_counts_behind_size :
    build_tree fixture_stale_globals 8 root_node = .ok fixture_tree ∧
    read_inode fixture_stale_globals 13
      = .ok ⟨0x81A4, 6, [23, 0, 0, 0, 0, 0, 0, 0, 0, 0, 0, 0, 0, 0, 0]⟩ ∧
    (block_bytes fixture_stale_globals [23]).take 6 = ascii "hello\n" ∧
    run_print fixture_stale_globals fixture_tree [ascii "/a.txt", ascii "-n", ascii "1"]
      = .ok ⟨ascii "hello\n\n", []⟩ ∧
    ¬ ∃ lines, run_print fixture_stale_globals fixture_tree
          [ascii "/a.txt", ascii "-n", ascii "1"]
        = .ok ⟨lines ++ (if 0 < 1 ∧
            1 < ((block_bytes fixture_stale_globals [23]).take 6).count 10
            then [10] else []), []⟩ ∧
        lines.count 10 = min 1 (((block_bytes fixture_stale_globals [23]).take 6).count 10) := by
  have hrun : run_print fixture_stale_globals fixture_tree
      [ascii "/a.txt", ascii "-n", ascii "1"] = .ok ⟨ascii "hello\n\n", []⟩ := by
    rw [run_print_capped_eval fixture_stale_globals fixture_tree (.mk (ascii "a.txt") 13 1 [])
      (ascii "/a.txt") [] (ascii "1") 1
      ⟨0x81A4, 6, [23, 0, 0, 0, 0, 0, 0, 0, 0, 0, 0, 0, 0, 0, 0]⟩ [23]
      (ascii "hello\nworld\n") (List.replicate 1012 0)
      (by decide) (by decide) (by decide) (by decide) fixture_find_a_txt rfl (by decide)
      (by decide) fixture_stale_block_bytes (zeros_no_newline _)]
    decide
  have htake : (block_bytes fixture_stale_globals [23]).take 6 = ascii "hello\n" := by
    rw [fixture_stale_block_bytes, List.take_append_of_le_length (by decide)]
    decide
  refine ⟨by rfl, by decide, htake, hrun, ?_⟩
  rintro ⟨lines, h1, h2⟩
  rw [hrun, htake] at h1
  rw [htake] at h2
  have hc : (ascii "hello\n").count 10 = 1 := by decide
  rw [hc] at h1 h2
  simp only [Nat.lt_irrefl, and_false, if_false, List.append_nil, Except.ok.injEq,
    Output.mk.injEq, and_true] at h1
  rw [← h1] at h2
  revert h2
  decide

/-! ### The shape of the tree and the counts of `tree` -/

theorem mem_descendantsList (l : List Node) (n : Node) :
    n ∈ Node.descendantsList l ↔ ∃ c ∈ l, n = c ∨ n ∈ c.descendants := by
  induction l with
  | nil => simp [Node.descendantsList]
  | cons c cs ih =>
    simp only [Node.descendantsList, List.mem_cons, List.mem_append, ih]
    constructor
    · rintro (h | h | ⟨d, hd, h⟩)
      · exact ⟨c, Or.inl rfl, Or.inl h⟩
      · exact ⟨c, Or.inl rfl, Or.inr h⟩
      · exact ⟨d, Or.inr hd, h⟩
    · rintro ⟨d, hd | hd, h⟩
      · subst hd
        rcases h with h | h
        · exact Or.inl h
        · exact Or.inr (Or.inl h)
      · exact Or.inr (Or.inr ⟨d, hd, h⟩)

theorem descendants_eq (n : Node) : n.descendants = Node.descendantsList n.children := by
  cases n with
  | mk a b c cs => simp [Node.descendants, Node.children]

theorem mem_descendants_insert (parent child n : Node) :
    n ∈ (insert_child_sorted parent child).descendants ↔
      n = child ∨ n ∈ child.descendants ∨ n ∈ parent.descendants := by
  rw [descendants_eq, descendants_eq parent, insert_child_sorted_children,
    mem_descendantsList, mem_descendantsList]
  constructor
  · rintro ⟨c, hc, h⟩
    rcases (mem_insert_child_sorted_chain _ _ _).1 hc with rfl | hc
    · rcases h with h | h
      · exact Or.inl h
      · exact Or.inr (Or.inl h)
    · exact Or.inr (Or.inr ⟨c, hc, h⟩)
  · rintro (h | h | ⟨c, hc, h⟩)
    · exact ⟨child, (mem_insert_child_sorted_chain _ _ _).2 (Or.inl rfl), Or.inl h⟩
    · exact ⟨child, (mem_insert_child_sorted_chain _ _ _).2 (Or.inl rfl), Or.inr h⟩
    · exact ⟨c, (mem_insert_child_sorted_chain _ _ _).2 (Or.inr hc), h⟩

theorem create_node_descendants (name : List Nat) (ino type : Nat) :
    (create_node name ino type).descendants = [] := by
  simp [create_node, Node.descendants, Node.descendantsList]

/-- Whatever `build_tree` returns for a tidy directory is tidy. -/
theorem build_tree_tidy (g : Globals) (fuel : Nat) (parent t : Node)
    (hd : parent.file_type = 2) (hp : parent.Tidy)
    (h : build_tree g fuel parent = .ok t) : t.file_type = 2 ∧ t.Tidy := by
  refine build_tree_preserves (fun n => n.file_type = 2 ∧ n.Tidy)
    (fun n => n.Tidy ∧ (n.file_type ≠ 2 → n.children = [])) g ?_ ?_ ?_ ?_ fuel parent t
    ⟨hd, hp⟩ h
  · intro name ino _
    refine ⟨rfl, ?_⟩
    intro n hn
    rw [create_node_descendants] at hn
    simp at hn
  · intro name ino type _ _
    refine ⟨?_, fun _ => rfl⟩
    intro n hn
    rw [create_node_descendants] at hn
    simp at hn
  · intro n hn
    exact ⟨hn.2, fun h => absurd hn.1 h⟩
  · intro p c hp hc hskip
    refine ⟨hp.1, ?_⟩
    intro n hn
    rcases (mem_descendants_insert p c n).1 hn with rfl | hn | hn
    · exact ⟨by simpa using hskip, hc.2⟩
    · exact hc.1 n hn
    · exact hp.2 n hn

theorem root_node_tidy : root_node.Tidy := by
  intro n hn
  simp [root_node, create_node_descendants] at hn

mutual
/-- `count_tree` adds the directories and the other nodes below a tidy node
to its two counters. -/
theorem count_tree_spec : (n : Node) → (acc : Nat × Nat) → n.Tidy →
    count_tree n acc = (acc.1 + count_dirs n.descendants, acc.2 + count_files n.descendants)
  | .mk _ _ _ cs, acc, h => by
    simp only [count_tree, Node.descendants]
    exact count_tree_chain_spec cs acc (by
      intro x hx
      exact h x (by simpa [Node.descendants] using hx))
/-- The loop of `count_tree` adds the directories and the other nodes of a
tidy chain and below it. -/
theorem count_tree_chain_spec : (l : List Node) → (acc : Nat × Nat) →
    (∀ n ∈ Node.descendantsList l,
      is_skipped_name n.name = false ∧ (n.file_type ≠ 2 → n.children = [])) →
    count_tree_chain l acc = (acc.1 + count_dirs (Node.descendantsList l),
      acc.2 + count_files (Node.descendantsList l))
  | [], acc, _ => by simp [count_tree_chain, Node.descendantsList, count_dirs, count_files]
  | c :: cs, acc, h => by
    have hc := h c (by simp [Node.descendantsList])
    have hcs : ∀ n ∈ Node.descendantsList cs,
        is_skipped_name n.name = false ∧ (n.file_type ≠ 2 → n.children = []) := by
      intro n hn
      exact h n (by simp [Node.descendantsList, hn])
    have hct : c.Tidy := by
      intro n hn
      exact h n (by simp [Node.descendantsList, hn])
    simp only [count_tree_chain, hc.1, Bool.false_eq_true, if_false]
    by_cases hd : c.file_type = 2
    · simp only [hd, if_true]
      rw [count_tree_spec c _ hct, count_tree_chain_spec cs _ hcs]
      simp only [Node.descendantsList, count_dirs, count_files, List.countP_cons,
        List.countP_append, hd, decide_True, if_true, ne_eq, not_true_eq_false, decide_False,
        Bool.false_eq_true, if_false]
      refine Prod.ext ?_ ?_ <;> simp only <;> omega
    · simp only [hd, if_false]
      rw [count_tree_chain_spec cs _ hcs]
      have hnil : c.descendants = [] := by
        rw [descendants_eq, hc.2 hd]; rfl
      simp only [Node.descendantsList, count_dirs, count_files, List.countP_cons,
        List.countP_append, hnil, List.countP_nil, hd, decide_False, Bool.false_eq_true,
        if_false, ne_eq, not_false_eq_true, decide_True, if_true]
      refine Prod.ext ?_ ?_ <;> simp only <;> omega
end

theorem summary_loop_children (l : List Node) (acc : Nat × Nat)
    (h : ∀ c ∈ l, is_skipped_name c.name = false) :
    summary_loop false l acc = (acc.1 + count_dirs l, acc.2 + count_files l) := by
  induction l generalizing acc with
  | nil => simp [summary_loop, count_dirs, count_files]
  | cons c cs ih =>
    have hc := h c (List.mem_cons_self _ _)
    have hcs : ∀ x ∈ cs, is_skipped_name x.name = false :=
      fun x hx => h x (List.mem_cons_of_mem _ hx)
    simp only [summary_loop, hc, Bool.false_eq_true, if_false]
    by_cases hd : c.file_type = 2
    · simp only [hd, if_true, ih _ hcs, count_dirs, count_files, List.countP_cons,
        decide_True, ne_eq, not_true_eq_false, decide_False, Bool.false_eq_true, if_false]
      refine Prod.ext ?_ ?_ <;> simp only <;> omega
    · simp only [hd, if_false, ih _ hcs, count_dirs, count_files, List.countP_cons,
        decide_False, Bool.false_eq_true, ne_eq, not_false_eq_true, decide_True, if_true]
      refine Prod.ext ?_ ?_ <;> simp only <;> omega

theorem summary_loop_recursive (l : List Node) (acc : Nat × Nat) :
    summary_loop true l acc = count_tree_chain l acc := by
  induction l generalizing acc with
  | nil => simp [summary_loop, count_tree_chain]
  | cons c cs ih =>
    simp only [summary_loop, count_tree_chain, if_true]
    split
    · exact ih _
    · split
      · exact ih _
      · exact ih _

theorem tidy_children (t : Node) (h : t.Tidy) :
    ∀ c ∈ t.children, is_skipped_name c.name = false := by
  intro c hc
  exact (h c (by rw [descendants_eq, mem_descendantsList]; exact ⟨c, hc, Or.inl rfl⟩)).1

/-- The two counts of the summary for a tidy target: one more than the
directories among the nodes listed, and the nodes listed that are not
directories; the nodes listed are the children, with `-r` everything below. -/
theorem summary_counts_spec (tgt : Node) (recursive : Bool) (h : tgt.Tidy) :
    summary_counts tgt recursive
      = (1 + count_dirs (if recursive then tgt.descendants else tgt.children),
         count_files (if recursive then tgt.descendants else tgt.children)) := by
  unfold summary_counts
  cases recursive with
  | false =>
    simp only [summary_loop_children _ _ (tidy_children tgt h), Bool.false_eq_true, if_false]
    refine Prod.ext ?_ ?_ <;> simp only <;> omega
  | true =>
    rw [summary_loop_recursive, count_tree_chain_spec _ _ (by
      intro n hn
      exact h n (by rw [descendants_eq]; exact hn))]
    simp only [if_true, descendants_eq tgt]
    refine Prod.ext ?_ ?_ <;> simp only <;> omega

mutual
theorem descendants_trans : (n c x : Node) → c ∈ n.descendants → x ∈ c.descendants →
    x ∈ n.descendants
  | .mk _ _ _ cs, c, x, hc, hx => by
    simp only [Node.descendants] at hc ⊢
    exact descendantsList_trans cs c x hc hx
theorem descendantsList_trans : (l : List Node) → (c x : Node) →
    c ∈ Node.descendantsList l → x ∈ c.descendants → x ∈ Node.descendantsList l
  | [], c, _, hc, _ => by simp [Node.descendantsList] at hc
  | d :: ds, c, x, hc, hx => by
    simp only [Node.descendantsList, List.mem_cons, List.mem_append] at hc ⊢
    rcases hc with hc | hc | hc
    · subst hc; exact Or.inr (Or.inl hx)
    · exact Or.inr (Or.inl (descendants_trans d c x hc hx))
    · exact Or.inr (Or.inr (descendantsList_trans ds c x hc hx))
end

theorem tidy_of_mem (t n : Node) (h : t.Tidy) (hn : n ∈ t.descendants) : n.Tidy :=
  fun x hx => h x (descendants_trans t n x hn hx)

theorem find_child_mem (l : List Node) (tok : List Nat) (c : Node)
    (h : find_child l tok = some c) : c ∈ l ∧ c.name = tok := by
  induction l with
  | nil => simp [find_child] at h
  | cons d ds ih =>
    simp only [find_child] at h
    split at h
    · rename_i hd
      cases h
      exact ⟨List.mem_cons_self _ _, (strcmp_eq_zero_iff _ _).1 hd⟩
    · exact ⟨List.mem_cons_of_mem _ (ih h).1, (ih h).2⟩

theorem find_node_loop_mem (toks : List (List Nat)) (cur n : Node)
    (h : find_node_loop toks (some cur) = some n) : n = cur ∨ n ∈ cur.descendants := by
  induction toks generalizing cur with
  | nil => simp only [find_node_loop, Option.some.injEq] at h; exact Or.inl h.symm
  | cons tok toks ih =>
    simp only [find_node_loop] at h
    cases hc : find_child cur.children tok with
    | none =>
      rw [hc] at h
      cases toks <;> simp [find_node_loop] at h
    | some c =>
      rw [hc] at h
      have hmem : c ∈ cur.descendants := by
        rw [descendants_eq, mem_descendantsList]
        exact ⟨c, (find_child_mem _ _ _ hc).1, Or.inl rfl⟩
      rcases ih c h with h1 | h1
      · right; rw [h1]; exact hmem
      · right; exact descendants_trans cur c n hmem h1

/-- A node that `find_node` returns is the root or lies below it. -/
theorem find_node_mem (root n : Node) (path : List Nat)
    (h : find_node root root path = some n) : n = root ∨ n ∈ root.descendants := by
  unfold find_node at h
  split at h
  · simp only [Option.some.injEq] at h; exact Or.inl h.symm
  · simp only [ite_self] at h
    exact find_node_loop_mem _ _ _ h

/-- Every node that `find_node` returns from a tree `build_tree` built is
tidy. -/
theorem found_node_tidy (g : Globals) (fuel : Nat) (root tgt : Node) (path : List Nat)
    (hb : build_tree g fuel root_node = .ok root)
    (hf : find_node root root path = some tgt) : tgt.Tidy := by
  have hr := (build_tree_tidy g fuel root_node root rfl root_node_tidy hb).2
  rcases find_node_mem root tgt path hf with h | h
  · rw [h]; exact hr
  · exact tidy_of_mem root tgt hr h

theorem fixture_link_tree_built :
    build_tree fixture_link_globals 8 root_node = .ok fixture_link_tree := by rfl

/-- C5. For every directory node `T` of the tree `build_tree` built, the output
of `tree T` ends with the summary line for these counts: without `-r`, `D` is
one more than the number of children of `T` that are directories and `F` the
number of children that are not (the files of the listing); with `-r`, `D` is
one more than the number of directories anywhere below `T` and `F` the number
of nodes anywhere below `T` that are not directories. -/
theorem tree_summary_counts (g : Globals) (fuel : Nat) (root tgt : Node) (path : List Nat)
    (ino : ext2_inode) (r s p : Bool) (listing : List Nat)
    (hb : build_tree g fuel root_node = .ok root)
    (hf : find_node root root path = some tgt) (hd : tgt.file_type = 2)
    (hi : read_inode g tgt.inode_no = .ok ino)
    (hl : print_tree g r s p tgt [] = .ok listing) :
    ∃ head, command_tree g root path r s p = .ok
      ⟨head ++ summary_text (1 + count_dirs (if r then tgt.descendants else tgt.children))
          (count_files (if r then tgt.descendants else tgt.children)), []⟩ := by
  have ht := found_node_tidy g fuel root tgt path hb hf
  unfold command_tree
  simp only [hf, hd, ne_eq, not_true_eq_false, if_false, hi, hl,
    summary_counts_spec tgt r ht]
  exact ⟨_, rfl⟩

/-- C5 on the fixture: `tree / -r` ends with `2 directories, 1 files`. -/
theorem tree_summary_counts_witness :
    ∃ head, command_tree fixture_globals fixture_tree (ascii "/") true false false = .ok
      ⟨head ++ ascii "\n2 directories, 1 files\n\n", []⟩ :=
  tree_summary_counts fixture_globals 8 fixture_tree fixture_tree (ascii "/")
    ⟨0x41ED, 1024, [21, 0, 0, 0, 0, 0, 0, 0, 0, 0, 0, 0, 0, 0, 0]⟩ true false false
    (glyph_mid ++ ascii " d\n" ++ glyph_last ++ ascii " a.txt\n")
    fixture_tree_built rfl rfl (by decide) (by decide)

/-- C6 as amended. On the fixture, whose root holds the directory `d` and the
regular file `a.txt`, `tree /` prints the header `.`, the line of `d` with
the glyph `├`, the line of `a.txt` with the glyph `└`, a blank line and the
summary `2 directories, 1 files`: the directory `d` and the target itself. -/
theorem tree_root_of_fixture :
    build_tree fixture_globals 8 root_node = .ok fixture_tree ∧
    run_tree fixture_globals fixture_tree [ascii "/"]
      = .ok ⟨ascii ".\n" ++ glyph_mid ++ ascii " d\n" ++ glyph_last ++ ascii " a.txt\n"
          ++ ascii "\n2 directories, 1 files\n\n", []⟩ :=
  ⟨fixture_tree_built, by decide⟩

/-- C6 as stated fails: the text `1 directories, 1 files` is nowhere in what
`tree /` prints on the fixture. -/
theorem tree_root_summary_is_not_one_directory :
    ∃ out, run_tree fixture_globals fixture_tree [ascii "/"] = .ok ⟨out, []⟩ ∧
      ¬ (ascii "1 directories, 1 files" <:+: out) :=
  ⟨_, (by decide : run_tree fixture_globals fixture_tree [ascii "/"]
      = .ok ⟨ascii ".\n" ++ glyph_mid ++ ascii " d\n" ++ glyph_last ++ ascii " a.txt\n"
          ++ ascii "\n2 directories, 1 files\n\n", []⟩), by decide⟩

/-- C7 as amended. The file count `F` of the summary is the number of listed
nodes that are not directories: the regular files and, one each, the listed
nodes of any other type that is not directory (symbolic link, device, fifo,
socket, unknown). -/
theorem file_count_counts_non_directories (g : Globals) (fuel : Nat) (root tgt : Node)
    (path : List Nat) (r : Bool)
    (hb : build_tree g fuel root_node = .ok root)
    (hf : find_node root root path = some tgt) :
    (summary_counts tgt r).2
      = count_regular (if r then tgt.descendants else tgt.children)
        + (if r then tgt.descendants else tgt.children).countP
            (fun n => decide (n.file_type ≠ 1 ∧ n.file_type ≠ 2)) := by
  rw [summary_counts_spec tgt r (found_node_tidy g fuel root tgt path hb hf)]
  simp only [count_files, count_regular]
  generalize (if r then tgt.descendants else tgt.children) = l
  induction l with
  | nil => simp
  | cons c cs ih =>
    simp only [List.countP_cons, ih]
    by_cases h1 : c.file_type = 1
    · simp [h1]; omega
    · by_cases h2 : c.file_type = 2
      · simp [h2]
      · simp [h1, h2]; omega

/-- C7 on the fixture with a symbolic link: the root lists one regular file
and one symbolic link, and `F` is 2. -/
theorem file_count_counts_non_directories_witness :
    (summary_counts fixture_link_tree false).2 = 1 + 1 :=
  file_count_counts_non_directories fixture_link_globals 8 fixture_link_tree
    fixture_link_tree (ascii "/") false fixture_link_tree_built rfl

/-- C7 as stated fails on the fixture with a symbolic link: the tree is built
with the link as a child of type 7, `tree /` reports `2 files`, and one listed
node is a regular file. -/
theorem file_count_includes_symlink :
    build_tree fixture_link_globals 8 root_node = .ok fixture_link_tree ∧
    run_tree fixture_link_globals fixture_link_tree [ascii "/"]
      = .ok ⟨ascii ".\n" ++ glyph_mid ++ ascii " d\n" ++ glyph_mid ++ ascii " a.txt\n"
          ++ glyph_last ++ ascii " link\n" ++ ascii "\n2 directories, 2 files\n\n", []⟩ ∧
    count_regular fixture_link_tree.children = 1 ∧
    (summary_counts fixture_link_tree false).2 ≠ count_regular fixture_link_tree.children :=
  ⟨fixture_link_tree_built, by decide, by decide, by decide⟩

/-- C10. For every image, no node that `build_tree` puts into the tree, at any
depth, is named `.`, `..` or `lost+found`. -/
theorem build_tree_leaves_out_names (g : Globals) (fuel : Nat) (t : Node)
    (h : build_tree g fuel root_node = .ok t) :
    ∀ n ∈ t.descendants,
      n.name ≠ ascii "." ∧ n.name ≠ ascii ".." ∧ n.name ≠ ascii "lost+found" := by
  intro n hn
  have hs := ((build_tree_tidy g fuel root_node t rfl root_node_tidy h).2 n hn).1
  simp only [is_skipped_name, Bool.or_eq_false_iff, decide_eq_false_iff_not,
    strcmp_eq_zero_iff] at hs
  exact ⟨hs.1.1, hs.1.2, hs.2⟩

/-- C10 on the fixture, whose root directory holds the entries `.`, `..` and
`lost+found`: the child `d` of the tree built bears none of these names. -/
theorem build_tree_leaves_out_names_witness :
    (Node.mk (ascii "d") 12 2 []).name ≠ ascii "." ∧
    (Node.mk (ascii "d") 12 2 []).name ≠ ascii ".." ∧
    (Node.mk (ascii "d") 12 2 []).name ≠ ascii "lost+found" :=
  build_tree_leaves_out_names fixture_globals 8 fixture_tree fixture_tree_built
    (.mk (ascii "d") 12 2 []) (List.mem_cons_self _ _)

/-! ### Paths -/

theorem splitOn_step (p : List Nat) :
    p.splitOn 47 = p.takeWhile (· ≠ 47) ::
      (if 47 ∈ p then ((p.dropWhile (· ≠ 47)).drop 1).splitOn 47 else []) := by
  induction p with
  | nil => simp [List.splitOn]
  | cons x xs ih =>
    unfold List.splitOn at ih ⊢
    rw [List.splitOnP_cons]
    by_cases hx : x = 47
    · subst hx
      simp
    · have hb : (x == 47) = false := by simpa using hx
      have hm : (47 ∈ x :: xs) ↔ 47 ∈ xs := by
        simp only [List.mem_cons]
        constructor
        · rintro (h | h)
          · exact absurd h.symm hx
          · exact h
        · exact Or.inr
      simp only [hb, Bool.false_eq_true, if_false, hm]
      rw [ih]
      simp [List.takeWhile_cons, List.dropWhile_cons, hx]

theorem validate_path_loop_spec (fuel : Nat) (p : List Nat) (h : p.length < fuel) :
    ∃ b msg, validate_path_loop fuel (some p) = .ok (b, msg) ∧
      (b = true ↔ ∀ c ∈ path_components p, c.length ≤ EXT2_NAME_LEN) := by
  induction fuel generalizing p with
  | zero => omega
  | succ fuel ih =>
    simp only [validate_path_loop, strsep]
    unfold path_components
    rw [splitOn_step]
    by_cases hlong : EXT2_NAME_LEN < (p.takeWhile (· ≠ 47)).length
    · refine ⟨false, _, if_pos hlong, ?_⟩
      simp only [Bool.false_eq_true, List.mem_cons, forall_eq_or_imp, false_iff, not_and]
      intro h1
      omega
    · simp only [hlong, if_false]
      by_cases hm : 47 ∈ p
      · simp only [hm, if_true]
        have hlen : ((p.dropWhile (· ≠ 47)).drop 1).length < fuel := by
          have h1 : (p.dropWhile (· ≠ 47)).length ≤ p.length :=
            (List.dropWhile_sublist _).length_le
          have h2 : p.dropWhile (· ≠ 47) ≠ [] := by
            intro e
            rw [List.dropWhile_eq_nil_iff] at e
            have := e 47 hm
            simp at this
          have h3 : 0 < (p.dropWhile (· ≠ 47)).length := List.length_pos.2 h2
          simp only [List.length_drop]
          omega
        obtain ⟨b, msg, e1, e2⟩ := ih _ hlen
        refine ⟨b, msg, e1, ?_⟩
        rw [e2]
        unfold path_components
        simp only [List.mem_cons, forall_eq_or_imp]
        constructor
        · intro h1; exact ⟨by omega, h1⟩
        · intro h1; exact h1.2
      · simp only [hm, if_false]
        refine ⟨true, [], by simp [validate_path_loop], ?_⟩
        simp only [List.mem_singleton, forall_eq, true_iff]
        omega

/-- `validate_path` returns a verdict for every path, and the verdict is true
exactly for the paths of at most 4096 bytes all of whose components have at
most 255 bytes. -/
theorem validate_path_spec (p : List Nat) :
    ∃ b msg, validate_path p = .ok (b, msg) ∧
      (b = true ↔ p.length ≤ PATH_MAX_LEN ∧
        ∀ c ∈ path_components p, c.length ≤ EXT2_NAME_LEN) := by
  unfold validate_path
  by_cases hl : PATH_MAX_LEN < p.length
  · refine ⟨false, _, if_pos hl, ?_⟩
    simp only [Bool.false_eq_true, false_iff, not_and]
    intro h1; omega
  · simp only [hl, if_false]
    have ht : p.take PATH_MAX_LEN = p := List.take_of_length_le (by omega)
    rw [ht]
    obtain ⟨b, msg, e1, e2⟩ := validate_path_loop_spec (p.length + 1) p (by omega)
    exact ⟨b, msg, e1, by rw [e2]; constructor
                          · intro h1; exact ⟨by omega, h1⟩
                          · intro h1; exact h1.2⟩

/-- C8. `validate_path(p)` returns true if and only if `p` has at most 4096
bytes and every `/`-separated component of `p`, the empty ones included, has
at most 255 bytes; and when it returns false, the `tree` branch and the
`print` branch of the command loop write the error message and nothing else,
whatever the tree and the image are: no lookup is made, no command is run. -/
theorem validate_path_decides_and_declines :
    (∀ p : List Nat, ∃ b msg, validate_path p = .ok (b, msg) ∧
      (b = true ↔ p.length ≤ 4096 ∧ ∀ c ∈ path_components p, c.length ≤ 255)) ∧
    (∀ (g : Globals) (root : Node) (toks : List (List Nat)) (f : TreeFlags)
        (path : Option (List Nat)) (msg : List Nat),
      parse_tree_tokens toks ⟨false, false, false⟩ none = some (f, path) →
      validate_path (path.getD (ascii ".")) = .ok (false, msg) →
      run_tree g root toks = .ok ⟨[], msg⟩) ∧
    (∀ (g : Globals) (root : Node) (toks : List (List Nat)) (has_n : Bool) (n : Int)
        (path msg : List Nat),
      parse_print_tokens toks false 0 none = .done has_n n (some path) →
      validate_path path = .ok (false, msg) →
      run_print g root toks = .ok ⟨[], msg⟩) := by
  refine ⟨validate_path_spec, ?_, ?_⟩
  · intro g root toks f path msg hparse hv
    simp only [run_tree, hparse, hv]
  · intro g root toks has_n n path msg hparse hv
    simp only [run_print, hparse, hv]

set_option maxRecDepth 8192 in
/-- C8 on a path of one component of 256 bytes: `tree` and `print` write the
message of `validate_path` and nothing else. -/
theorem validate_path_decides_and_declines_witness :
    run_tree fixture_globals fixture_tree [List.replicate 256 97]
      = .ok ⟨[], ascii "Error: component '" ++ List.replicate 256 97
          ++ ascii "' length 256 exceeds maximum 255 bytes\n"⟩ ∧
    run_print fixture_globals fixture_tree [List.replicate 256 97]
      = .ok ⟨[], ascii "Error: component '" ++ List.replicate 256 97
          ++ ascii "' length 256 exceeds maximum 255 bytes\n"⟩ :=
  ⟨validate_path_decides_and_declines.2.1 fixture_globals fixture_tree
      [List.replicate 256 97] ⟨false, false, false⟩ (some (List.replicate 256 97)) _
      (by decide) (by decide),
   validate_path_decides_and_declines.2.2 fixture_globals fixture_tree
      [List.replicate 256 97] false 0 (List.replicate 256 97) _ (by decide) (by decide)⟩

theorem path_steps_nil : path_steps [] = [] := by
  simp [path_steps, path_components, List.splitOn]

theorem path_steps_cons_slash (xs : List Nat) : path_steps (47 :: xs) = path_steps xs := by
  unfold path_steps path_components
  rw [splitOn_step]
  simp

theorem path_steps_cons_other (x : Nat) (xs : List Nat) (hx : x ≠ 47) :
    path_steps (x :: xs) = (x :: xs).takeWhile (· ≠ 47) ::
      path_steps (((x :: xs).dropWhile (· ≠ 47)).drop 1) := by
  unfold path_steps path_components
  rw [splitOn_step]
  have hne : List.takeWhile (fun c => decide (c ≠ 47)) (x :: xs) ≠ [] := by
    simp [List.takeWhile_cons, hx]
  by_cases hm : 47 ∈ x :: xs
  · simp only [hm, if_true, List.filter_cons, hne, ne_eq, not_false_eq_true, decide_True]
  · have hd : (x :: xs).dropWhile (· ≠ 47) = [] := by
      rw [List.dropWhile_eq_nil_iff]
      intro c hc
      simp only [ne_eq, decide_eq_true_eq]
      intro e
      exact hm (e ▸ hc)
    simp only [hm, if_false, List.filter_cons, hne, ne_eq, not_false_eq_true, decide_True,
      if_true, List.filter_nil, hd, List.drop_nil]
    simp [List.splitOn]

theorem strtok_slash_cons (xs : List Nat) : strtok [47] (47 :: xs) = strtok [47] xs := by
  simp [strtok]

theorem strtok_other_cons (x : Nat) (xs : List Nat) (hx : x ≠ 47) :
    strtok [47] (x :: xs) = some ((x :: xs).takeWhile (· ≠ 47),
      ((x :: xs).dropWhile (· ≠ 47)).drop 1) := by
  have hp : (fun c : Nat => !decide (c ∈ [47])) = (fun c => decide (c ≠ 47)) := by
    funext c; simp
  have hd : List.dropWhile (fun c => decide (c ∈ [47])) (x :: xs) = x :: xs := by
    simp [List.dropWhile_cons, hx]
  simp only [strtok, hd, hp]
  simp

/-- One call of `strtok` with the delimiter `/` takes the first non-empty
component off a buffer. -/
theorem strtok_spec (s : List Nat) :
    (strtok [47] s = none → path_steps s = []) ∧
    (∀ tok rest, strtok [47] s = some (tok, rest) →
      path_steps s = tok :: path_steps rest ∧ rest.length < s.length) := by
  induction s with
  | nil => simp [strtok, path_steps_nil]
  | cons x xs ih =>
    by_cases hx : x = 47
    · subst hx
      rw [strtok_slash_cons, path_steps_cons_slash]
      refine ⟨ih.1, ?_⟩
      intro tok rest h
      have := ih.2 tok rest h
      exact ⟨this.1, by simp only [List.length_cons]; omega⟩
    · rw [strtok_other_cons x xs hx, path_steps_cons_other x xs hx]
      refine ⟨by simp, ?_⟩
      intro tok rest h
      simp only [Option.some.injEq, Prod.mk.injEq] at h
      obtain ⟨h1, h2⟩ := h
      subst h1 h2
      refine ⟨rfl, ?_⟩
      have h3 : ((x :: xs).dropWhile (· ≠ 47)).length ≤ (x :: xs).length :=
        (List.dropWhile_sublist _).length_le
      have h4 : (x :: xs).dropWhile (· ≠ 47) = xs.dropWhile (· ≠ 47) := by
        simp [List.dropWhile_cons, hx]
      have h5 : (xs.dropWhile (· ≠ 47)).length ≤ xs.length :=
        (List.dropWhile_sublist _).length_le
      rw [h4]
      simp only [List.length_drop, List.length_cons]
      omega

theorem strtok_loop_spec (fuel : Nat) (s : List Nat) (h : s.length < fuel) :
    strtok_loop [47] fuel s = path_steps s := by
  induction fuel generalizing s with
  | zero => omega
  | succ fuel ih =>
    simp only [strtok_loop]
    cases hs : strtok [47] s with
    | none => simp only; exact ((strtok_spec s).1 hs).symm
    | some r =>
      obtain ⟨tok, rest⟩ := r
      obtain ⟨e1, e2⟩ := (strtok_spec s).2 tok rest hs
      simp only
      rw [e1, ih rest (by omega)]

theorem strtok_all_slash (s : List Nat) : strtok_all [47] s = path_steps s :=
  strtok_loop_spec _ _ (Nat.lt_succ_self _)

theorem find_child_eq_find (l : List Node) (tok : List Nat) :
    find_child l tok = l.find? (fun ch => decide (ch.name = tok)) := by
  induction l with
  | nil => rfl
  | cons c cs ih =>
    simp only [find_child, List.find?_cons]
    by_cases h : c.name = tok
    · simp [h, strcmp_self]
    · have : strcmp c.name tok ≠ 0 := fun e => h ((strcmp_eq_zero_iff _ _).1 e)
      simp [h, this, ih]

theorem find_node_loop_eq_walk (toks : List (List Nat)) (cur : Node) :
    find_node_loop toks (some cur) = spec_walk cur toks := by
  induction toks generalizing cur with
  | nil => rfl
  | cons tok toks ih =>
    simp only [find_node_loop, spec_walk, find_child_eq_find]
    cases hf : cur.children.find? (fun ch => decide (ch.name = tok)) with
    | none => cases toks <;> simp [find_node_loop]
    | some c => simp only; exact ih c

/-- The walk fails exactly when some step has no child with the name of its
component. -/
theorem spec_walk_eq_none_iff (n : Node) (comps : List (List Nat)) :
    spec_walk n comps = none ↔
      ∃ before c after m, comps = before ++ c :: after ∧ spec_walk n before = some m ∧
        ∀ ch ∈ m.children, ch.name ≠ c := by
  induction comps generalizing n with
  | nil =>
    simp only [spec_walk]
    constructor
    · intro h; cases h
    · rintro ⟨b, c, a, m, h, _⟩
      simp at h
  | cons c cs ih =>
    simp only [spec_walk]
    cases hf : n.children.find? (fun ch => decide (ch.name = c)) with
    | none =>
      simp only [true_iff]
      refine ⟨[], c, cs, n, rfl, rfl, ?_⟩
      intro ch hch
      have := List.find?_eq_none.1 hf ch hch
      simpa using this
    | some d =>
      simp only
      rw [ih d]
      constructor
      · rintro ⟨b, c', a, m, h1, h2, h3⟩
        refine ⟨c :: b, c', a, m, by rw [h1]; rfl, ?_, h3⟩
        simp only [spec_walk, hf]
        exact h2
      · rintro ⟨b, c', a, m, h1, h2, h3⟩
        cases b with
        | nil =>
          simp only [List.nil_append, List.cons.injEq] at h1
          simp only [spec_walk, Option.some.injEq] at h2
          subst h2
          have hd := List.find?_some hf
          have hmem := List.mem_of_find?_eq_some hf
          exfalso
          exact h3 d hmem (by rw [← h1.1]; simpa using hd)
        | cons b0 bs =>
          simp only [List.cons_append, List.cons.injEq] at h1
          obtain ⟨rfl, h1⟩ := h1
          simp only [spec_walk, hf] at h2
          exact ⟨bs, c', a, m, h1, h2, h3⟩

/-- C9. `find_node(root, p)` returns the root when `p` is `/` or `.`; for every
other `p`, with `c1..ck` the non-empty `/`-separated components of `p`, it
returns the node reached from the root by moving, for each `ci` in turn, to
the first child whose name equals `ci` byte for byte; and it returns NULL if
and only if some step has no child with that name. -/
theorem find_node_walks_components (root : Node) (p : List Nat) :
    (p = ascii "/" ∨ p = ascii "." → find_node root root p = some root) ∧
    (¬ (p = ascii "/" ∨ p = ascii ".") →
      find_node root root p = spec_walk root (path_steps p) ∧
      (find_node root root p = none ↔
        ∃ before c after m, path_steps p = before ++ c :: after ∧
          spec_walk root before = some m ∧ ∀ ch ∈ m.children, ch.name ≠ c)) := by
  have hw : ¬ (p = ascii "/" ∨ p = ascii ".") →
      find_node root root p = spec_walk root (path_steps p) := by
    intro h
    unfold find_node
    simp only [strcmp_eq_zero_iff, h, if_false, ite_self, strtok_all_slash,
      find_node_loop_eq_walk]
  refine ⟨?_, fun h => ⟨hw h, ?_⟩⟩
  · intro h
    unfold find_node
    simp only [strcmp_eq_zero_iff, h, if_true]
  · rw [hw h]
    exact spec_walk_eq_none_iff _ _

/-- C9 on the fixture: `/a.txt` leads to the node of `a.txt`, and `/x` to
nothing. -/
theorem find_node_walks_components_witness :
    find_node fixture_tree fixture_tree (ascii "/a.txt")
      = spec_walk fixture_tree (path_steps (ascii "/a.txt")) ∧
    find_node fixture_tree fixture_tree (ascii "/") = some fixture_tree :=
  ⟨((find_node_walks_components fixture_tree (ascii "/a.txt")).2 (by decide)).1,
   (find_node_walks_components fixture_tree (ascii "/")).1 (Or.inl rfl)⟩

/-! ### Start-up and the command loop -/

set_option maxRecDepth 100000 in
/-- The superblock load examines the number of bytes read and the range of the
shift only: it succeeds if and only if 92 bytes could be read at offset 1024
and `s_log_block_size` is at most 20, and it then hands on whatever 16-bit
value stands at offset 1024 + 56 as `s_magic`. -/
theorem read_superblock_succeeds_iff (img : Image) :
    ((∃ r, read_superblock img = .ok r) ↔
      ((pread img 92 1024).length = 92 ∧ le32 (pread img 92 1024) 24 ≤ 20)) ∧
    (∀ r, read_superblock img = .ok r →
      r.1.s_magic = le16 (pread img 92 1024) 56 ∧
      r.2.block_size = 1024 * 2 ^ le32 (pread img 92 1024) 24 ∧
      r.2.inode_size = le16 (pread img 92 1024) 88 ∧
      r.2.inodes_per_group = le32 (pread img 92 1024) 40) := by
  unfold read_superblock
  simp only [SUPERBLOCK_OFFSET]
  by_cases h1 : (pread img 92 1024).length = 92
  · by_cases h2 : 20 < le32 (pread img 92 1024) 24
    · have e : (decode_super_block (pread img 92 1024)).s_log_block_size
          = le32 (pread img 92 1024) 24 := rfl
      rw [if_neg (by simpa using h1), e, if_pos h2]
      refine ⟨⟨fun h => ?_, fun h => absurd h.2 (by omega)⟩, fun r hr => ?_⟩
      · obtain ⟨r, hr⟩ := h; cases hr
      · cases hr
    · have e : (decode_super_block (pread img 92 1024)).s_log_block_size
          = le32 (pread img 92 1024) 24 := rfl
      rw [if_neg (by simpa using h1), e, if_neg h2]
      refine ⟨⟨fun _ => ⟨h1, by omega⟩, fun _ => ⟨_, rfl⟩⟩, ?_⟩
      intro r hr
      cases hr
      exact ⟨rfl, rfl, rfl, rfl⟩
  · rw [if_pos (by simpa using h1)]
    refine ⟨⟨fun h => ?_, fun h => absurd h.1 h1⟩, fun r hr => ?_⟩
    · obtain ⟨r, hr⟩ := h; cases hr
    · cases hr

set_option maxRecDepth 100000 in
/-- C12 as stated fails on the fixture with the magic number set to zero: the
16-bit value at offset 1024 + 56 is 0, the superblock load succeeds with the
globals of the fixture, and the start-up goes on to build the tree. -/
theorem startup_accepts_zero_magic :
    le16 (pread fixture_nomagic 2 (1024 + 56)) 0 = 0 ∧
    (read_superblock fixture_nomagic).map
        (fun r => (r.1.s_magic, r.2.block_size, r.2.inode_size, r.2.inodes_per_group))
      = .ok (0, 1024, 128, 128) ∧
    (startup fixture_nomagic 8).map (fun r => r.2) = .ok fixture_tree :=
  ⟨by decide, by decide, by rfl⟩

/-- C13 as amended. For `print PATH -n N` with `N < 0` the command writes the
invalid-number message to standard error and the usage of `print` to standard
output, and neither looks the path up nor writes any file content. -/
theorem print_negative_count (g : Globals) (root : Node) (path num : List Nat)
    (rest : List (List Nat)) (hp : strcmp path (ascii "-n") ≠ 0) (hn : atoi num < 0) :
    run_print g root (path :: ascii "-n" :: num :: rest) = .ok
      ⟨command_help_print,
       ascii "print: invalid number of lines: " ++ dec_int (atoi num) ++ ascii "\n"⟩ := by
  simp [run_print, parse_print_tokens, hp, hn, strcmp_self]

set_option maxRecDepth 100000 in
/-- C13 on the fixture: `print /a.txt -n -1`. -/
theorem print_negative_count_witness :
    run_print fixture_globals fixture_tree [ascii "/a.txt", ascii "-n", ascii "-1"] = .ok
      ⟨command_help_print, ascii "print: invalid number of lines: -1\n"⟩ :=
  print_negative_count fixture_globals fixture_tree (ascii "/a.txt") (ascii "-1") []
    (by decide) (by decide)

set_option maxRecDepth 100000 in
/-- C13 as stated fails: `print /a.txt -n -1` on the fixture writes the usage
of `print`, 229 bytes, to standard output. -/
theorem print_negative_count_writes_usage :
    ∃ out, run_print fixture_globals fixture_tree [ascii "/a.txt", ascii "-n", ascii "-1"]
        = .ok out ∧ out.stdout = command_help_print ∧ out.stdout ≠ [] :=
  ⟨_, (by decide : run_print fixture_globals fixture_tree
      [ascii "/a.txt", ascii "-n", ascii "-1"] = .ok
        ⟨command_help_print, ascii "print: invalid number of lines: -1\n"⟩), rfl, by decide⟩

/-- C16. `tree PATH` on a node that is not a directory writes the message
`Error: 'PATH' is not directory` to standard error and nothing to standard
output: no header, listing or summary. `print PATH` (with or without a
positive `-n`) on a node that is not a regular file writes the message
`Error: 'PATH' is not file` to standard error and nothing to standard
output. -/
theorem wrong_type_targets (g : Globals) (root tgt : Node) (toks : List (List Nat))
    (path msg : List Nat) (hv : validate_path path = .ok (true, msg))
    (hf : find_node root root path = some tgt) :
    (∀ f, tgt.file_type ≠ 2 →
      parse_tree_tokens toks ⟨false, false, false⟩ none = some (f, some path) →
      run_tree g root toks
        = .ok ⟨[], ascii "Error: '" ++ path ++ ascii "' is not directory\n"⟩) ∧
    (∀ has_n n, tgt.file_type ≠ 1 →
      parse_print_tokens toks false 0 none = .done has_n n (some path) →
      run_print g root toks
        = .ok ⟨[], ascii "Error: '" ++ path ++ ascii "' is not file\n\n"⟩) := by
  refine ⟨?_, ?_⟩
  · intro f ht hparse
    simp [run_tree, hparse, hv, command_tree, hf, ht]
  · intro has_n n ht hparse
    simp [run_print, hparse, hv, hf, ht]

set_option maxRecDepth 100000 in
/-- C16 on the fixture: `tree /a.txt` and `print /d`. -/
theorem wrong_type_targets_witness :
    run_tree fixture_globals fixture_tree [ascii "/a.txt"]
      = .ok ⟨[], ascii "Error: '/a.txt' is not directory\n"⟩ ∧
    run_print fixture_globals fixture_tree [ascii "/d"]
      = .ok ⟨[], ascii "Error: '/d' is not file\n\n"⟩ :=
  ⟨(wrong_type_targets fixture_globals fixture_tree (.mk (ascii "a.txt") 13 1 [])
      [ascii "/a.txt"] (ascii "/a.txt") [] (by decide) fixture_find_a_txt).1
      ⟨false, false, false⟩ (by decide) (by decide),
   (wrong_type_targets fixture_globals fixture_tree (.mk (ascii "d") 12 2 [])
      [ascii "/d"] (ascii "/d") [] (by decide) (by rfl)).2 false 0 (by decide) (by decide)⟩

/-- C17 as amended. For `tree` and for `print`, a path that passes validation
and does not resolve to any node makes the command write its usage text to
standard output, the text malformed flags produce, and nothing else: no
message on standard error, no listing, no content. -/
theorem path_not_found_prints_usage (g : Globals) (root : Node) (toks : List (List Nat))
    (path msg : List Nat) (hv : validate_path path = .ok (true, msg))
    (hf : find_node root root path = none) :
    (∀ f, parse_tree_tokens toks ⟨false, false, false⟩ none = some (f, some path) →
      run_tree g root toks = .ok ⟨command_help_tree, []⟩) ∧
    (∀ has_n n, parse_print_tokens toks false 0 none = .done has_n n (some path) →
      run_print g root toks = .ok ⟨command_help_print, []⟩) := by
  refine ⟨?_, ?_⟩
  · intro f hparse
    simp [run_tree, hparse, hv, command_tree, hf]
  · intro has_n n hparse
    simp [run_print, hparse, hv, hf]

set_option maxRecDepth 100000 in
/-- C17 on the fixture: `tree /x` and `print /x`. -/
theorem path_not_found_prints_usage_witness :
    run_tree fixture_globals fixture_tree [ascii "/x"] = .ok ⟨command_help_tree, []⟩ ∧
    run_print fixture_globals fixture_tree [ascii "/x"] = .ok ⟨command_help_print, []⟩ :=
  ⟨(path_not_found_prints_usage fixture_globals fixture_tree [ascii "/x"] (ascii "/x") []
      (by decide) (by rfl)).1 ⟨false, false, false⟩ (by decide),
   (path_not_found_prints_usage fixture_globals fixture_tree [ascii "/x"] (ascii "/x") []
      (by decide) (by rfl)).2 false 0 (by decide)⟩

set_option maxRecDepth 100000 in
/-- C17 as stated fails: on the fixture, `tree /x` writes exactly what the
malformed `tree -x` writes, the usage of `tree`, and `print /x` exactly what
the malformed `print /a.txt /d` writes, the usage of `print`; nothing goes to
standard error. -/
theorem path_not_found_is_not_told_apart :
    run_tree fixture_globals fixture_tree [ascii "/x"]
      = run_tree fixture_globals fixture_tree [ascii "-x"] ∧
    run_tree fixture_globals fixture_tree [ascii "/x"] = .ok ⟨command_help_tree, []⟩ ∧
    run_print fixture_globals fixture_tree [ascii "/x"]
      = run_print fixture_globals fixture_tree [ascii "/a.txt", ascii "/d"] ∧
    run_print fixture_globals fixture_tree [ascii "/x"] = .ok ⟨command_help_print, []⟩ :=
  ⟨by decide, by decide, by decide, by decide⟩

/-- C19 at a block size where it fails. For the block size `1024 << 3` the
capacity computed is 12 + 2048 + 2048², the cube of 2048 being lost in the
32-bit sum; for the block sizes `1024 << 0`, `1024 << 1` and `1024 << 2` it is
the exact sum. -/
theorem collect_cap_loses_cube :
    collect_cap (1024 * 2 ^ 3) = 12 + 2048 + 2048 * 2048 ∧
    collect_cap (1024 * 2 ^ 3) ≠ 12 + 2048 + 2048 * 2048 + 2048 * 2048 * 2048 ∧
    collect_cap (1024 * 2 ^ 0) = 12 + 256 + 256 * 256 + 256 * 256 * 256 ∧
    collect_cap (1024 * 2 ^ 1) = 12 + 512 + 512 * 512 + 512 * 512 * 512 ∧
    collect_cap (1024 * 2 ^ 2) = 12 + 1024 + 1024 * 1024 + 1024 * 1024 * 1024 :=
  ⟨by rfl, by decide, by rfl, by rfl, by rfl⟩

/-! ### Permissions -/

theorem and_two_pow_ne_zero (m k : Nat) : m &&& 2 ^ k ≠ 0 ↔ m.testBit k = true := by
  constructor
  · intro h
    by_contra hb
    apply h
    apply Nat.eq_of_testBit_eq
    intro i
    rw [Nat.testBit_and, Nat.testBit_two_pow, Nat.zero_testBit]
    by_cases hki : k = i
    · subst hki; simp [hb]
    · simp [hki]
  · intro hb h
    have := congrArg (fun x => Nat.testBit x k) h
    simp only [Nat.testBit_and, Nat.testBit_two_pow, Nat.zero_testBit, hb, decide_True,
      Bool.and_self] at this
    exact Bool.noConfusion this

/-- C14. For every mode, `format_perm` yields ten characters: character 0 is
`d` if the directory-mode bit `0x4000` (bit 14) is set and `-` otherwise; for
`i` in 0..8, character `i + 1` is `"rwx"[i mod 3]` if bit `8 - i` of the mode
is set and `-` otherwise. The mode `0x41ED` (040755) gives `drwxr-xr-x`. -/
theorem format_perm_characters (mode : Nat) :
    (format_perm mode).length = 10 ∧
    (format_perm mode).getD 0 0 = (if mode.testBit 14 then 100 else 45) ∧
    (∀ i, i < 9 → (format_perm mode).getD (i + 1) 0
      = if mode.testBit (8 - i) then (ascii "rwx").getD (i % 3) 0 else 45) ∧
    format_perm 0x41ED = ascii "drwxr-xr-x" := by
  refine ⟨by simp [format_perm], ?_, ?_, by decide⟩
  · have h14 : (0x4000 : Nat) = 2 ^ 14 := by norm_num
    simp only [format_perm, List.getD_cons_zero, h14]
    by_cases hb : mode.testBit 14 = true
    · rw [if_pos ((and_two_pow_ne_zero mode 14).2 hb), if_pos hb]
    · rw [if_neg (fun h => hb ((and_two_pow_ne_zero mode 14).1 h)), if_neg hb]
  · intro i hi
    simp only [format_perm, List.getD_cons_succ]
    rw [List.getD_eq_getElem _ _ (by simpa using hi)]
    simp only [List.getElem_map, List.getElem_range, Nat.one_shiftLeft]
    by_cases hb : mode.testBit (8 - i) = true
    · rw [if_pos ((and_two_pow_ne_zero mode (8 - i)).2 hb), if_pos hb]
    · rw [if_neg (fun h => hb ((and_two_pow_ne_zero mode (8 - i)).1 h)), if_neg hb]

/-! ### Offsets of the metadata -/

theorem pread_lt (img : Image) (count off : Nat) : ∀ x ∈ pread img count off, x < 256 := by
  intro x hx
  unfold pread at hx
  split at hx
  · simp at hx
  · simp only [List.mem_map, List.mem_range] at hx
    obtain ⟨i, _, rfl⟩ := hx
    exact Nat.mod_lt _ (by norm_num)

theorem getD_lt (buf : List Nat) (h : ∀ x ∈ buf, x < 256) (k : Nat) : buf.getD k 0 < 256 := by
  by_cases hk : k < buf.length
  · rw [List.getD_eq_getElem _ _ hk]
    exact h _ (List.getElem_mem _)
  · rw [List.getD_eq_default _ _ (by omega)]
    norm_num

theorem le16_lt (buf : List Nat) (h : ∀ x ∈ buf, x < 256) (k : Nat) : le16 buf k < 2 ^ 16 := by
  have h0 := getD_lt buf h k
  have h1 := getD_lt buf h (k + 1)
  unfold le16
  omega

theorem le32_lt (buf : List Nat) (h : ∀ x ∈ buf, x < 256) (k : Nat) : le32 buf k < 2 ^ 32 := by
  have h0 := getD_lt buf h k
  have h1 := getD_lt buf h (k + 1)
  have h2 := getD_lt buf h (k + 2)
  have h3 := getD_lt buf h (k + 3)
  unfold le32
  omega

/-- The globals `read_superblock` sets: a block size `1024 << k` with `k ≤ 20`,
a 16-bit inode size and a 32-bit number of inodes per group. -/
theorem read_superblock_globals (img : Image) (sb : ext2_super_block) (g : Globals)
    (h : read_superblock img = .ok (sb, g)) :
    g.img = img ∧ (∃ k, k ≤ 20 ∧ g.block_size = 1024 * 2 ^ k) ∧
    g.inode_size < 2 ^ 16 ∧ g.inodes_per_group < 2 ^ 32 := by
  unfold read_superblock at h
  simp only at h
  split at h
  · cases h
  · split at h
    · cases h
    · rename_i hk
      simp only [Except.ok.injEq, Prod.mk.injEq] at h
      obtain ⟨_, rfl⟩ := h
      refine ⟨rfl, ⟨_, by omega, rfl⟩, ?_, ?_⟩
      · exact le16_lt _ (pread_lt _ _ _) _
      · exact le32_lt _ (pread_lt _ _ _) _

theorem block_size_bounds (bs k : Nat) (hk : k ≤ 20) (h : bs = 1024 * 2 ^ k) :
    1024 ≤ bs ∧ bs ≤ 2 ^ 30 := by
  subst h
  have h1 : 2 ^ k ≤ 2 ^ 20 := Nat.pow_le_pow_right (by norm_num) hk
  have h2 : 1 ≤ 2 ^ k := Nat.one_le_two_pow
  omega

/-- C20. With the globals `read_superblock` set and a non-zero number of inodes
per group, for every inode number `ino ≥ 1` the descriptor of group
`(ino − 1) / inodes_per_group` is read at byte offset
`((1024 / block_size) + 1) × block_size + group × 32`, and the inode at byte
offset `T × block_size + ((ino − 1) mod inodes_per_group) × inode_size`, with
`T` the field `bg_inode_table` at offset 8 of that descriptor. -/
theorem read_inode_offsets (img : Image) (sb : ext2_super_block) (g : Globals) (ino : Nat)
    (hs : read_superblock img = .ok (sb, g)) (h1 : 1 ≤ ino) (h2 : ino < 2 ^ 32)
    (hipg : g.inodes_per_group ≠ 0) :
    read_inode g ino =
      (if (pread g.img 32 (((1024 / g.block_size) + 1) * g.block_size
            + ((ino - 1) / g.inodes_per_group) * 32)).length ≠ 32
        then .error .exit_failure
        else if (pread g.img 100
            (le32 (pread g.img 32 (((1024 / g.block_size) + 1) * g.block_size
              + ((ino - 1) / g.inodes_per_group) * 32)) 8 * g.block_size
              + ((ino - 1) % g.inodes_per_group) * g.inode_size)).length ≠ 100
          then .error .exit_failure
          else .ok (decode_inode (pread g.img 100
            (le32 (pread g.img 32 (((1024 / g.block_size) + 1) * g.block_size
              + ((ino - 1) / g.inodes_per_group) * 32)) 8 * g.block_size
              + ((ino - 1) % g.inodes_per_group) * g.inode_size)))) := by
  obtain ⟨_, ⟨k, hk, hbs⟩, hisz, hipg2⟩ := read_superblock_globals img sb g hs
  obtain ⟨hb1, hb2⟩ := block_size_bounds g.block_size k hk hbs
  have hino : (ino + 2 ^ 32 - 1) % 2 ^ 32 = ino - 1 := by omega
  have hgroup : (ino - 1) / g.inodes_per_group < 2 ^ 32 :=
    lt_of_le_of_lt (Nat.div_le_self _ _) (by omega)
  have hsb : SUPERBLOCK_OFFSET / g.block_size ≤ 1 := by
    unfold SUPERBLOCK_OFFSET
    have : 1024 / g.block_size ≤ 1024 / 1024 := Nat.div_le_div_left hb1 (by norm_num)
    simpa using this
  have hgd : group_desc_offset ((ino - 1) / g.inodes_per_group) g.block_size
      = ((1024 / g.block_size) + 1) * g.block_size + ((ino - 1) / g.inodes_per_group) * 32 := by
    unfold group_desc_offset off_add off_mul
    simp only
    have e1 : (SUPERBLOCK_OFFSET / g.block_size + 1) % 2 ^ 32
        = SUPERBLOCK_OFFSET / g.block_size + 1 := Nat.mod_eq_of_lt (by omega)
    have e2 : (SUPERBLOCK_OFFSET / g.block_size + 1) * g.block_size ≤ 2 * 2 ^ 30 :=
      Nat.mul_le_mul (by omega) hb2
    rw [e1, Nat.mod_eq_of_lt (a := (SUPERBLOCK_OFFSET / g.block_size + 1) * g.block_size)
      (by omega), Nat.mod_eq_of_lt (a := (ino - 1) / g.inodes_per_group * 32) (by omega),
      Nat.mod_eq_of_lt (by omega)]
    rfl
  have hio : ∀ T, T < 2 ^ 32 → inode_offset g T ino
      = T * g.block_size + ((ino - 1) % g.inodes_per_group) * g.inode_size := by
    intro T hT
    unfold inode_offset off_add off_mul
    simp only [hino]
    have hidx : (ino - 1) % g.inodes_per_group < 2 ^ 32 :=
      lt_of_le_of_lt (Nat.mod_le _ _) (by omega)
    have e1 : T * g.block_size ≤ 2 ^ 32 * 2 ^ 30 := Nat.mul_le_mul (by omega) hb2
    have e2 : (ino - 1) % g.inodes_per_group * g.inode_size ≤ 2 ^ 32 * 2 ^ 16 :=
      Nat.mul_le_mul (by omega) (by omega)
    rw [Nat.mod_eq_of_lt (a := T * g.block_size) (by omega),
      Nat.mod_eq_of_lt (a := (ino - 1) % g.inodes_per_group * g.inode_size) (by omega),
      Nat.mod_eq_of_lt (by omega)]
  have hbs0 : g.block_size ≠ 0 := by omega
  unfold read_inode read_group_desc
  simp only [hipg, if_false, hbs0, hino, hgd]
  generalize (1024 / g.block_size + 1) * g.block_size + (ino - 1) / g.inodes_per_group * 32
    = gd_off
  by_cases hl : (pread g.img 32 gd_off).length = 32
  · simp only [hl, ne_eq, not_true_eq_false, if_false]
    rw [hio _ (le32_lt _ (pread_lt _ _ _) _)]
  · simp only [hl, ne_eq, not_false_eq_true, if_true]

set_option maxRecDepth 100000 in
/-- C20 on the fixture: inode 13 is in group 0, whose descriptor is read at
offset 2048 and gives the table block 5; the inode is read at offset
5 × 1024 + 12 × 128. -/
theorem read_inode_offsets_witness :
    read_inode fixture_globals 13 =
      (if (pread fixture 32 (((1024 / 1024) + 1) * 1024 + ((13 - 1) / 128) * 32)).length ≠ 32
        then .error .exit_failure
        else if (pread fixture 100
            (le32 (pread fixture 32 (((1024 / 1024) + 1) * 1024 + ((13 - 1) / 128) * 32)) 8
              * 1024 + ((13 - 1) % 128) * 128)).length ≠ 100
          then .error .exit_failure
          else .ok (decode_inode (pread fixture 100
            (le32 (pread fixture 32 (((1024 / 1024) + 1) * 1024 + ((13 - 1) / 128) * 32)) 8
              * 1024 + ((13 - 1) % 128) * 128)))) :=
  read_inode_offsets fixture
    ⟨128, 1024, 1, 0, 8192, 128, 0xEF53, 128⟩ fixture_globals 13 (by rfl) (by decide)
    (by decide) (by decide)

/-! ### The arguments of `tree` -/

theorem with_letters_nil (f : TreeFlags) : with_letters f [] = f := by
  cases f; simp [with_letters]

theorem with_letters_append (f : TreeFlags) (a b : List Nat) :
    with_letters (with_letters f a) b = with_letters f (a ++ b) := by
  simp [with_letters, Bool.or_assoc]

theorem flag_set_with_letters (f : TreeFlags) (cs : List Nat) (c : Nat)
    (hc : c = 114 ∨ c = 115 ∨ c = 112) :
    flag_set (with_letters f cs) c ↔ flag_set f c ∨ c ∈ cs := by
  rcases hc with rfl | rfl | rfl <;> simp [flag_set, with_letters]

theorem parse_tree_letters_spec (cs : List Nat) (f0 f : TreeFlags) :
    parse_tree_letters cs f0 = some f ↔
      ((∀ c ∈ cs, c = 114 ∨ c = 115 ∨ c = 112) ∧ cs.Nodup ∧ (∀ c ∈ cs, ¬ flag_set f0 c) ∧
        f = with_letters f0 cs) := by
  induction cs generalizing f0 with
  | nil =>
    simp only [parse_tree_letters, Option.some.injEq, List.not_mem_nil, false_implies,
      implies_true, List.nodup_nil, true_and, with_letters_nil]
    exact eq_comm
  | cons c cs ih =>
    have key : ∀ (f1 : TreeFlags), (c = 114 ∨ c = 115 ∨ c = 112) → ¬ flag_set f0 c →
        f1 = with_letters f0 [c] →
        (parse_tree_letters cs f1 = some f ↔
          ((∀ x ∈ c :: cs, x = 114 ∨ x = 115 ∨ x = 112) ∧ (c :: cs).Nodup ∧
            (∀ x ∈ c :: cs, ¬ flag_set f0 x) ∧ f = with_letters f0 (c :: cs))) := by
      intro f1 hc hn hf1
      rw [ih f1, hf1, with_letters_append]
      simp only [List.mem_cons, forall_eq_or_imp, List.nodup_cons, List.singleton_append]
      constructor
      · rintro ⟨h1, h2, h3, h4⟩
        refine ⟨⟨hc, h1⟩, ⟨?_, h2⟩, ⟨hn, ?_⟩, h4⟩
        · intro hmem
          exact h3 c hmem ((flag_set_with_letters f0 [c] c hc).2 (Or.inr (by simp)))
        · intro x hx hfx
          exact h3 x hx ((flag_set_with_letters f0 [c] x (h1 x hx)).2 (Or.inl hfx))
      · rintro ⟨⟨_, h1⟩, ⟨h2a, h2⟩, ⟨_, h3⟩, h4⟩
        refine ⟨h1, h2, ?_, h4⟩
        intro x hx hfx
        rcases (flag_set_with_letters f0 [c] x (h1 x hx)).1 hfx with h | h
        · exact h3 x hx h
        · simp only [List.mem_singleton] at h
          subst h
          exact h2a hx
    have none_case : ((c = 114 ∨ c = 115 ∨ c = 112) → flag_set f0 c) →
        ((none : Option TreeFlags) = some f ↔
          ((∀ x ∈ c :: cs, x = 114 ∨ x = 115 ∨ x = 112) ∧ (c :: cs).Nodup ∧
            (∀ x ∈ c :: cs, ¬ flag_set f0 x) ∧ f = with_letters f0 (c :: cs))) := by
      intro h
      constructor
      · intro e; cases e
      · rintro ⟨h1, _, h3, _⟩
        exact absurd (h (h1 c (List.mem_cons_self _ _))) (h3 c (List.mem_cons_self _ _))
    simp only [parse_tree_letters]
    by_cases h114 : c = 114
    · subst h114
      by_cases hr : f0.r = true
      · simp only [if_true, hr]
        exact none_case (fun _ => Or.inl ⟨rfl, hr⟩)
      · simp only [if_true, hr, Bool.false_eq_true, if_false]
        refine key _ (Or.inl rfl) ?_ ?_
        · simp [flag_set, hr]
        · cases f0; simp [with_letters]
    · by_cases h115 : c = 115
      · subst h115
        by_cases hs : f0.s = true
        · simp only [h114, if_false, if_true, hs]
          exact none_case (fun _ => Or.inr (Or.inl ⟨rfl, hs⟩))
        · simp only [h114, if_false, if_true, hs, Bool.false_eq_true]
          refine key _ (Or.inr (Or.inl rfl)) ?_ ?_
          · simp [flag_set, hs]
          · cases f0; simp [with_letters]
      · by_cases h112 : c = 112
        · subst h112
          by_cases hp : f0.p = true
          · simp only [h114, h115, if_false, if_true, hp]
            exact none_case (fun _ => Or.inr (Or.inr ⟨rfl, hp⟩))
          · simp only [h114, h115, if_false, if_true, hp, Bool.false_eq_true]
            refine key _ (Or.inr (Or.inr rfl)) ?_ ?_
            · simp [flag_set, hp]
            · cases f0; simp [with_letters]
        · simp only [h114, h115, h112, if_false]
          exact none_case (fun h => by rcases h with h | h | h <;> contradiction)

theorem flag_letters_cons_flag (tok : List Nat) (toks : List (List Nat))
    (h : is_flag_token tok = true) :
    flag_letters (tok :: toks) = tok.drop 1 ++ flag_letters toks ∧
    path_tokens (tok :: toks) = path_tokens toks := by
  simp [flag_letters, path_tokens, h]

theorem flag_letters_cons_path (tok : List Nat) (toks : List (List Nat))
    (h : is_flag_token tok = false) :
    flag_letters (tok :: toks) = flag_letters toks ∧
    path_tokens (tok :: toks) = tok :: path_tokens toks := by
  simp [flag_letters, path_tokens, h]

theorem parse_tree_tokens_spec (toks : List (List Nat)) (f0 f : TreeFlags)
    (p0 path : Option (List Nat)) :
    parse_tree_tokens toks f0 p0 = some (f, path) ↔
      ((∀ c ∈ flag_letters toks, c = 114 ∨ c = 115 ∨ c = 112) ∧ (flag_letters toks).Nodup ∧
        (∀ c ∈ flag_letters toks, ¬ flag_set f0 c) ∧
        (path_tokens toks).length + (if p0.isSome then 1 else 0) ≤ 1 ∧
        f = with_letters f0 (flag_letters toks) ∧
        path = (if p0.isSome then p0 else (path_tokens toks).head?)) := by
  induction toks generalizing f0 p0 with
  | nil =>
    simp only [parse_tree_tokens, Option.some.injEq, Prod.mk.injEq, flag_letters, path_tokens,
      List.filter_nil, List.map_nil, List.flatten_nil, List.not_mem_nil, false_implies,
      implies_true, List.nodup_nil, true_and, List.length_nil, Nat.zero_add,
      with_letters_nil, List.head?_nil]
    constructor
    · rintro ⟨rfl, rfl⟩
      refine ⟨by split <;> omega, rfl, ?_⟩
      cases f0p : p0 <;> simp
    · rintro ⟨_, rfl, h⟩
      refine ⟨rfl, ?_⟩
      rw [h]
      cases p0 <;> simp
  | cons tok toks ih =>
    simp only [parse_tree_tokens]
    by_cases hflag : tok.head? = some 45
    · have hft : is_flag_token tok = true := by simp [is_flag_token, hflag]
      obtain ⟨e1, e2⟩ := flag_letters_cons_flag tok toks hft
      rw [e1, e2]
      simp only [hflag, if_true]
      cases hl : parse_tree_letters (tok.drop 1) f0 with
      | none =>
        constructor
        · intro h
          cases h
        rintro ⟨h1, h2, h3, _⟩
        exfalso
        have := (parse_tree_letters_spec (tok.drop 1) f0 (with_letters f0 (tok.drop 1))).2
          ⟨fun c hc => h1 c (List.mem_append_left _ hc), (List.nodup_append.1 h2).1,
           fun c hc => h3 c (List.mem_append_left _ hc), rfl⟩
        rw [hl] at this
        cases this
      | some f1 =>
        obtain ⟨a1, a2, a3, a4⟩ := (parse_tree_letters_spec (tok.drop 1) f0 f1).1 hl
        simp only
        rw [ih f1 p0, a4, with_letters_append]
        constructor
        · rintro ⟨h1, h2, h3, h4, h5, h6⟩
          refine ⟨?_, ?_, ?_, h4, h5, h6⟩
          · intro c hc
            rcases List.mem_append.1 hc with hc | hc
            · exact a1 c hc
            · exact h1 c hc
          · refine List.nodup_append.2 ⟨a2, h2, ?_⟩
            intro c hc1 hc2
            exact h3 c hc2 ((flag_set_with_letters f0 _ c (a1 c hc1)).2 (Or.inr hc1))
          · intro c hc
            rcases List.mem_append.1 hc with hc | hc
            · exact a3 c hc
            · intro hfs
              exact h3 c hc ((flag_set_with_letters f0 _ c (h1 c hc)).2 (Or.inl hfs))
        · rintro ⟨h1, h2, h3, h4, h5, h6⟩
          refine ⟨fun c hc => h1 c (List.mem_append_right _ hc), (List.nodup_append.1 h2).2.1,
            ?_, h4, h5, h6⟩
          intro c hc hfs
          have hv := h1 c (List.mem_append_right _ hc)
          rcases (flag_set_with_letters f0 _ c hv).1 hfs with h | h
          · exact h3 c (List.mem_append_right _ hc) h
          · exact (List.nodup_append.1 h2).2.2 h hc
    · have hft : is_flag_token tok = false := by simp [is_flag_token, hflag]
      obtain ⟨e1, e2⟩ := flag_letters_cons_path tok toks hft
      rw [e1, e2]
      simp only [hflag, if_false]
      cases p0 with
      | none =>
        simp only [ih f0 (some tok), Option.isSome_some, if_true, Option.isSome_none,
          Bool.false_eq_true, if_false, List.length_cons, List.head?_cons, Nat.add_zero]
      | some q =>
        simp only [Option.isSome_some, if_true, List.length_cons]
        constructor
        · intro h
          cases h
        rintro ⟨_, _, _, h4, _⟩
        omega

/-- C18. The argument loop of `tree` accepts a token list if and only if
every token that begins with `-` holds nothing but the letters `r`, `s`, `p`
behind the dash, no letter occurs twice over all these tokens, and at most one
token does not begin with `-`; on acceptance the three flags are set exactly
for the letters present and the path is the token without a dash, if any; on
rejection the command writes the usage of `tree` and nothing else, whatever
the tree and the image are. -/
theorem tree_arguments (toks : List (List Nat)) :
    ((∃ r, parse_tree_tokens toks ⟨false, false, false⟩ none = some r) ↔ tree_args_ok toks) ∧
    (∀ f path, parse_tree_tokens toks ⟨false, false, false⟩ none = some (f, path) →
      (f.r = true ↔ 114 ∈ flag_letters toks) ∧ (f.s = true ↔ 115 ∈ flag_letters toks) ∧
      (f.p = true ↔ 112 ∈ flag_letters toks) ∧ path = (path_tokens toks).head?) ∧
    (parse_tree_tokens toks ⟨false, false, false⟩ none = none →
      ∀ (g : Globals) (root : Node), run_tree g root toks = .ok ⟨command_help_tree, []⟩) := by
  have hns : ∀ c, ¬ flag_set ⟨false, false, false⟩ c := by
    intro c h
    simp [flag_set] at h
  refine ⟨⟨?_, ?_⟩, ?_, ?_⟩
  · rintro ⟨⟨f, path⟩, h⟩
    obtain ⟨h1, h2, _, h4, _, _⟩ := (parse_tree_tokens_spec toks _ f none path).1 h
    exact ⟨h1, h2, by simpa using h4⟩
  · rintro ⟨h1, h2, h3⟩
    exact ⟨_, (parse_tree_tokens_spec toks _ _ none _).2
      ⟨h1, h2, fun c _ => hns c, by simpa using h3, rfl, rfl⟩⟩
  · intro f path h
    obtain ⟨_, _, _, _, h5, h6⟩ := (parse_tree_tokens_spec toks _ f none path).1 h
    rw [h5, h6]
    simp [with_letters]
  · intro h g root
    simp [run_tree, h]

/-- C18 on `tree -rs / -p`, which is accepted with all three flags and the
path `/`, and on `tree -r -r`, which is rejected with the usage. -/
theorem tree_arguments_witness :
    tree_args_ok [ascii "-rs", ascii "/", ascii "-p"] ∧
    run_tree fixture_globals fixture_tree [ascii "-r", ascii "-r"]
      = .ok ⟨command_help_tree, []⟩ :=
  ⟨(tree_arguments [ascii "-rs", ascii "/", ascii "-p"]).1.1
      ⟨(⟨true, true, true⟩, some (ascii "/")), by decide⟩,
   (tree_arguments [ascii "-r", ascii "-r"]).2.2 (by decide) fixture_globals fixture_tree⟩

/-! ## The listing of `tree` -/

theorem indent_below_short (pre : List Nat) (b : Bool) (h : pre.length + 4 ≤ 255) :
    indent_below pre b = pre ++ (if b then [0x20] else glyph_bar) := by
  unfold indent_below
  apply List.take_of_length_le
  cases b <;> simp [glyph_bar] <;> omega

theorem height_eq (n : Node) : n.height = Node.heightList n.children := by
  cases n with
  | mk a b c cs => simp [Node.height, Node.children]

mutual
/-- Below a tidy node whose prefixes all fit the 255 bytes of the buffer,
`print_tree` writes the reference rendering. -/
theorem print_tree_reference (g : Globals) (r s p : Bool) : (n : Node) → (pre : List Nat) →
    n.Tidy → pre.length + 4 * n.height ≤ 255 →
    print_tree g r s p n pre = reference_listing g r s p n pre
  | .mk _ _ _ cs, pre, h, hb => by
    simp only [print_tree, reference_listing]
    exact print_tree_chain_reference g r s p cs pre (by
      intro x hx
      exact h x (by simpa [Node.descendants] using hx)) (by simpa [Node.height] using hb)
/-- The loop of `print_tree` writes the reference rendering of a tidy chain
whose prefixes all fit the 255 bytes of the buffer. -/
theorem print_tree_chain_reference (g : Globals) (r s p : Bool) : (l : List Node) →
    (pre : List Nat) →
    (∀ n ∈ Node.descendantsList l,
      is_skipped_name n.name = false ∧ (n.file_type ≠ 2 → n.children = [])) →
    pre.length + 4 * Node.heightList l ≤ 255 →
    print_tree_chain g r s p l pre = reference_children g r s p l pre
  | [], pre, _, _ => by simp [print_tree_chain, reference_children]
  | c :: cs, pre, h, hb => by
    have hc := h c (by simp [Node.descendantsList])
    have hcs : ∀ n ∈ Node.descendantsList cs,
        is_skipped_name n.name = false ∧ (n.file_type ≠ 2 → n.children = []) := by
      intro n hn
      exact h n (by simp [Node.descendantsList, hn])
    have hct : c.Tidy := by
      intro n hn
      exact h n (by simp [Node.descendantsList, hn])
    simp only [Node.heightList] at hb
    have hb1 : pre.length + 4 * (c.height + 1) ≤ 255 := by
      have := Nat.le_max_left (c.height + 1) (Node.heightList cs)
      omega
    have hb2 : pre.length + 4 * Node.heightList cs ≤ 255 := by
      have := Nat.le_max_right (c.height + 1) (Node.heightList cs)
      omega
    have hnp : indent_below pre cs.isEmpty
        = pre ++ (if cs.isEmpty then [0x20] else glyph_bar) :=
      indent_below_short pre _ (by omega)
    have hlen : (pre ++ (if cs.isEmpty then [0x20] else glyph_bar)).length + 4 * c.height
        ≤ 255 := by
      have : (if cs.isEmpty then [0x20] else glyph_bar).length ≤ 4 := by
        split <;> simp [glyph_bar]
      rw [List.length_append]
      omega
    simp only [print_tree_chain, reference_children, hc.1, Bool.false_eq_true, if_false, hnp]
    rw [print_tree_chain_reference g r s p cs pre hcs hb2]
    cases attrs g s p c.inode_no with
    | error e => rfl
    | ok a =>
      simp only
      by_cases hrec : (r && decide (c.file_type = 2)) = true
      · simp only [hrec, if_true]
        rw [print_tree_reference g r s p c _ hct hlen]
        rfl
      · simp only [hrec, if_false]
        rfl
end

theorem insert_chain_perm (l : List Node) (child : Node) :
    (insert_child_sorted_chain l child).Perm (child :: l) := by
  induction l with
  | nil => simp [insert_child_sorted_chain]
  | cons c cs ih =>
    simp only [insert_child_sorted_chain]
    split
    · exact List.Perm.refl _
    · split
      · exact (List.Perm.cons c ih).trans (List.Perm.swap _ _ _)
      · split
        · exact (List.Perm.cons c ih).trans (List.Perm.swap _ _ _)
        · exact List.Perm.refl _

theorem insert_child_sorted_key (parent child : Node) :
    (insert_child_sorted parent child).key = parent.key := rfl

theorem build_tree_key (g : Globals) (fuel : Nat) (parent t : Node)
    (h : build_tree g fuel parent = .ok t) : t.key = parent.key := by
  cases fuel with
  | zero => simp [build_tree] at h
  | succ fuel =>
    simp only [build_tree] at h
    split at h
    · simp at h
    · split at h
      · simp at h
      · exact scan_dir_blocks_preserves (fun n => n.key = parent.key) (fun _ => True) g
          (build_tree g fuel) (fun _ _ _ _ _ => trivial)
          (fun name ino t _ ht => ⟨trivial, build_tree_name g fuel _ t ht⟩)
          (fun p c hp _ _ => (insert_child_sorted_key p c).trans hp)
          fuel _ parent t rfl h

/-- One block scan adds to the children, each once, the kept entries that
stand before the first record with inode 0, whatever bound at least as large
as the fuel limits the records. -/
theorem scan_dir_block_children (g : Globals) (recurse : Node → Except Fault Node)
    (blk_off : Nat)
    (hrec : ∀ name ino t, recurse (create_node name ino EXT2_FT_DIR) = .ok t →
      t.key = (name, ino, EXT2_FT_DIR))
    (fuel cur : Nat) (parent t : Node)
    (h : scan_dir_block g recurse blk_off fuel cur parent = .ok t) (k : Nat) (hk : fuel ≤ k) :
    (t.children.map Node.key).Perm (parent.children.map Node.key ++
      ((((disk_records g blk_off k cur).takeWhile DirEntry.live).filter DirEntry.kept).map
        DirEntry.key)) := by
  induction fuel generalizing cur parent k with
  | zero => simp [scan_dir_block] at h
  | succ fuel ih =>
    obtain ⟨k, rfl⟩ : ∃ j, k = j + 1 := ⟨k - 1, by omega⟩
    have hk2 : fuel ≤ k := by omega
    simp only [scan_dir_block] at h
    split at h
    · rename_i hcur
      split at h
      · simp at h
      · rename_i hlen
        generalize hE : DirEntry.mk (le32 (pread g.img 8 (off_add blk_off cur)) 0)
            (le16 (pread g.img 8 (off_add blk_off cur)) 4)
            ((pread g.img 8 (off_add blk_off cur)).getD 6 0)
            ((pread g.img 8 (off_add blk_off cur)).getD 7 0)
            (pread g.img ((pread g.img 8 (off_add blk_off cur)).getD 6 0)
              (off_add (off_add blk_off cur) 8)) = E
        have hstep : disk_records g blk_off (k + 1) cur
            = E :: disk_records g blk_off k (cur + E.rec_len) := by
          rw [← hE]
          simp only [disk_records, read_dir_entry, hcur, if_true, hlen, if_false]
        rw [hstep, List.takeWhile_cons]
        split at h
        · rename_i hz
          cases h
          have hl : E.live = false := by
            rw [← hE]
            simp only [DirEntry.live, hz]
            decide
          simp [hl]
        · rename_i hz
          have hl : E.live = true := by
            rw [← hE]
            simp only [DirEntry.live]
            exact decide_eq_true hz
          have hrl : E.rec_len = le16 (pread g.img 8 (off_add blk_off cur)) 4 := by
            rw [← hE]
          simp only [hl, if_true, List.filter_cons, hrl]
          split at h
          · rename_i hskip
            have hkept : E.kept = false := by
              rw [← hE]
              show (!is_skipped_name _) = false
              rw [hskip]
              rfl
            simp only [hkept, Bool.false_eq_true, if_false]
            exact ih _ _ h k hk2
          · rename_i hskip
            have hkept : E.kept = true := by
              rw [← hE]
              show (!is_skipped_name _) = true
              rw [Bool.eq_false_iff.2 hskip]
              rfl
            simp only [hkept, if_true, List.map_cons]
            split at h
            · simp at h
            · rename_i child hchild
              have hkey : child.key = E.key := by
                rw [← hE]
                split at hchild
                · rename_i hdir
                  rw [hdir] at hchild
                  rw [hrec _ _ _ hchild]
                  show _ = (_, _, (pread g.img 8 (off_add blk_off cur)).getD 7 0)
                  rw [hdir]
                · cases hchild; rfl
              refine (ih _ _ h k hk2).trans ?_
              rw [insert_child_sorted_children]
              have hp := (insert_chain_perm parent.children child).map Node.key
              rw [List.map_cons, hkey] at hp
              exact (List.Perm.append_right _ hp).trans
                (by simpa using (List.perm_middle).symm)
    · rename_i hcur
      cases h
      simp [disk_records, hcur]

theorem scan_dir_blocks_children (g : Globals) (recurse : Node → Except Fault Node)
    (hrec : ∀ name ino t, recurse (create_node name ino EXT2_FT_DIR) = .ok t →
      t.key = (name, ino, EXT2_FT_DIR))
    (fuel : Nat) (blocks : List Nat) (parent t : Node)
    (h : scan_dir_blocks g recurse fuel blocks parent = .ok t) (k : Nat) (hk : fuel ≤ k) :
    (t.children.map Node.key).Perm (parent.children.map Node.key ++
      (((leading_entries g k blocks).filter DirEntry.kept).map DirEntry.key)) := by
  induction blocks generalizing parent with
  | nil =>
    simp only [scan_dir_blocks] at h
    cases h
    simp [leading_entries]
  | cons b rest ih =>
    simp only [scan_dir_blocks] at h
    split at h
    · simp at h
    · rename_i p1 hp1
      have h1 := scan_dir_block_children g recurse _ hrec fuel 0 parent p1 hp1 k hk
      have h2 := ih p1 h
      have hl : leading_entries g k (b :: rest)
          = (disk_records g (off_mul b g.block_size) k 0).takeWhile DirEntry.live
              ++ leading_entries g k rest := by
        simp [leading_entries]
      rw [hl, List.filter_append, List.map_append, ← List.append_assoc]
      exact h2.trans (List.Perm.append_right _ h1)

/-- Whatever `build_tree` returns for a fresh node lists the leading entries of
its blocks, and so does every directory below it. -/
theorem build_tree_complete (g : Globals) (fuel : Nat) (parent t : Node)
    (hfresh : parent.children = []) (h : build_tree g fuel parent = .ok t) (k : Nat)
    (hk : fuel ≤ k) :
    t.Complete g k ∧ ∀ n ∈ t.descendants, n.file_type = 2 → n.Complete g k := by
  induction fuel generalizing parent t with
  | zero => simp [build_tree] at h
  | succ fuel ih =>
    have hkey := build_tree_key g (fuel + 1) parent t h
    have hino : t.inode_no = parent.inode_no := congrArg (fun x => x.2.1) hkey
    simp only [build_tree] at h
    split at h
    · simp at h
    · rename_i ino hread
      split at h
      · simp at h
      · rename_i blocks hblocks
        have hrec : ∀ name i t2, build_tree g fuel (create_node name i EXT2_FT_DIR) = .ok t2 →
            t2.key = (name, i, EXT2_FT_DIR) := by
          intro name i t2 h2
          rw [build_tree_key g fuel _ t2 h2]
          rfl
        constructor
        · refine ⟨ino, blocks, by rw [hino]; exact hread, hblocks, ?_⟩
          have := scan_dir_blocks_children g _ hrec fuel blocks parent t h k (by omega)
          rw [hfresh] at this
          simpa [children_match] using this
        · refine scan_dir_blocks_preserves
            (fun n => ∀ x ∈ n.descendants, x.file_type = 2 → x.Complete g k)
            (fun c => (c.file_type = 2 → c.Complete g k) ∧
              ∀ x ∈ c.descendants, x.file_type = 2 → x.Complete g k)
            g (build_tree g fuel) ?_ ?_ ?_ fuel blocks parent t ?_ h
          · intro name i type _ htype
            refine ⟨fun h2 => absurd h2 htype, ?_⟩
            intro x hx
            rw [create_node_descendants] at hx
            cases hx
          · intro name i t2 _ h2
            have := ih (create_node name i EXT2_FT_DIR) t2 rfl h2 (by omega)
            exact ⟨⟨fun _ => this.1, this.2⟩, build_tree_name g fuel _ t2 h2⟩
          · intro p c hp hc _ x hx hd
            rcases (mem_descendants_insert p c x).1 hx with hx | hx | hx
            · rw [hx]
              exact hc.1 (by rw [← hx]; exact hd)
            · exact hc.2 x hx hd
            · exact hp x hx hd
          · intro x hx
            rw [descendants_eq, hfresh] at hx
            cases hx

/-- C11, as amended. For every directory node of the tree that `build_tree`
makes from the root — the root itself or a node below it — the data blocks of
the node's inode are enumerated, and the children of the node are, each
exactly once and with the name (up to a NUL byte), the inode number and the
file type of its entry, the entries of these blocks that stand before the
first record with inode 0 of their block and are not named `.`, `..` or
`lost+found`; the node has no other children. The bound on the records read
per block may be any number from the fuel on. -/
theorem tree_lists_leading_entries (g : Globals) (fuel : Nat) (t : Node)
    (h : build_tree g fuel root_node = .ok t) (n : Node) (hn : n = t ∨ n ∈ t.descendants)
    (hd : n.file_type = 2) (k : Nat) (hk : fuel ≤ k) : n.Complete g k := by
  have := build_tree_complete g fuel root_node t rfl h k hk
  rcases hn with hn | hn
  · rw [hn]
    exact this.1
  · exact this.2 n hn hd

/-- C11 on the directory `d` of the fixture, whose block holds `.` and `..`
only: it has no children. -/
theorem tree_lists_leading_entries_witness :
    build_tree fixture_globals 8 root_node = .ok fixture_tree ∧
    (Node.mk (ascii "d") 12 2 []).Complete fixture_globals 8 :=
  ⟨fixture_tree_built,
   tree_lists_leading_entries fixture_globals 8 fixture_tree fixture_tree_built
     (Node.mk (ascii "d") 12 2 []) (Or.inr (List.mem_cons_self _ _)) rfl 8 (Nat.le_refl 8)⟩

theorem fixture_gap_blocks :
    ∃ ino, read_inode fixture_gap_globals 2 = .ok ino ∧
      collect_data_blocks fixture_gap ino 1024 = .ok [21, 24] :=
  ⟨_, rfl, rfl⟩

/-- C11 fails behind a deleted file: on the fixture whose root directory has a
second block that starts with the record of a deleted file (inode 0) followed
by the live entry `b.txt` with inode 14, the root node has the children `d`
and `a.txt` only, so the live entries of its blocks are not its children. -/
theorem live_entry_behind_deleted_record_is_missed :
    build_tree fixture_gap_globals 8 root_node = .ok fixture_tree ∧
    (∃ ino, read_inode fixture_gap_globals 2 = .ok ino ∧
      collect_data_blocks fixture_gap ino 1024 = .ok [21, 24]) ∧
    DirEntry.mk 14 1008 5 1 (ascii "b.txt") ∈ live_entries fixture_gap_globals 8 [21, 24] ∧
    (ascii "b.txt", 14, 1) ∉ fixture_tree.children.map Node.key ∧
    ¬ children_match fixture_tree (live_entries fixture_gap_globals 8 [21, 24]) := by
  refine ⟨rfl, fixture_gap_blocks, by decide, by decide, ?_⟩
  intro hm
  have := List.Perm.length_eq hm
  revert this
  decide

/-! ## Ties of the sorted insertion -/

/-- C25 as amended. For every path `p` that does not begin with `/` and is not
`.`, `find_node(root, p)` returns what `find_node(root, "/" p)` returns. The
path `.` is the root, whereas `/.` looks for a child of the root named `.`,
which no tree of `build_tree` has. -/
theorem relative_path_starts_at_root (root : Node) :
    (∀ p : List Nat, p.head? ≠ some 47 → p ≠ ascii "." →
      find_node root root p = find_node root root (47 :: p)) ∧
    find_node root root (ascii ".") = some root ∧
    ((∀ c ∈ root.children, is_skipped_name c.name = false) →
      find_node root root (ascii "/.") = none) := by
  refine ⟨?_, ?_, ?_⟩
  · intro p hhead hdot
    by_cases hp : p = []
    · subst hp
      rfl
    · have h1 : ¬ (p = ascii "/" ∨ p = ascii ".") := by
        rintro (h | h)
        · rw [h] at hhead
          exact hhead rfl
        · exact hdot h
      have h2 : ¬ (47 :: p = ascii "/" ∨ 47 :: p = ascii ".") := by
        rintro (h | h)
        · exact hp (List.tail_eq_of_cons_eq h)
        · exact absurd (List.head_eq_of_cons_eq h) (by decide)
      unfold find_node
      simp only [strcmp_eq_zero_iff, h1, h2, if_false, ite_self, strtok_all_slash,
        path_steps_cons_slash]
  · unfold find_node
    simp [strcmp_eq_zero_iff]
  · intro hk
    have h2 : ¬ (ascii "/." = ascii "/" ∨ ascii "/." = ascii ".") := by decide
    unfold find_node
    simp only [strcmp_eq_zero_iff, h2, if_false, ite_self, strtok_all_slash]
    have hs : path_steps (ascii "/.") = [ascii "."] := by decide
    rw [hs, find_node_loop_eq_walk]
    simp only [spec_walk]
    have hnone : root.children.find? (fun ch => decide (ch.name = ascii ".")) = none := by
      rw [List.find?_eq_none]
      intro c hc
      have := hk c hc
      intro hname
      simp only [decide_eq_true_eq] at hname
      rw [hname] at this
      revert this
      decide
    rw [hnone]

/-- C25 as stated fails for the path `.`: on the tree of the fixture
`find_node(root, ".")` is the root and `find_node(root, "/.")` is NULL. -/
theorem dot_is_not_slash_dot :
    find_node fixture_tree fixture_tree (ascii ".") = some fixture_tree ∧
    find_node fixture_tree fixture_tree (ascii "/.") = none ∧
    (ascii ".").head? ≠ some 47 := by
  refine ⟨rfl, rfl, by decide⟩

/-- C25 on the fixture: `a.txt` and `/a.txt` lead to the same node. -/
theorem relative_path_starts_at_root_witness :
    find_node fixture_tree fixture_tree (ascii "a.txt")
      = find_node fixture_tree fixture_tree (ascii "/a.txt") :=
  (relative_path_starts_at_root fixture_tree).1 (ascii "a.txt") (by decide) (by decide)

/-! ## The end of the file in `print` -/

theorem command_print_of_bytes (g : Globals) (root tgt : Node) (path : List Nat)
    (ino : ext2_inode) (blocks : List Nat) (n : Int)
    (hf : find_node root root path = some tgt)
    (hi : read_inode g tgt.inode_no = .ok ino)
    (hc : collect_data_blocks g.img ino g.block_size = .ok blocks) :
    command_print g root path n =
      if n < 0 then .ok []
      else .ok (first_lines (if n.toNat = 0 then (block_bytes g blocks).count 10 else n.toNat)
            (block_bytes g blocks)
          ++ (if 0 < n.toNat ∧ n.toNat < (block_bytes g blocks).count 10 then [10] else [])) := by
  by_cases hn : n < 0
  · rw [if_pos hn]
    unfold command_print
    simp only [hf, hi, hc, hn, if_true]
  · rw [if_neg hn]
    have e : n = ((n.toNat : Nat) : Int) := (Int.toNat_of_nonneg (by omega)).symm
    have h := command_print_eq g root tgt path ino blocks n.toNat hf hi hc
    rw [← e] at h
    exact h

/-- C22. For every line cap, two lists of data blocks — of one image or of two,
with one block size or with two — whose bytes, one block after the other, are
the same sequence make the loops of `command_print` write the same: the output
loop ends in the same state and the look-ahead gives the same answer; and so
`command_print` writes the same output for two files with such block lists. -/
theorem print_joins_blocks (g1 g2 : Globals) (blocks1 blocks2 : List Nat)
    (hB : block_bytes g1 blocks1 = block_bytes g2 blocks2) :
    (∀ n st, print_blocks g1 n blocks1 st = print_blocks g2 n blocks2 st) ∧
    (∀ n counted, counted ≤ n →
      has_more_loop g1 n blocks1 counted = has_more_loop g2 n blocks2 counted) ∧
    (∀ (root1 root2 tgt1 tgt2 : Node) (path1 path2 : List Nat) (ino1 ino2 : ext2_inode)
        (n : Int),
      find_node root1 root1 path1 = some tgt1 → read_inode g1 tgt1.inode_no = .ok ino1 →
      collect_data_blocks g1.img ino1 g1.block_size = .ok blocks1 →
      find_node root2 root2 path2 = some tgt2 → read_inode g2 tgt2.inode_no = .ok ino2 →
      collect_data_blocks g2.img ino2 g2.block_size = .ok blocks2 →
      command_print g1 root1 path1 n = command_print g2 root2 path2 n) := by
  refine ⟨?_, ?_, ?_⟩
  · intro n st
    rw [print_blocks_eq_feed, print_blocks_eq_feed, hB]
  · intro n counted hle
    rw [has_more_loop_spec _ _ _ _ hle, has_more_loop_spec _ _ _ _ hle, hB]
  · intro root1 root2 tgt1 tgt2 path1 path2 ino1 ino2 n hf1 hi1 hc1 hf2 hi2 hc2
    rw [command_print_of_bytes g1 root1 tgt1 path1 ino1 blocks1 n hf1 hi1 hc1,
      command_print_of_bytes g2 root2 tgt2 path2 ino2 blocks2 n hf2 hi2 hc2, hB]

theorem pread_ne_nil (img : Image) (n off : Nat) (hn : 0 < n) (h : off + n ≤ img.size)
    (hoff : off < 2 ^ 63) : pread img n off ≠ [] := by
  apply List.ne_nil_of_length_pos
  rw [pread_length img n off hoff]
  omega

theorem text_blocks_same_bytes :
    block_bytes text_globals_1k [24, 25] = block_bytes text_globals_2k [12] := by
  have e1 : off_mul 24 1024 = 24576 := by norm_num [off_mul]
  have e2 : off_mul 25 1024 = 24576 + 1024 := by norm_num [off_mul]
  have e3 : off_mul 12 2048 = 24576 := by norm_num [off_mul]
  have hs : fixture_text.size = 1048576 := rfl
  simp only [block_bytes, text_globals_1k, text_globals_2k, e1, e2, e3]
  rw [if_neg (pread_ne_nil _ _ _ (by norm_num) (by rw [hs]; norm_num) (by norm_num)),
    if_neg (pread_ne_nil _ _ _ (by norm_num) (by rw [hs]; norm_num) (by norm_num)),
    if_neg (pread_ne_nil _ _ _ (by norm_num) (by rw [hs]; norm_num) (by norm_num)),
    List.append_nil, List.append_nil]
  exact (pread_split fixture_text 1024 1024 24576 (by rw [hs]; norm_num) (by norm_num)).symm

/-- C22 on an image with the text `hello\nworld\n` across the border of the
blocks 24 and 25 of 1024 bytes, which is inside the block 12 of 2048 bytes;
and on two files of one content, which here are one file. -/
theorem print_joins_blocks_witness :
    print_blocks text_globals_1k 0 [24, 25] ⟨[], 0, []⟩
      = print_blocks text_globals_2k 0 [12] ⟨[], 0, []⟩ ∧
    has_more_loop text_globals_1k 1 [24, 25] 0 = has_more_loop text_globals_2k 1 [12] 0 ∧
    command_print fixture_globals fixture_tree (ascii "/a.txt") 1
      = command_print fixture_globals fixture_tree (ascii "a.txt") 1 :=
  ⟨(print_joins_blocks text_globals_1k text_globals_2k [24, 25] [12]
      text_blocks_same_bytes).1 0 ⟨[], 0, []⟩,
   (print_joins_blocks text_globals_1k text_globals_2k [24, 25] [12]
      text_blocks_same_bytes).2.1 1 0 (by decide),
   (print_joins_blocks fixture_globals fixture_globals [23] [23] rfl).2.2
      fixture_tree fixture_tree (.mk (ascii "a.txt") 13 1 []) (.mk (ascii "a.txt") 13 1 [])
      (ascii "/a.txt") (ascii "a.txt")
      ⟨0x81A4, 12, [23, 0, 0, 0, 0, 0, 0, 0, 0, 0, 0, 0, 0, 0, 0]⟩
      ⟨0x81A4, 12, [23, 0, 0, 0, 0, 0, 0, 0, 0, 0, 0, 0, 0, 0, 0]⟩ 1
      fixture_find_a_txt (by decide) (by decide) (by rfl) (by decide) (by decide)⟩

/-! ## The output of `print`, exactly -/

/-- C27. What `command_print` writes is a function of the bytes `B` of the
enumerated blocks alone, the size in the inode playing no part. With `M` the
number of newlines in `B`: with no cap the output is the longest prefix of `B`
that is empty or ends with a newline (what is left of `B` holds no newline);
with a cap `n > 0` it is the prefix of `B` that ends with its `min(n, M)`-th
newline, followed by one more newline exactly when `M > n`. `B` is the bytes
of all the blocks, one after the other, when every block can be read. -/
theorem print_output_exact (g : Globals) (root tgt : Node) (path : List Nat)
    (ino : ext2_inode) (blocks : List Nat) (n : Nat)
    (hf : find_node root root path = some tgt)
    (hi : read_inode g tgt.inode_no = .ok ino)
    (hc : collect_data_blocks g.img ino g.block_size = .ok blocks) :
    (n = 0 → ∃ out rest, command_print g root path 0 = .ok out ∧
      block_bytes g blocks = out ++ rest ∧ 10 ∉ rest ∧ (out = [] ∨ out.getLast? = some 10)) ∧
    (0 < n → ∃ lines, command_print g root path (n : Int)
        = .ok (lines ++ (if n < (block_bytes g blocks).count 10 then [10] else [])) ∧
      lines <+: block_bytes g blocks ∧
      lines.count 10 = min n ((block_bytes g blocks).count 10) ∧
      (lines = [] ∨ lines.getLast? = some 10)) ∧
    ((∀ b ∈ blocks, pread g.img g.block_size (off_mul b g.block_size) ≠ []) →
      block_bytes g blocks
        = blocks.flatMap (fun b => pread g.img g.block_size (off_mul b g.block_size))) := by
  refine ⟨?_, ?_, ?_⟩
  · intro _
    have h := command_print_eq g root tgt path ino blocks 0 hf hi hc
    simp only [Nat.cast_zero, if_true, Nat.lt_irrefl, false_and, if_false,
      List.append_nil] at h
    obtain ⟨rest, h1, h2⟩ := first_lines_all (block_bytes g blocks)
    exact ⟨_, rest, h, h1, h2, first_lines_ends _ _⟩
  · intro hn
    have h := command_print_eq g root tgt path ino blocks n hf hi hc
    have hn0 : n ≠ 0 := by omega
    simp only [hn0, if_false, hn, true_and] at h
    exact ⟨_, h, first_lines_prefix _ _, first_lines_count _ _, first_lines_ends _ _⟩
  · intro hall
    clear hc
    induction blocks with
    | nil => rfl
    | cons b rest ih =>
      simp only [block_bytes, List.flatMap_cons]
      rw [if_neg (hall b (List.mem_cons_self _ _)),
        ih (fun x hx => hall x (List.mem_cons_of_mem _ hx))]

/-- C27 on the fixture: `print /a.txt` and `print /a.txt -n 1`, given the one
block of `a.txt`. -/
theorem print_output_exact_witness :
    (∃ out rest, command_print fixture_globals fixture_tree (ascii "/a.txt") 0 = .ok out ∧
      block_bytes fixture_globals [23] = out ++ rest ∧ 10 ∉ rest ∧
      (out = [] ∨ out.getLast? = some 10)) ∧
    (∃ lines, command_print fixture_globals fixture_tree (ascii "/a.txt") ((1 : Nat) : Int)
        = .ok (lines ++ (if 1 < (block_bytes fixture_globals [23]).count 10
            then [10] else [])) ∧
      lines <+: block_bytes fixture_globals [23] ∧
      lines.count 10 = min 1 ((block_bytes fixture_globals [23]).count 10) ∧
      (lines = [] ∨ lines.getLast? = some 10)) :=
  ⟨(print_output_exact fixture_globals fixture_tree (.mk (ascii "a.txt") 13 1 [])
      (ascii "/a.txt") ⟨0x81A4, 12, [23, 0, 0, 0, 0, 0, 0, 0, 0, 0, 0, 0, 0, 0, 0]⟩ [23] 0
      fixture_find_a_txt (by decide) (by decide)).1 rfl,
   (print_output_exact fixture_globals fixture_tree (.mk (ascii "a.txt") 13 1 [])
      (ascii "/a.txt") ⟨0x81A4, 12, [23, 0, 0, 0, 0, 0, 0, 0, 0, 0, 0, 0, 0, 0, 0]⟩ [23] 1
      fixture_find_a_txt (by decide) (by decide)).2.1 (by decide)⟩

/-! ## Byte offsets of blocks -/

theorem off_mul_exact (b bs : Nat) (hb : b < 2 ^ 32) (hbs : bs ≤ 2 ^ 31) :
    off_mul b bs = b * bs ∧ b * bs < 2 ^ 63 := by
  have h1 : b * bs ≤ (2 ^ 32 - 1) * 2 ^ 31 := Nat.mul_le_mul (by omega) hbs
  have h2 : b * bs < 2 ^ 63 := by
    have : (2 ^ 32 - 1) * 2 ^ 31 < 2 ^ 63 := by norm_num
    omega
  refine ⟨?_, h2⟩
  unfold off_mul
  exact Nat.mod_eq_of_lt (by
    have : (2 : Nat) ^ 63 < 2 ^ 64 := by norm_num
    omega)

/-- C23. For every 32-bit block number `b` and every block size `bs` of at
most 2³¹ bytes — every size `read_superblock` can set is one — the offset
`(off_t)b * block_size` is the exact product `b × bs`, below 2⁶³, and this is
the offset at which an indirect block is read by `collect_data_blocks`, a data
block by the look-ahead loop and the output loop of `command_print` and by
`build_tree`, and from which `read_inode` counts the inode table that starts
in block `b`. -/
theorem block_offsets_are_exact (b bs : Nat) (hb : b < 2 ^ 32) (hbs : bs ≤ 2 ^ 31) :
    off_mul b bs = b * bs ∧ b * bs < 2 ^ 63 ∧
    (∀ img, read_ptr_block img bs b
      = if (pread img bs (b * bs)).length < 4 * (bs / 4) then .error .undefined
        else .ok ((List.range (bs / 4)).map (fun i => le32 (pread img bs (b * bs)) (4 * i)))) ∧
    (∀ g : Globals, g.block_size = bs →
      (∀ n rest counted, has_more_loop g n (b :: rest) counted
        = if pread g.img bs (b * bs) = [] then false
          else if (has_more_block n (pread g.img bs (b * bs)) counted).2 then true
          else has_more_loop g n rest (has_more_block n (pread g.img bs (b * bs)) counted).1) ∧
      (∀ n rest st, print_blocks g n (b :: rest) st
        = if n = 0 ∨ st.printed < n then
            if pread g.img bs (b * bs) = [] then .ok st
            else
              match print_block n (pread g.img bs (b * bs)).length (pread g.img bs (b * bs)) st with
              | .error e => .error e
              | .ok st => print_blocks g n rest st
          else .ok st) ∧
      (∀ recurse fuel rest parent, scan_dir_blocks g recurse fuel (b :: rest) parent
        = match scan_dir_block g recurse (b * bs) fuel 0 parent with
          | .error err => .error err
          | .ok parent => scan_dir_blocks g recurse fuel rest parent) ∧
      (∀ ino, inode_offset g b ino
        = off_add (b * bs)
            (off_mul (((ino + 2 ^ 32 - 1) % 2 ^ 32) % g.inodes_per_group) g.inode_size))) ∧
    (∀ img sb g, read_superblock img = .ok (sb, g) → g.block_size ≤ 2 ^ 31) := by
  obtain ⟨e, hlt⟩ := off_mul_exact b bs hb hbs
  refine ⟨e, hlt, ?_, ?_, ?_⟩
  · intro img
    simp only [read_ptr_block, e]
  · intro g hg
    subst hg
    refine ⟨?_, ?_, ?_, ?_⟩
    · intro n rest counted
      simp only [has_more_loop, e]
    · intro n rest st
      simp only [print_blocks, e]
    · intro recurse fuel rest parent
      simp only [scan_dir_blocks, e]
    · intro ino
      simp only [inode_offset, e]
  · intro img sb g h
    obtain ⟨_, ⟨k, hk, hbs2⟩, _⟩ := read_superblock_globals img sb g h
    have := (block_size_bounds g.block_size k hk hbs2).2
    have h30 : (2 : Nat) ^ 30 ≤ 2 ^ 31 := by norm_num
    omega

/-- C23 on the block number 2²² with 1024-byte blocks: the offset is 2³², not
reduced modulo 2³². -/
theorem block_offsets_are_exact_witness :
    off_mul 4194304 1024 = 4294967296 ∧ 4194304 * 1024 < 2 ^ 63 :=
  ⟨(block_offsets_are_exact 4194304 1024 (by decide) (by decide)).1,
   (block_offsets_are_exact 4194304 1024 (by decide) (by decide)).2.1⟩

/-! ## The capacity of the block array -/

theorem nonzero_entries_length (l : List Nat) : (nonzero_entries l).length ≤ l.length :=
  List.length_filter_le _ _

theorem read_ptr_block_length (img : Image) (bs b : Nat) (ptrs : List Nat)
    (h : read_ptr_block img bs b = .ok ptrs) : ptrs.length = bs / 4 := by
  unfold read_ptr_block at h
  simp only at h
  split at h
  · cases h
  · cases h
    simp

theorem spec_each_length (f : Nat → Except Fault (List Nat)) (m : Nat)
    (hf : ∀ b x, f b = .ok x → x.length ≤ m) (l r : List Nat)
    (h : spec_each f l = .ok r) : r.length ≤ l.length * m := by
  induction l generalizing r with
  | nil =>
    simp only [spec_each] at h
    cases h
    simp
  | cons b rest ih =>
    simp only [spec_each] at h
    split at h
    · cases h
    · rename_i x hx
      split at h
      · cases h
      · rename_i y hy
        cases h
        have h1 := hf b x hx
        have h2 := ih y hy
        rw [List.length_append, List.length_cons, Nat.succ_mul]
        omega

theorem spec_single_length (img : Image) (bs b : Nat) (r : List Nat)
    (h : spec_single img bs b = .ok r) : r.length ≤ bs / 4 := by
  unfold spec_single at h
  split at h
  · cases h
  · rename_i ptrs hp
    cases h
    have := nonzero_entries_length ptrs
    rw [read_ptr_block_length img bs b ptrs hp] at this
    exact this

theorem spec_double_length (img : Image) (bs b : Nat) (r : List Nat)
    (h : spec_double img bs b = .ok r) : r.length ≤ bs / 4 * (bs / 4) := by
  unfold spec_double at h
  split at h
  · cases h
  · rename_i ind hp
    have h1 := spec_each_length _ (bs / 4) (spec_single_length img bs) _ r h
    have h2 := nonzero_entries_length ind
    rw [read_ptr_block_length img bs b ind hp] at h2
    exact le_trans h1 (Nat.mul_le_mul_right _ h2)

theorem spec_triple_length (img : Image) (bs b : Nat) (r : List Nat)
    (h : spec_triple img bs b = .ok r) : r.length ≤ bs / 4 * (bs / 4 * (bs / 4)) := by
  unfold spec_triple at h
  split at h
  · cases h
  · rename_i dbl hp
    have h1 := spec_each_length _ (bs / 4 * (bs / 4)) (spec_double_length img bs) _ r h
    have h2 := nonzero_entries_length dbl
    rw [read_ptr_block_length img bs b dbl hp] at h2
    exact le_trans h1 (Nat.mul_le_mul_right _ h2)

theorem spec_level_length (f : Nat → Except Fault (List Nat)) (m : Nat)
    (hf : ∀ b x, f b = .ok x → x.length ≤ m) (b : Nat) (r : List Nat)
    (h : spec_level f b = .ok r) : r.length ≤ m := by
  unfold spec_level at h
  split at h
  · exact hf b r h
  · cases h
    simp

theorem spec_block_sequence_length (img : Image) (ino : ext2_inode) (bs : Nat) (r : List Nat)
    (h : spec_block_sequence img ino bs = .ok r) :
    r.length ≤ 12 + bs / 4 + bs / 4 * (bs / 4) + bs / 4 * (bs / 4 * (bs / 4)) := by
  unfold spec_block_sequence at h
  split at h
  · cases h
  · rename_i s hs
    split at h
    · cases h
    · rename_i d hd
      split at h
      · cases h
      · rename_i t ht
        cases h
        have h0 := nonzero_entries_length ((List.range 12).map ino.blk)
        have h1 := spec_level_length _ _ (spec_single_length img bs) _ s hs
        have h2 := spec_level_length _ _ (spec_double_length img bs) _ d hd
        have h3 := spec_level_length _ _ (spec_triple_length img bs) _ t ht
        simp only [List.length_map, List.length_range] at h0
        simp only [List.length_append]
        omega

/-- C26, where it holds and where it fails. For the block sizes `1024 << k`
with `k ≤ 2` the block sequence of an inode, whenever its pointer blocks can
be read, has at most as many entries as the capacity computed, and
`collect_data_blocks` returns it without a store past the capacity. For
`1024 << 3` the capacity computed is 12 + 2048 + 2048²; on the image with
8192-byte blocks the sequence of the root directory has 2048³ entries more,
and `collect_data_blocks` stores past the end of its array. -/
theorem collect_count_and_capacity :
    (∀ k, k ≤ 2 → ∀ img ino r, spec_block_sequence img ino (1024 * 2 ^ k) = .ok r →
      (r.length : Int) ≤ collect_cap (1024 * 2 ^ k) ∧
      collect_data_blocks img ino (1024 * 2 ^ k) = .ok r) ∧
    (∃ r, spec_block_sequence wide_image wide_inode (1024 * 2 ^ 3) = .ok r ∧
      collect_cap (1024 * 2 ^ 3) < (r.length : Int)) ∧
    collect_data_blocks wide_image wide_inode (1024 * 2 ^ 3) = .error .undefined := by
  refine ⟨?_, ?_, wide_collect_overflows⟩
  · intro k hk img ino r hr
    have hlen := spec_block_sequence_length img ino _ r hr
    have hcap : (r.length : Int) ≤ collect_cap (1024 * 2 ^ k) := by
      have hk3 : k = 0 ∨ k = 1 ∨ k = 2 := by omega
      rcases hk3 with rfl | rfl | rfl
      · have e : collect_cap (1024 * 2 ^ 0)
            = ((12 + 256 + 256 * 256 + 256 * (256 * 256) : Nat) : Int) := by rfl
        rw [e]
        have : r.length ≤ 12 + 256 + 256 * 256 + 256 * (256 * 256) := hlen
        exact_mod_cast this
      · have e : collect_cap (1024 * 2 ^ 1)
            = ((12 + 512 + 512 * 512 + 512 * (512 * 512) : Nat) : Int) := by rfl
        rw [e]
        have : r.length ≤ 12 + 512 + 512 * 512 + 512 * (512 * 512) := hlen
        exact_mod_cast this
      · have e : collect_cap (1024 * 2 ^ 2)
            = ((12 + 1024 + 1024 * 1024 + 1024 * (1024 * 1024) : Nat) : Int) := by rfl
        rw [e]
        have : r.length ≤ 12 + 1024 + 1024 * 1024 + 1024 * (1024 * 1024) := hlen
        exact_mod_cast this
    exact ⟨hcap, collect_data_blocks_of_spec img ino _ r hr hcap⟩
  · obtain ⟨r, h1, h2⟩ := wide_spec_sequence
    refine ⟨r, h1, ?_⟩
    have e : collect_cap (1024 * 2 ^ 3) = ((12 + 2048 + 2048 * 2048 : Nat) : Int) := by rfl
    rw [e, h2]
    norm_num

/-! ## The lines of the listing and the counts of the summary -/

mutual
/-- What `print_tree` writes is its lines one after another. -/
theorem print_tree_eq_lines (g : Globals) (r s p : Bool) : (n : Node) → (pre : List Nat) →
    print_tree g r s p n pre = (print_tree_lines g r s p n pre).map List.flatten
  | .mk _ _ _ cs, pre => by
    simp only [print_tree, print_tree_lines]
    exact print_tree_chain_eq_lines g r s p cs pre
/-- What the loop of `print_tree` writes is its lines one after another. -/
theorem print_tree_chain_eq_lines (g : Globals) (r s p : Bool) : (l : List Node) →
    (pre : List Nat) →
    print_tree_chain g r s p l pre = (print_tree_lines_chain g r s p l pre).map List.flatten
  | [], pre => by simp [print_tree_chain, print_tree_lines_chain, Except.map]
  | c :: cs, pre => by
    simp only [print_tree_chain, print_tree_lines_chain]
    rw [print_tree_chain_eq_lines g r s p cs pre]
    by_cases hskip : is_skipped_name c.name = true
    · simp only [hskip, if_true]
    · simp only [hskip, if_false]
      cases attrs g s p c.inode_no with
      | error e => rfl
      | ok a =>
        simp only
        by_cases hrec : (r && decide (c.file_type = 2)) = true
        · simp only [hrec, if_true]
          rw [print_tree_eq_lines g r s p c _]
          cases print_tree_lines g r s p c (indent_below pre cs.isEmpty) with
          | error e => rfl
          | ok below =>
            cases print_tree_lines_chain g r s p cs pre with
            | error e => rfl
            | ok after => simp [Except.map]
        · simp only [hrec, if_false]
          cases print_tree_lines_chain g r s p cs pre with
          | error e => rfl
          | ok after => simp [Except.map]
end

mutual
/-- With `-r`, `count_tree` adds to its two counters together as many as
`print_tree` writes lines. -/
theorem count_tree_lines (g : Globals) (s p : Bool) : (n : Node) → (pre : List Nat) →
    (lines : List (List Nat)) → (acc : Nat × Nat) →
    print_tree_lines g true s p n pre = .ok lines →
    (count_tree n acc).1 + (count_tree n acc).2 = acc.1 + acc.2 + lines.length
  | .mk _ _ _ cs, pre, lines, acc, h => by
    simp only [print_tree_lines] at h
    simp only [count_tree]
    exact count_tree_chain_lines g s p cs pre lines acc h
/-- The loop of `count_tree` adds as many as the loop of `print_tree` writes
lines with `-r`. -/
theorem count_tree_chain_lines (g : Globals) (s p : Bool) : (l : List Node) →
    (pre : List Nat) → (lines : List (List Nat)) → (acc : Nat × Nat) →
    print_tree_lines_chain g true s p l pre = .ok lines →
    (count_tree_chain l acc).1 + (count_tree_chain l acc).2 = acc.1 + acc.2 + lines.length
  | [], pre, lines, acc, h => by
    simp only [print_tree_lines_chain] at h
    cases h
    simp [count_tree_chain]
  | c :: cs, pre, lines, acc, h => by
    simp only [print_tree_lines_chain] at h
    simp only [count_tree_chain]
    by_cases hskip : is_skipped_name c.name = true
    · rw [if_pos hskip] at h
      rw [if_pos hskip]
      exact count_tree_chain_lines g s p cs pre lines acc h
    · rw [if_neg hskip] at h
      rw [if_neg hskip]
      split at h
      · cases h
      · rename_i a ha
        simp only [Bool.true_and] at h
        by_cases hd : c.file_type = 2
        · simp only [hd, decide_True, if_true] at h ⊢
          split at h
          · cases h
          · rename_i below hbelow
            split at h
            · cases h
            · rename_i after hafter
              cases h
              have h1 := count_tree_lines g s p c _ below (acc.1 + 1, acc.2) hbelow
              have h2 := count_tree_chain_lines g s p cs pre after
                (count_tree c (acc.1 + 1, acc.2)) hafter
              simp only [List.length_cons, List.length_append]
              simp only at h1
              omega
        · simp only [hd, decide_False, Bool.false_eq_true, if_false] at h ⊢
          split at h
          · cases h
          · rename_i after hafter
            cases h
            have h2 := count_tree_chain_lines g s p cs pre after (acc.1, acc.2 + 1) hafter
            simp only [List.length_cons, List.nil_append]
            simp only at h2
            omega
end

theorem summary_loop_lines (g : Globals) (r s p : Bool) (l : List Node) (pre : List Nat)
    (lines : List (List Nat)) (acc : Nat × Nat)
    (h : print_tree_lines_chain g r s p l pre = .ok lines) :
    (summary_loop r l acc).1 + (summary_loop r l acc).2 = acc.1 + acc.2 + lines.length := by
  induction l generalizing lines acc with
  | nil =>
    simp only [print_tree_lines_chain] at h
    cases h
    simp [summary_loop]
  | cons c cs ih =>
    simp only [print_tree_lines_chain] at h
    simp only [summary_loop]
    by_cases hskip : is_skipped_name c.name = true
    · rw [if_pos hskip] at h
      rw [if_pos hskip]
      exact ih lines acc h
    · rw [if_neg hskip] at h
      rw [if_neg hskip]
      split at h
      · cases h
      · rename_i a ha
        by_cases hd : c.file_type = 2
        · simp only [hd, decide_True, Bool.and_true, if_true] at h ⊢
          cases r with
          | true =>
            simp only [if_true] at h ⊢
            split at h
            · cases h
            · rename_i below hbelow
              split at h
              · cases h
              · rename_i after hafter
                cases h
                have h1 := count_tree_lines g s p c _ below (acc.1 + 1, acc.2) hbelow
                have h2 := ih after (count_tree c (acc.1 + 1, acc.2)) hafter
                simp only [List.length_cons, List.length_append]
                simp only at h1
                omega
          | false =>
            simp only [Bool.false_eq_true, if_false] at h ⊢
            split at h
            · cases h
            · rename_i after hafter
              cases h
              have h2 := ih after (acc.1 + 1, acc.2) hafter
              simp only [List.length_cons, List.nil_append]
              simp only at h2
              omega
        · simp only [hd, decide_False, Bool.and_false, Bool.false_eq_true, if_false] at h ⊢
          split at h
          · cases h
          · rename_i after hafter
            cases h
            have h2 := ih after (acc.1, acc.2 + 1) hafter
            simp only [List.length_cons, List.nil_append]
            simp only at h2
            omega

/-- C28. Whenever `tree` on a directory target writes its summary, with any
flags, the number of lines `print_tree` wrote for the listing is
`(D − 1) + F`, where `D` and `F` are the two counts of the summary line of the
same command; the output is the header, these lines and the summary. -/
theorem listing_agrees_with_summary (g : Globals) (root tgt : Node) (path : List Nat)
    (r s p : Bool) (out : Output)
    (hf : find_node root root path = some tgt) (hd : tgt.file_type = 2)
    (hc : command_tree g root path r s p = .ok out) :
    ∃ lines header, print_tree_lines g r s p tgt [] = .ok lines ∧
      print_tree g r s p tgt [] = .ok lines.flatten ∧
      lines.length = ((summary_counts tgt r).1 - 1) + (summary_counts tgt r).2 ∧
      out.stdout = header ++ lines.flatten
        ++ summary_text (summary_counts tgt r).1 (summary_counts tgt r).2 := by
  unfold command_tree at hc
  simp only [hf, hd, ne_eq, not_true_eq_false, if_false] at hc
  split at hc
  · cases hc
  · rename_i ino hino
    rw [print_tree_eq_lines] at hc
    cases hl : print_tree_lines g r s p tgt [] with
    | error e =>
      rw [hl] at hc
      simp [Except.map] at hc
    | ok lines =>
      rw [hl] at hc
      simp only [Except.map] at hc
      cases hc
      refine ⟨lines, _, rfl, ?_, ?_, rfl⟩
      · rw [print_tree_eq_lines, hl]
        rfl
      · have hch : print_tree_lines_chain g r s p tgt.children [] = .ok lines := by
          cases tgt with
          | mk a b c cs => simpa [print_tree_lines, Node.children] using hl
        have := summary_loop_lines g r s p tgt.children [] lines (0, 0) hch
        simp only [summary_counts]
        omega

/-- C28 on the fixture: `tree / -r` writes two lines and the summary
`2 directories, 1 files`. -/
theorem listing_agrees_with_summary_witness :
    ∃ lines header, print_tree_lines fixture_globals true false false fixture_tree []
        = .ok lines ∧
      print_tree fixture_globals true false false fixture_tree [] = .ok lines.flatten ∧
      lines.length = ((summary_counts fixture_tree true).1 - 1)
        + (summary_counts fixture_tree true).2 ∧
      (Output.mk (ascii ".\n" ++ (glyph_mid ++ ascii " d\n" ++ glyph_last ++ ascii " a.txt\n")
          ++ ascii "\n2 directories, 1 files\n\n") []).stdout
        = header ++ lines.flatten
          ++ summary_text (summary_counts fixture_tree true).1
              (summary_counts fixture_tree true).2 :=
  listing_agrees_with_summary fixture_globals fixture_tree fixture_tree (ascii "/")
    true false false _ rfl rfl (by decide)

/-! ## The course of one block scan -/

theorem memchr_lt (c : Nat) (l : List Nat) (k : Nat) (h : memchr c l = some k) :
    k < l.length := by
  induction l generalizing k with
  | nil => simp [memchr] at h
  | cons x xs ih =>
    simp only [memchr] at h
    split at h
    · cases h
      simp
    · cases hm : memchr c xs with
      | none => rw [hm] at h; cases h
      | some j =>
        rw [hm] at h
        cases h
        have := ih j hm
        simp only [List.length_cons]
        omega

theorem fgets_length (size : Nat) (input line rest : List Nat)
    (h : fgets size input = some (line, rest)) : line.length ≤ size - 1 := by
  unfold fgets at h
  split at h
  · cases h
  · simp only [Option.some.injEq, Prod.mk.injEq] at h
    obtain ⟨h1, _⟩ := h
    rw [← h1, List.length_take]
    refine le_trans (Nat.min_le_left _ _) ?_
    cases hm : memchr 10 (input.take (size - 1)) with
    | none => exact Nat.min_le_left _ _
    | some i =>
      have h2 := memchr_lt 10 _ i hm
      rw [List.length_take] at h2
      have h3 := Nat.min_le_left (size - 1) input.length
      show i + 1 ≤ size - 1
      omega

theorem cstr_length (l : List Nat) : (cstr l).length ≤ l.length := by
  unfold cstr
  exact (List.takeWhile_sublist _).length_le

theorem strtok_lengths (delims s tok rest : List Nat)
    (h : strtok delims s = some (tok, rest)) :
    tok.length ≤ s.length ∧ rest.length ≤ s.length := by
  unfold strtok at h
  simp only at h
  split at h
  · cases h
  · simp only [Option.some.injEq, Prod.mk.injEq] at h
    obtain ⟨h1, h2⟩ := h
    have hd : (s.dropWhile (fun c => decide (c ∈ delims))).length ≤ s.length :=
      (List.dropWhile_sublist _).length_le
    constructor
    · rw [← h1]
      exact le_trans (List.takeWhile_sublist _).length_le hd
    · rw [← h2, List.length_drop]
      have := (List.dropWhile_sublist (fun c => !decide (c ∈ delims))
        (l := s.dropWhile (fun c => decide (c ∈ delims)))).length_le
      omega

theorem strtok_loop_lengths (delims : List Nat) (fuel : Nat) (s : List Nat) :
    ∀ tok ∈ strtok_loop delims fuel s, tok.length ≤ s.length := by
  induction fuel generalizing s with
  | zero => simp [strtok_loop]
  | succ fuel ih =>
    intro tok htok
    simp only [strtok_loop] at htok
    cases hs : strtok delims s with
    | none => rw [hs] at htok; cases htok
    | some r =>
      obtain ⟨t, rest⟩ := r
      rw [hs] at htok
      obtain ⟨h1, h2⟩ := strtok_lengths delims s t rest hs
      rcases List.mem_cons.1 htok with e | hm
      · rw [e]; exact h1
      · exact le_trans (ih rest tok hm) h2

theorem splitOn_lengths_aux (n : Nat) :
    ∀ p : List Nat, p.length ≤ n → ∀ c ∈ p.splitOn 47, c.length ≤ p.length := by
  induction n with
  | zero =>
    intro p hp c hc
    have : p = [] := List.length_eq_zero.1 (by omega)
    subst this
    simp [List.splitOn] at hc
    subst hc
    simp
  | succ n ih =>
    intro p hp c hc
    rw [splitOn_step] at hc
    rcases List.mem_cons.1 hc with e | hm
    · rw [e]
      exact (List.takeWhile_sublist _).length_le
    · by_cases h47 : 47 ∈ p
      · simp only [h47, if_true] at hm
        have hne : p.dropWhile (· ≠ 47) ≠ [] := by
          intro he
          rw [List.dropWhile_eq_nil_iff] at he
          have := he 47 h47
          simp at this
        have h1 := (List.dropWhile_sublist (fun x => decide (x ≠ 47)) (l := p)).length_le
        have h2 : 0 < (p.dropWhile (· ≠ 47)).length := List.length_pos.2 hne
        have hlt : ((p.dropWhile (· ≠ 47)).drop 1).length < p.length := by
          rw [List.length_drop]
          omega
        have := ih _ (by omega) c hm
        omega
      · simp only [h47, if_false] at hm
        cases hm

theorem splitOn_lengths (p : List Nat) : ∀ c ∈ p.splitOn 47, c.length ≤ p.length :=
  splitOn_lengths_aux p.length p (le_refl _)

theorem validate_path_short (p : List Nat) (h : p.length ≤ 255) :
    ∃ msg, validate_path p = .ok (true, msg) := by
  obtain ⟨b, msg, h1, h2⟩ := validate_path_spec p
  have hb : b = true := by
    rw [h2]
    refine ⟨by simp only [PATH_MAX_LEN]; omega, ?_⟩
    intro c hc
    have := splitOn_lengths p c hc
    simp only [EXT2_NAME_LEN]
    omega
  rw [hb] at h1
  exact ⟨msg, h1⟩

theorem parse_print_tokens_path_aux (k : Nat) :
    ∀ (toks : List (List Nat)), toks.length ≤ k →
    ∀ (has_n h2 : Bool) (n m : Int) (p0 : Option (List Nat)) (path : List Nat),
    parse_print_tokens toks has_n n p0 = .done h2 m (some path) →
    path ∈ toks ∨ p0 = some path := by
  induction k with
  | zero =>
    intro toks hk has_n h2 n m p0 path h
    have : toks = [] := List.length_eq_zero.1 (by omega)
    subst this
    simp only [parse_print_tokens, PrintArgs.done.injEq] at h
    exact Or.inr h.2.2
  | succ k ih =>
    intro toks hk has_n h2 n m p0 path h
    cases toks with
    | nil =>
      simp only [parse_print_tokens, PrintArgs.done.injEq] at h
      exact Or.inr h.2.2
    | cons tok toks =>
      simp only [List.length_cons] at hk
      have hpath : strcmp tok (ascii "-n") ≠ 0 →
          parse_print_tokens (tok :: toks) has_n n p0 = .done h2 m (some path) →
          path ∈ tok :: toks ∨ p0 = some path := by
        intro hne h
        cases p0 with
        | none =>
          have e : parse_print_tokens (tok :: toks) has_n n none
              = parse_print_tokens toks has_n n (some tok) := by
            cases toks <;> simp [parse_print_tokens, hne]
          rw [e] at h
          rcases ih toks (by omega) _ _ _ _ _ _ h with hm | hm
          · exact Or.inl (List.mem_cons_of_mem _ hm)
          · simp only [Option.some.injEq] at hm
            rw [hm]
            exact Or.inl (List.mem_cons_self _ _)
        | some q =>
          have e : parse_print_tokens (tok :: toks) has_n n (some q) = .invalid [] := by
            cases toks <;> simp [parse_print_tokens, hne]
          rw [e] at h
          cases h
      by_cases hn : strcmp tok (ascii "-n") = 0
      · cases toks with
        | nil =>
          simp [parse_print_tokens, hn] at h
        | cons num toks =>
          simp only [List.length_cons] at hk
          simp only [parse_print_tokens, hn, if_true] at h
          split at h
          · cases h
          · split at h
            · cases h
            · rcases ih toks (by omega) _ _ _ _ _ _ h with hm | hm
              · exact Or.inl (List.mem_cons_of_mem _ (List.mem_cons_of_mem _ hm))
              · exact Or.inr hm
      · exact hpath hn h

theorem parse_print_tokens_path (toks : List (List Nat)) (has_n h2 : Bool) (n m : Int)
    (path : List Nat) (h : parse_print_tokens toks has_n n none = .done h2 m (some path)) :
    path ∈ toks := by
  rcases parse_print_tokens_path_aux toks.length toks (le_refl _) _ _ _ _ _ _ h with hm | hm
  · exact hm
  · cases hm

theorem parse_tree_tokens_path (toks : List (List Nat)) (f : TreeFlags) (path : List Nat)
    (h : parse_tree_tokens toks ⟨false, false, false⟩ none = some (f, some path)) :
    path ∈ toks := by
  obtain ⟨_, _, _, _, _, h6⟩ := (parse_tree_tokens_spec toks _ f none (some path)).1 h
  simp only [Option.isSome_none, Bool.false_eq_true, if_false] at h6
  have := List.mem_of_mem_head? h6.symm
  exact (List.mem_filter.1 this).1

/-- C30. Every line `fgets` stores in the 256-byte buffer of the command loop
has at most 255 bytes, and so has the C string the round works on; every token
of it is then shorter than 256 bytes, and so the path that the `tree` branch
(a token, or `.` when there is none) or the `print` branch (a token) hands to
`validate_path` is shorter than 256 bytes and `validate_path` returns true for
it: neither of its two rejections is reached from the command loop. -/
theorem repl_paths_pass_validation (input line rest : List Nat)
    (h : fgets 256 input = some (line, rest)) :
    line.length ≤ 255 ∧ (cstr line).length ≤ 255 ∧
    (∀ tok ∈ strtok_all [32, 9, 10] (cstr line), tok.length < 256) ∧
    (∀ cmd toks, strtok_all [32, 9, 10] (cstr line) = cmd :: toks →
      (∀ f path, parse_tree_tokens toks ⟨false, false, false⟩ none = some (f, path) →
        (path.getD (ascii ".")).length < 256 ∧
        ∃ msg, validate_path (path.getD (ascii ".")) = .ok (true, msg)) ∧
      (∀ has_n n path, parse_print_tokens toks false 0 none = .done has_n n (some path) →
        path.length < 256 ∧ ∃ msg, validate_path path = .ok (true, msg))) ∧
    (∀ g root fuel, repl g root (fuel + 1) input =
      match run_line g root (cstr line) with
      | .error e => .error e
      | .ok none => .ok [⟨prompt, []⟩]
      | .ok (some o) =>
        match repl g root fuel rest with
        | .error e => .error e
        | .ok os => .ok (⟨prompt ++ o.stdout, o.stderr⟩ :: os)) := by
  have h1 : line.length ≤ 255 := fgets_length 256 input line rest h
  have h2 : (cstr line).length ≤ 255 := le_trans (cstr_length line) h1
  have h3 : ∀ tok ∈ strtok_all [32, 9, 10] (cstr line), tok.length ≤ 255 := by
    intro tok htok
    exact le_trans (strtok_loop_lengths _ _ _ tok htok) h2
  refine ⟨h1, h2, fun tok htok => Nat.lt_succ_of_le (h3 tok htok), ?_, ?_⟩
  · intro cmd toks htoks
    have h4 : ∀ tok ∈ toks, tok.length ≤ 255 := by
      intro tok htok
      exact h3 tok (by rw [htoks]; exact List.mem_cons_of_mem _ htok)
    refine ⟨?_, ?_⟩
    · intro f path hparse
      cases path with
      | none =>
        exact ⟨by decide, validate_path_short _ (by decide)⟩
      | some q =>
        have hq := h4 q (parse_tree_tokens_path toks f q hparse)
        exact ⟨Nat.lt_succ_of_le hq, validate_path_short q hq⟩
    · intro has_n n path hparse
      have hq := h4 path (parse_print_tokens_path toks _ _ _ _ path hparse)
      exact ⟨Nat.lt_succ_of_le hq, validate_path_short path hq⟩
  · intro g root fuel
    simp only [repl, h]

set_option maxRecDepth 100000 in
/-- C30 on the input `tree /d` and `exit`: the first line read is `tree /d`
with its newline, and `validate_path` returns true for `/d`. -/
theorem repl_paths_pass_validation_witness :
    fgets 256 (ascii "tree /d\nexit\n") = some (ascii "tree /d\n", ascii "exit\n") ∧
    (ascii "/d").length < 256 ∧ ∃ msg, validate_path (ascii "/d") = .ok (true, msg) :=
  ⟨by decide,
   ((repl_paths_pass_validation (ascii "tree /d\nexit\n") (ascii "tree /d\n") (ascii "exit\n")
      (by decide)).2.2.2.1 (ascii "tree") [ascii "/d"] (by decide)).1
      ⟨false, false, false⟩ (some (ascii "/d")) (by decide)⟩

/-! ## Start-up and the magic number -/

theorem pread_with_magic_length (img : Image) (v n off : Nat) :
    (pread (with_magic img v) n off).length = (pread img n off).length := by
  unfold pread with_magic
  split <;> simp

theorem pread_with_magic_getD (img : Image) (v i : Nat) (hi : i ≠ 56 ∧ i ≠ 57) :
    (pread (with_magic img v) 92 1024).getD i 0 = (pread img 92 1024).getD i 0 := by
  by_cases hlt : i < min 92 (img.size - 1024)
  · rw [pread_getD img 92 1024 i (by norm_num) hlt,
      pread_getD (with_magic img v) 92 1024 i (by norm_num) hlt]
    have hc : ¬ (1080 ≤ 1024 + i ∧ 1024 + i < 1080 + (u16 v).length) := by
      simp only [u16, List.length_cons, List.length_nil]
      omega
    simp only [with_magic, put, hc, if_false]
  · have h1 : (pread img 92 1024).length ≤ i := by
      rw [pread_length img 92 1024 (by norm_num)]
      omega
    have h2 : (pread (with_magic img v) 92 1024).length ≤ i := by
      rw [pread_with_magic_length]
      exact h1
    rw [List.getD_eq_default _ _ h1, List.getD_eq_default _ _ h2]

theorem pread_with_magic_value (img : Image) (v : Nat)
    (h : (pread img 92 1024).length = 92) :
    le16 (pread (with_magic img v) 92 1024) 56 = v % 65536 := by
  have hl : min 92 (img.size - 1024) = 92 := by
    rw [← pread_length img 92 1024 (by norm_num)]
    exact h
  have h56 : (56 : Nat) < min 92 ((with_magic img v).size - 1024) := by
    show 56 < min 92 (img.size - 1024)
    omega
  have h57 : (57 : Nat) < min 92 ((with_magic img v).size - 1024) := by
    show 57 < min 92 (img.size - 1024)
    omega
  unfold le16
  rw [pread_getD (with_magic img v) 92 1024 56 (by norm_num) h56,
    pread_getD (with_magic img v) 92 1024 (56 + 1) (by norm_num) h57]
  simp only [with_magic, put, u16, List.length_cons, List.length_nil]
  norm_num
  omega

/-- The outcome of the superblock load and the three globals it sets are the
same whatever the two bytes of the magic number hold. -/
theorem read_superblock_with_magic (img : Image) (v : Nat) :
    (read_superblock (with_magic img v)).map
        (fun r => (r.2.block_size, r.2.inode_size, r.2.inodes_per_group))
      = (read_superblock img).map
        (fun r => (r.2.block_size, r.2.inode_size, r.2.inodes_per_group)) := by
  have e24 : le32 (pread (with_magic img v) 92 1024) 24 = le32 (pread img 92 1024) 24 := by
    unfold le32
    rw [pread_with_magic_getD img v 24 (by decide), pread_with_magic_getD img v (24 + 1) (by decide),
      pread_with_magic_getD img v (24 + 2) (by decide),
      pread_with_magic_getD img v (24 + 3) (by decide)]
  have e40 : le32 (pread (with_magic img v) 92 1024) 40 = le32 (pread img 92 1024) 40 := by
    unfold le32
    rw [pread_with_magic_getD img v 40 (by decide), pread_with_magic_getD img v (40 + 1) (by decide),
      pread_with_magic_getD img v (40 + 2) (by decide),
      pread_with_magic_getD img v (40 + 3) (by decide)]
  have e88 : le16 (pread (with_magic img v) 92 1024) 88 = le16 (pread img 92 1024) 88 := by
    unfold le16
    rw [pread_with_magic_getD img v 88 (by decide), pread_with_magic_getD img v (88 + 1) (by decide)]
  unfold read_superblock
  simp only [SUPERBLOCK_OFFSET, decode_super_block, pread_with_magic_length, e24, e40, e88]
  by_cases h1 : (pread img 92 1024).length = 92
  · by_cases h2 : 20 < le32 (pread img 92 1024) 24
    · simp [h1, h2, Except.map]
    · simp [h1, h2, Except.map]
  · simp [h1, Except.map]

/-- The start-up fails exactly when one of its three steps fails, with the
fault of that step. -/
theorem startup_fails_iff (img : Image) (fuel : Nat) (e : Fault) :
    startup img fuel = .error e ↔
      (read_superblock img = .error e ∨
       ∃ sb g, read_superblock img = .ok (sb, g) ∧
         (read_group_desc img 0 g.block_size = .error e ∨
          ((∃ gd, read_group_desc img 0 g.block_size = .ok gd) ∧
            build_tree g fuel root_node = .error e))) := by
  unfold startup
  cases h1 : read_superblock img with
  | error e1 =>
    simp only [Except.error.injEq]
    constructor
    · intro h
      exact Or.inl h
    · rintro (h | ⟨sb, g, h, _⟩)
      · exact h
      · cases h
  | ok r =>
    obtain ⟨sb, g⟩ := r
    simp only
    cases h2 : read_group_desc img 0 g.block_size with
    | error e2 =>
      simp only [Except.error.injEq]
      constructor
      · intro h
        exact Or.inr ⟨sb, g, rfl, Or.inl (by rw [h2, h])⟩
      · rintro (h | ⟨sb2, g2, h, h3⟩)
        · cases h
        · cases h
          rcases h3 with h3 | ⟨⟨gd, h3⟩, _⟩
          · rw [h2] at h3
            exact Except.error.inj h3
          · rw [h2] at h3
            cases h3
    | ok gd =>
      simp only
      cases h3 : build_tree g fuel root_node with
      | error e3 =>
        simp only [Except.error.injEq]
        constructor
        · intro h
          exact Or.inr ⟨sb, g, rfl, Or.inr ⟨⟨gd, h2⟩, by rw [h3, h]⟩⟩
        · rintro (h | ⟨sb2, g2, h, h4⟩)
          · cases h
          · cases h
            rcases h4 with h4 | ⟨_, h4⟩
            · rw [h2] at h4
              cases h4
            · rw [h3] at h4
              exact Except.error.inj h4
      | ok root =>
        simp only
        constructor
        · intro h
          cases h
        · rintro (h | ⟨sb2, g2, h, h4⟩)
          · cases h
          · cases h
            rcases h4 with h4 | ⟨_, h4⟩
            · rw [h2] at h4
              cases h4
            · rw [h3] at h4
              cases h4

set_option maxRecDepth 100000 in
/-- C12 as amended. The start-up never compares the magic number with
`0xEF53`. The superblock load succeeds if and only if 92 bytes could be read at
offset 1024 and `s_log_block_size` is at most 20; whether it succeeds, with
which fault it fails and which block size, inode size and number of inodes per
group it sets are the same whatever the two bytes at offset 1024 + 56 hold, and
these bytes can make `s_magic` any 16-bit value; the structure read plays no
part after the load. The start-up fails exactly when the superblock load, the
read of group descriptor 0 or `build_tree` (a read of an inode or of a group
descriptor in it) fails. So the fixture with the magic `0xFFFF` starts up with
the tree of the fixture, the fixture cut to 2000 bytes loads its superblock
and fails at group descriptor 0, and the fixture cut to 5200 bytes reads that
descriptor and fails at the inode of the root directory. -/
theorem startup_does_not_check_magic (img : Image) :
    ((∃ r, read_superblock img = .ok r) ↔
      ((pread img 92 1024).length = 92 ∧ le32 (pread img 92 1024) 24 ≤ 20)) ∧
    (∀ v, (read_superblock (with_magic img v)).map
          (fun r => (r.2.block_size, r.2.inode_size, r.2.inodes_per_group))
        = (read_superblock img).map
          (fun r => (r.2.block_size, r.2.inode_size, r.2.inodes_per_group))) ∧
    (∀ v r, read_superblock (with_magic img v) = .ok r → r.1.s_magic = v % 65536) ∧
    (∀ sb g fuel, read_superblock img = .ok (sb, g) →
      startup img fuel =
        match read_group_desc img 0 g.block_size with
        | .error e => .error e
        | .ok _ =>
          match build_tree g fuel root_node with
          | .error e => .error e
          | .ok root => .ok (g, root)) ∧
    (∀ fuel e, startup img fuel = .error e ↔
      (read_superblock img = .error e ∨
       ∃ sb g, read_superblock img = .ok (sb, g) ∧
         (read_group_desc img 0 g.block_size = .error e ∨
          ((∃ gd, read_group_desc img 0 g.block_size = .ok gd) ∧
            build_tree g fuel root_node = .error e)))) ∧
    (startup (with_magic fixture 0xFFFF) 8).map (fun r => r.2) = .ok fixture_tree ∧
    ((read_superblock (fixture_first 2000)).map (fun r => r.2.block_size) = .ok 1024 ∧
      read_group_desc (fixture_first 2000) 0 1024 = .error .exit_failure ∧
      startup (fixture_first 2000) 8 = .error .exit_failure) ∧
    ((read_group_desc (fixture_first 5200) 0 1024).map (fun gd => gd.bg_inode_table) = .ok 5 ∧
      read_inode ⟨fixture_first 5200, 1024, 128, 128⟩ 2 = .error .exit_failure ∧
      startup (fixture_first 5200) 8 = .error .exit_failure) := by
  refine ⟨(read_superblock_succeeds_iff img).1, read_superblock_with_magic img, ?_, ?_,
    startup_fails_iff img, by rfl, ⟨by decide, by decide, by rfl⟩,
    ⟨by decide, by decide, by rfl⟩⟩
  · intro v r hr
    obtain ⟨h1, h2⟩ := read_superblock_succeeds_iff (with_magic img v)
    have hlen := (h1.1 ⟨r, hr⟩).1
    rw [pread_with_magic_length] at hlen
    rw [(h2 r hr).1]
    exact pread_with_magic_value img v hlen
  · intro sb g fuel h
    unfold startup
    rw [h]

end SsuExt2
